import Mathlib

/-!
Verification of the A* search engine in `astar/astar.go` and `astar/iface.go`
(package `astar`, repository samuel/go-astar).

The embedding is a faithful functional translation of the Go source:

* `Node` (Go `int64`) is modelled by `Int`; no claim depends on 64-bit
  wrap-around.
* Go `float32`/`float64` costs are modelled by `Rat` (exact arithmetic in
  place of IEEE floats).
* The Go `map[Node]*nodeInfo` together with the `[]*nodeInfo` heap share
  mutable records through pointers.  The model keeps a single source of truth,
  an association list `info : List (Node × NodeInfo)`, and stores only node
  identities in the heap; every field read in the Go code becomes a lookup.
* Errors returned by the two `Graph` callbacks are opaque in Go; they are
  modelled by numeric codes (`Nat`).
* The unbounded `for` loop of `FindPath` is fuel-indexed; `AResult.timeout`
  means the fuel bound was hit without a verdict.  The `pathToNode` walk of
  the Go source never terminates on a cyclic parent chain; the model detects
  this precisely (a chain longer than the number of records must repeat a
  record) and reports it as `AResult.hang`.
* The optional `Debug` / `PossiblePath` capabilities (dynamic type assertions
  in Go) are two booleans in `Config`; the notifications they would receive,
  and every callback into the graph, are collected in a `Trace`.
* `NodeInfo.stamp` and `AState.clock` are ghost instrumentation (a sequence
  number for parent/cost assignments) used only to prove the parent chains
  acyclic; no branch of the algorithm reads them.
-/

attribute [local semireducible] Rat.add Rat.mul Rat.inv

namespace AStarVer

/-- Go `type Node int64` (iface.go). -/
abbrev Node := Int

/-- Go `type Edge struct { Node Node; Cost float64 }` (iface.go). -/
structure Edge where
  node : Node
  cost : Rat
deriving Repr, DecidableEq

/-- The two mandatory callbacks of the Go `Graph` interface (iface.go).
Both are fallible; error values are opaque codes. -/
structure Graph where
  neighbors : Node → Except Nat (List Edge)
  heuristicCost : Node → Node → Except Nat Rat

/-- Go `type nodeInfo struct` (astar.go lines 12-18).  `stamp` is a ghost
field recording the clock value of the latest parent/cost assignment; it is
not in the source and nothing in the algorithm reads it. -/
structure NodeInfo where
  node : Node
  parent : Node
  index : Int
  cost : Rat
  predictedCost : Rat
  stamp : Nat
deriving Repr, DecidableEq

instance : Inhabited NodeInfo := ⟨⟨0, -1, -1, 0, 0, 0⟩⟩

/-- Go `type state struct` (astar.go lines 20-24).  `maxCost` starts as
`float32(math.Inf(1))`, modelled by `none`.  `clock` is the ghost counter
feeding `NodeInfo.stamp`. -/
structure AState where
  info : List (Node × NodeInfo)
  heap : List Node
  maxCost : Option Rat
  clock : Nat
deriving Repr, DecidableEq

/-- Lookup in the Go `map[Node]*nodeInfo`. -/
def getInfo : List (Node × NodeInfo) → Node → Option NodeInfo
  | [], _ => none
  | p :: rest, n => if p.1 = n then some p.2 else getInfo rest n

/-- Store in the Go `map[Node]*nodeInfo` (replace the binding if present,
otherwise add one). -/
def setInfo : List (Node × NodeInfo) → Node → NodeInfo → List (Node × NodeInfo)
  | [], n, r => [(n, r)]
  | p :: rest, n, r => if p.1 = n then (n, r) :: rest else p :: setInfo rest n r

/-- Write the `index` field of the record for `n` (the Go code mutates the
record through its pointer). -/
def setIndex (st : AState) (n : Node) (ix : Int) : AState :=
  match getInfo st.info n with
  | none => st
  | some r => { st with info := setInfo st.info n { r with index := ix } }

/-- The heap slot `i` (a node identity; Go stores the record pointer). -/
def heapAt (st : AState) (i : Nat) : Node := st.heap.getD i 0

/-- The priority of the record for `n`: `cost + predictedCost` (astar.go
line 51).  The default 0 is never reached when every heap entry has a
record. -/
def heapKey (st : AState) (n : Node) : Rat :=
  match getInfo st.info n with
  | some r => r.cost + r.predictedCost
  | none => 0

/-- Go `state.less` (astar.go lines 48-52). -/
def lessAt (st : AState) (i j : Nat) : Prop := heapKey st (heapAt st i) < heapKey st (heapAt st j)

instance (st : AState) (i j : Nat) : Decidable (lessAt st i j) := by
  unfold lessAt; infer_instance

/-- Go `state.swap` (astar.go lines 54-59): exchange two heap slots and
update the `index` fields of both records. -/
def heapSwap (st : AState) (i j : Nat) : AState :=
  let a := heapAt st i
  let b := heapAt st j
  let st1 := { st with heap := (st.heap.set i b).set j a }
  let st2 := setIndex st1 b (Int.ofNat i)
  setIndex st2 a (Int.ofNat j)

/-- The loop of Go `state.up` (astar.go lines 61-70) with a structural
iteration bound (so that every definition stays kernel-reducible).  Each Go
iteration strictly decreases `j`, so the bound is never the reason the loop
stops when it is at least `j + 1`. -/
def upFuel : Nat → AState → Nat → AState
  | 0, st, _ => st
  | fuel + 1, st, j =>
    let i := (j - 1) / 2
    if i = j then st
    else if lessAt st j i then upFuel fuel (heapSwap st i j) i
    else st

/-- Go `state.up` (astar.go lines 61-70). -/
def up (st : AState) (j : Nat) : AState := upFuel (j + 1) st j

/-- The loop of Go `state.down` (astar.go lines 72-88) with a structural
iteration bound, `j1 = 2*i + 1` inlined.  Each Go iteration strictly
increases `i` while it stays below `n`, so a bound of at least `n` is never
the reason the loop stops.  The Go overflow guard `j1 < 0` cannot fire on
`Nat` indices. -/
def downFuel : Nat → AState → Nat → Nat → AState
  | 0, st, _, _ => st
  | fuel + 1, st, i, n =>
    if n ≤ 2 * i + 1 then st
    else
      let j := if 2 * i + 2 < n ∧ ¬ lessAt st (2 * i + 1) (2 * i + 2) then 2 * i + 2 else 2 * i + 1
      if lessAt st j i then downFuel fuel (heapSwap st i j) j n else st

/-- Go `state.down` (astar.go lines 72-88). -/
def down (st : AState) (i n : Nat) : AState := downFuel n st i n

/-- Go `state.popBest` (astar.go lines 90-101): `none` when the heap is
empty, otherwise the extracted record (after its `index` is set to −1)
together with the updated state.  The final lookup cannot miss when every
heap entry has a record; the `default` branch is unreachable from the
initial state. -/
def popBest (st : AState) : Option (NodeInfo × AState) :=
  if st.heap.length = 0 then none
  else
    let n := st.heap.length - 1
    let st1 := heapSwap st 0 n
    let st2 := down st1 0 n
    let v := heapAt st2 n
    let st3 := { st2 with heap := st2.heap.take n }
    let st4 := setIndex st3 v (-1)
    some ((getInfo st4.info v).getD default, st4)

/-- Go `state.addNodeInfo` (astar.go lines 103-109). -/
def addNodeInfo (st : AState) (r : NodeInfo) : AState :=
  let st1 := { st with info := setInfo st.info r.node r, heap := st.heap ++ [r.node] }
  let i := st1.heap.length - 1
  let st2 := setIndex st1 r.node (Int.ofNat i)
  up st2 i

/-- Go `state.updateNodeInfo` (astar.go lines 111-116). -/
def updateNodeInfo (st : AState) (r : NodeInfo) : AState :=
  let index := r.index.toNat
  up (down st index st.heap.length) index

/-- The backward walk of Go `state.pathToNode` (astar.go lines 26-38),
accumulating the path already in start-to-end order (the Go code appends and
reverses at the end). -/
def pathToNodeAux (info : List (Node × NodeInfo)) :
    Nat → NodeInfo → List Node → Option (List Node)
  | 0, _, _ => none
  | fuel + 1, r, acc =>
    match getInfo info r.parent with
    | none => some (r.node :: acc)
    | some r2 => pathToNodeAux info fuel r2 (r.node :: acc)

/-- Go `state.pathToNode`.  The source loops until it meets a node with no
record; on a cyclic parent chain it never terminates.  A terminating chain
visits pairwise distinct records, so `info.length + 1` steps of fuel are
exhausted exactly when the source diverges; that case is `none`. -/
def pathToNode (st : AState) (r : NodeInfo) : Option (List Node) :=
  pathToNodeAux st.info (st.info.length + 1) r []

/-- One `VisitedNode` notification of the optional `Debug` capability
(iface.go lines 30-32). -/
structure DebugEv where
  node : Node
  parentNode : Node
  currentCost : Rat
  predictedCost : Rat
deriving Repr, DecidableEq

/-- One `PossiblePath` notification (iface.go lines 26-28).  `improving` is
ghost instrumentation naming the call site: `true` for the notification
emitted after the goal record was created or improved (astar.go line 214),
`false` for the alternate-route call site (astar.go line 205). -/
structure PPEv where
  path : List Node
  cost : Rat
  improving : Bool
deriving Repr, DecidableEq

instance {ε α : Type} [DecidableEq ε] [DecidableEq α] : DecidableEq (Except ε α) := fun a b =>
  match a, b with
  | .error x, .error y => if h : x = y then .isTrue (by rw [h]) else .isFalse (by simp [h])
  | .error _, .ok _ => .isFalse (by simp)
  | .ok _, .error _ => .isFalse (by simp)
  | .ok x, .ok y => if h : x = y then .isTrue (by rw [h]) else .isFalse (by simp [h])

/-- A record of one callback into the graph, with its outcome. -/
inductive GCall where
  | heur (a b : Node) (r : Except Nat Rat)
  | neigh (n : Node) (r : Except Nat (List Edge))
deriving Repr, DecidableEq

/-- Everything one `FindPath` invocation emits besides its result. -/
structure Trace where
  debug : List DebugEv
  pp : List PPEv
  calls : List GCall
deriving Repr, DecidableEq

def Trace.append (t u : Trace) : Trace :=
  ⟨t.debug ++ u.debug, t.pp ++ u.pp, t.calls ++ u.calls⟩

/-- The empty trace. -/
def Trace.nil : Trace := ⟨[], [], []⟩

/-- `c < maxCost`, where `none` is `+∞` (astar.go lines 200 and 210). -/
def ltMax (c : Rat) (m : Option Rat) : Prop :=
  match m with
  | none => True
  | some v => c < v

instance (c : Rat) (m : Option Rat) : Decidable (ltMax c m) := by
  unfold ltMax; cases m <;> infer_instance

/-- `c ≥ maxCost`, where `none` is `+∞` (astar.go line 154). -/
def geMax (c : Rat) (m : Option Rat) : Prop :=
  match m with
  | none => False
  | some v => v ≤ c

instance (c : Rat) (m : Option Rat) : Decidable (geMax c m) := by
  unfold geMax; cases m <;> infer_instance

/-- One invocation's fixed data: the graph, the goal node, and whether the
two optional capabilities are implemented (the Go type assertions
`mp.(Debug)` and `mp.(PossiblePath)`). -/
structure Config where
  g : Graph
  endN : Node
  hasDebug : Bool
  hasPossible : Bool

/-- Outcome of processing a prefix of the neighbor list. -/
inductive RelaxOut where
  | ok (st : AState)
  | fail (e : Nat)
  | hang
deriving Repr, DecidableEq

/-- `if cost < state.maxCost { state.maxCost = cost }` (astar.go lines
200-202 and 210-212). -/
def maxUpd (st : AState) (c : Rat) : AState :=
  if ltMax c st.maxCost then { st with maxCost := some c } else st

/-- Go lines 209-216: after a record for `edge.Node` was created or improved,
if that target is the goal node, lower `maxCost` and notify `PossiblePath`
with the reconstructed path and the record's cost. -/
def afterChange (cfg : Config) (edge : Edge) (cost : Rat) (st : AState)
    (calls : List GCall) : RelaxOut × List PPEv × List GCall :=
  if edge.node = cfg.endN then
    let st1 := maxUpd st cost
    if cfg.hasPossible then
      let ni := (getInfo st1.info edge.node).getD default
      match pathToNode st1 ni with
      | none => (.hang, [], calls)
      | some p => (.ok st1, [⟨p, ni.cost, true⟩], calls)
    else (.ok st1, [], calls)
  else (.ok st, [], calls)

/-- The record creation of astar.go lines 176-187: a fresh record for
`edge.Node` with parent `curNode`, registered and pushed (the `index` 0 in
the literal is immediately overwritten by `addNodeInfo`, as in Go, where the
zero value is replaced). -/
def createState (st : AState) (curNode : Node) (edge : Edge) (p cost : Rat) : AState :=
  addNodeInfo { st with clock := st.clock + 1 } ⟨edge.node, curNode, 0, cost, p, st.clock⟩

/-- The record improvement of astar.go lines 188-198: overwrite parent and
cost, then re-sift in place when the record is open (`index ≥ 0`) or push it
back otherwise. -/
def improveState (st : AState) (curNode : Node) (edge : Edge) (ni : NodeInfo)
    (cost : Rat) : AState :=
  let r : NodeInfo := { ni with parent := curNode, cost := cost, stamp := st.clock }
  let st1 := { st with info := setInfo st.info edge.node r, clock := st.clock + 1 }
  if r.index ≥ 0 then updateNodeInfo st1 r else addNodeInfo st1 r

/-- The body of the Go edge loop (astar.go lines 164-216) for one edge.
Field reads of `current` go through the lookup table because the Go code
reads them through a pointer that the loop may have mutated (so `cur` below
is the record for `curNode` as it stands now). -/
def relaxEdge (cfg : Config) (curNode : Node) (st : AState) (edge : Edge) :
    RelaxOut × List PPEv × List GCall :=
  let cur := (getInfo st.info curNode).getD default
  if edge.node = cur.parent then (.ok st, [], [])
  else
    let cost := cur.cost + edge.cost
    match getInfo st.info edge.node with
    | none =>
      match cfg.g.heuristicCost edge.node cfg.endN with
      | .error e => (.fail e, [], [.heur edge.node cfg.endN (.error e)])
      | .ok p =>
        afterChange cfg edge cost (createState st curNode edge p cost)
          [.heur edge.node cfg.endN (.ok p)]
    | some ni =>
      if cost < ni.cost then
        afterChange cfg edge cost (improveState st curNode edge ni cost) []
      else if edge.node = cfg.endN then
        let st1 := maxUpd st cost
        if cfg.hasPossible then
          match pathToNode st1 ((getInfo st1.info curNode).getD default) with
          | none => (.hang, [], [])
          | some p => (.ok st1, [⟨p ++ [cfg.endN], cost, false⟩], [])
        else (.ok st1, [], [])
      else (.ok st, [], [])

/-- Process the whole neighbor list in order, stopping at the first failure
(heuristic error) or divergence, as the Go loop does. -/
def relaxEdges (cfg : Config) (curNode : Node) :
    AState → List Edge → RelaxOut × List PPEv × List GCall
  | st, [] => (.ok st, [], [])
  | st, e :: rest =>
    match relaxEdge cfg curNode st e with
    | (.ok st1, pp, cs) =>
      match relaxEdges cfg curNode st1 rest with
      | (out, pp2, cs2) => (out, pp ++ pp2, cs ++ cs2)
    | (.fail er, pp, cs) => (.fail er, pp, cs)
    | (.hang, pp, cs) => (.hang, pp, cs)

/-- The result of one `FindPath` invocation.  `found`, `impossible` and
`gerr` are the three Go returns (path, `ErrImpossible`, propagated graph
error); `hang` models divergence inside `pathToNode`; `timeout` means the
fuel bound was reached without a verdict. -/
inductive AResult where
  | found (p : List Node)
  | impossible
  | gerr (e : Nat)
  | hang
  | timeout
deriving Repr, DecidableEq

/-- Verdict of one main-loop iteration. -/
inductive StepRes where
  | cont (st : AState)
  | stop (r : AResult)
deriving Repr, DecidableEq

/-- The expansion of a popped record: neighbor enumeration plus the edge loop
(astar.go lines 160-217).  This part of an iteration never reads the Debug
capability flag. -/
def expand (cfg : Config) (current : NodeInfo) (st1 : AState) :
    StepRes × List PPEv × List GCall :=
  match cfg.g.neighbors current.node with
  | .error e => (.stop (.gerr e), [], [.neigh current.node (.error e)])
  | .ok es =>
    match relaxEdges cfg current.node st1 es with
    | (.ok st2, pp, cs) => (.cont st2, pp, .neigh current.node (.ok es) :: cs)
    | (.fail e, pp, cs) => (.stop (.gerr e), pp, .neigh current.node (.ok es) :: cs)
    | (.hang, pp, cs) => (.stop .hang, pp, .neigh current.node (.ok es) :: cs)

/-- One iteration of the Go `FindPath` main loop (astar.go lines 144-218). -/
def step (cfg : Config) (st : AState) : StepRes × Trace :=
  match popBest st with
  | none => (.stop .impossible, Trace.nil)
  | some (current, st1) =>
    if current.node = cfg.endN then
      match pathToNode st1 current with
      | none => (.stop .hang, Trace.nil)
      | some p => (.stop (.found p), Trace.nil)
    else if geMax current.cost st1.maxCost then (.cont st1, Trace.nil)
    else
      let dbg : List DebugEv :=
        if cfg.hasDebug then
          [⟨current.node, current.parent, current.cost, current.predictedCost⟩]
        else []
      match expand cfg current st1 with
      | (res, pp, cs) => (res, ⟨dbg, pp, cs⟩)

/-- The fuel-indexed main loop. -/
def loop (cfg : Config) : Nat → AState → AResult × Trace
  | 0, _ => (.timeout, Trace.nil)
  | fuel + 1, st =>
    match step cfg st with
    | (.stop r, tr) => (r, tr)
    | (.cont st1, tr) =>
      match loop cfg fuel st1 with
      | (r, tr2) => (r, tr.append tr2)

/-- The search state after Go lines 130-141: one record for `start` with
cost 0, parent −1, and the heuristic estimate to the goal. -/
def initState (pCost : Rat) (start : Node) : AState :=
  addNodeInfo ⟨[], [], none, 1⟩ ⟨start, -1, 0, 0, pCost, 0⟩

/-- Go `FindPath` (astar.go lines 121-219), with its instrumentation trace.
The `mapCapacity` computation of lines 122-128 only sizes the Go map and has
no observable effect, so it is not modelled. -/
def findPathT (g : Graph) (hasDebug hasPossible : Bool) (fuel : Nat)
    (start endN : Node) : AResult × Trace :=
  match g.heuristicCost start endN with
  | .error e => (.gerr e, ⟨[], [], [.heur start endN (.error e)]⟩)
  | .ok p =>
    match loop ⟨g, endN, hasDebug, hasPossible⟩ fuel (initState p start) with
    | (r, tr) => (r, (⟨[], [], [.heur start endN (.ok p)]⟩ : Trace).append tr)

/-- Go `FindPath`, result only. -/
def FindPath (g : Graph) (hasDebug hasPossible : Bool) (fuel : Nat)
    (start endN : Node) : AResult :=
  (findPathT g hasDebug hasPossible fuel start endN).1

/-! ### Valid paths of a graph

Used to state reachability and optimality: a path is a node sequence in
which each consecutive pair is one of the edges `neighbors` reports, and its
cost is the sum of those edges' costs. -/

/-- The graph reports an edge from `a` to `b` with cost `w`. -/
def ReportsEdge (g : Graph) (a b : Node) (w : Rat) : Prop :=
  ∃ es, g.neighbors a = .ok es ∧ Edge.mk b w ∈ es

/-- `PathTo g a t p c`: `p` is a valid path from `a` to `t` of total cost
`c`, every consecutive pair being an edge `neighbors` reports. -/
inductive PathTo (g : Graph) : Node → Node → List Node → Rat → Prop
  | nil (a : Node) : PathTo g a a [a] 0
  | cons (a b t : Node) (w : Rat) (p : List Node) (c : Rat)
      (h1 : ReportsEdge g a b w) (h2 : PathTo g b t p c) :
      PathTo g a t (a :: p) (w + c)

/-! ### Basic facts about the lookup table -/

theorem getInfo_setInfo_self (l : List (Node × NodeInfo)) (n : Node) (r : NodeInfo) :
    getInfo (setInfo l n r) n = some r := by
  induction l with
  | nil => simp [setInfo, getInfo]
  | cons p rest ih =>
    by_cases h : p.1 = n <;> simp [setInfo, getInfo, h, ih]

theorem getInfo_setInfo_ne (l : List (Node × NodeInfo)) (n m : Node) (r : NodeInfo)
    (h : m ≠ n) : getInfo (setInfo l n r) m = getInfo l m := by
  have h2 : ¬ (n = m) := fun hh => h hh.symm
  induction l with
  | nil => simp [setInfo, getInfo, h2]
  | cons p rest ih =>
    by_cases hp : p.1 = n
    · simp [setInfo, getInfo, hp, h2]
    · by_cases hm : p.1 = m <;> simp [setInfo, getInfo, hp, hm, ih, h, h2]

/-! ### Claim C4: the start = end degenerate case -/

theorem initState_eq (p : Rat) (s : Node) :
    initState p s = ⟨[(s, ⟨s, -1, 0, 0, p, 0⟩)], [s], none, 1⟩ := by
  simp [initState, addNodeInfo, setInfo, setIndex, getInfo, up, upFuel, heapAt]

theorem step_of_start_eq_end (cfg : Config) (p : Rat) (s : Node) (hs : s ≠ -1)
    (he : cfg.endN = s) :
    step cfg (initState p s) = (.stop (.found [s]), Trace.nil) := by
  have hs2 : ¬ (s = -1) := hs
  simp [initState_eq, step, popBest, heapSwap, heapAt, setIndex, getInfo, setInfo,
    down, downFuel, pathToNode, pathToNodeAux, he, hs2]

/-- A graph with no edges whose heuristic always succeeds with 0; used as the
explicit input of several counterexamples. -/
def gEmpty : Graph := ⟨fun _ => .ok [], fun _ _ => .ok 0⟩

/-- Claim C4: as stated ("for every node start") the claim fails at
`start = -1`: the search pops the start record, sees the goal, and the Go
`pathToNode` walk never terminates, because the start record's parent
sentinel −1 is the start node itself, so the parent chain is cyclic.  The
model reports the divergence as `hang`; no fuel ever yields the path
`[-1]`. -/
theorem claim_C4_counterexample :
    FindPath gEmpty false false 5 (-1) (-1) = .hang ∧
      ∀ fuel, FindPath gEmpty false false fuel (-1) (-1) ≠ .found [-1] := by
  constructor
  · decide
  · intro fuel
    match fuel with
    | 0 => decide
    | n + 1 =>
      have hstep : step ⟨gEmpty, -1, false, false⟩ (initState 0 (-1)) =
          (.stop .hang, Trace.nil) := by decide
      have hheur : gEmpty.heuristicCost (-1) (-1) = .ok 0 := rfl
      simp [FindPath, findPathT, hheur, loop, hstep, Trace.append, Trace.nil]

/-- Claim C4 (amended): for every node `start ≠ -1` whose heuristic call
succeeds, `FindPath(graph, start, start)` returns the single-element path
`[start]` (one loop iteration of fuel suffices). -/
theorem claim_C4 (g : Graph) (hd hp : Bool) (fuel : Nat) (s : Node) (q : Rat)
    (hs : s ≠ -1) (hq : g.heuristicCost s s = .ok q) (hf : 1 ≤ fuel) :
    FindPath g hd hp fuel s s = .found [s] := by
  obtain ⟨k, rfl⟩ : ∃ k, fuel = k + 1 := ⟨fuel - 1, by omega⟩
  have hstep := step_of_start_eq_end ⟨g, s, hd, hp⟩ q s hs rfl
  simp [FindPath, findPathT, hq, loop, hstep]

/-- Witness for `claim_C4` at a concrete input. -/
theorem claim_C4_witness : FindPath gEmpty false false 1 0 0 = .found [0] :=
  claim_C4 gEmpty false false 1 0 0 (by decide) (by decide) (by decide)

/-! ### Claim C9: the Debug hook is purely observational -/

theorem relaxEdge_debug_irrel (g : Graph) (e : Node) (d1 d2 hp : Bool)
    (n : Node) (st : AState) (ed : Edge) :
    relaxEdge ⟨g, e, d1, hp⟩ n st ed = relaxEdge ⟨g, e, d2, hp⟩ n st ed := rfl

theorem relaxEdges_debug_irrel (g : Graph) (e : Node) (d1 d2 hp : Bool)
    (n : Node) : ∀ (es : List Edge) (st : AState),
    relaxEdges ⟨g, e, d1, hp⟩ n st es = relaxEdges ⟨g, e, d2, hp⟩ n st es := by
  intro es
  induction es with
  | nil => exact fun st => rfl
  | cons a rest ih =>
    intro st
    simp only [relaxEdges, relaxEdge_debug_irrel g e d1 d2 hp n st a]
    cases hrel : relaxEdge ⟨g, e, d2, hp⟩ n st a with
    | mk out pcs =>
      cases out <;> simp [ih]

theorem expand_debug_irrel (g : Graph) (e : Node) (d1 d2 hp : Bool)
    (cur : NodeInfo) (st1 : AState) :
    expand ⟨g, e, d1, hp⟩ cur st1 = expand ⟨g, e, d2, hp⟩ cur st1 := by
  unfold expand
  dsimp only
  cases hnb : g.neighbors cur.node with
  | error er => rfl
  | ok es => simp only [relaxEdges_debug_irrel g e d1 d2 hp cur.node es st1]

theorem step_debug_proj (g : Graph) (e : Node) (d1 d2 hp : Bool) (st : AState) :
    (step ⟨g, e, d1, hp⟩ st).1 = (step ⟨g, e, d2, hp⟩ st).1 ∧
    (step ⟨g, e, d1, hp⟩ st).2.pp = (step ⟨g, e, d2, hp⟩ st).2.pp ∧
    (step ⟨g, e, d1, hp⟩ st).2.calls = (step ⟨g, e, d2, hp⟩ st).2.calls := by
  unfold step
  dsimp only
  cases hpop : popBest st with
  | none => exact ⟨rfl, rfl, rfl⟩
  | some pr =>
    obtain ⟨cur, st1⟩ := pr
    dsimp only
    by_cases hend : cur.node = e
    · rw [if_pos hend, if_pos hend]
      cases hpath : pathToNode st1 cur <;> exact ⟨rfl, rfl, rfl⟩
    · rw [if_neg hend, if_neg hend]
      by_cases hge : geMax cur.cost st1.maxCost
      · rw [if_pos hge, if_pos hge]; exact ⟨rfl, rfl, rfl⟩
      · rw [if_neg hge, if_neg hge, expand_debug_irrel g e d1 d2 hp cur st1]
        cases hex : expand ⟨g, e, d2, hp⟩ cur st1 with
        | mk res pcs =>
          obtain ⟨pp, cs⟩ := pcs
          exact ⟨rfl, rfl, rfl⟩

theorem loop_debug_proj (g : Graph) (e : Node) (d1 d2 hp : Bool) :
    ∀ fuel st,
      (loop ⟨g, e, d1, hp⟩ fuel st).1 = (loop ⟨g, e, d2, hp⟩ fuel st).1 ∧
      (loop ⟨g, e, d1, hp⟩ fuel st).2.pp = (loop ⟨g, e, d2, hp⟩ fuel st).2.pp ∧
      (loop ⟨g, e, d1, hp⟩ fuel st).2.calls = (loop ⟨g, e, d2, hp⟩ fuel st).2.calls := by
  intro fuel
  induction fuel with
  | zero => exact fun st => ⟨rfl, rfl, rfl⟩
  | succ n ih =>
    intro st
    have hs := step_debug_proj g e d1 d2 hp st
    rcases h1 : step ⟨g, e, d1, hp⟩ st with ⟨o1, t1⟩
    rcases h2 : step ⟨g, e, d2, hp⟩ st with ⟨o2, t2⟩
    rw [h1, h2] at hs
    obtain ⟨hso, hsp, hsc⟩ := hs
    dsimp only at hso hsp hsc
    cases o1 with
    | stop r =>
      cases o2 with
      | stop r2 =>
        cases hso
        simp only [loop, h1, h2]
        exact ⟨by trivial, hsp, hsc⟩
      | cont st2 => cases hso
    | cont st1 =>
      cases o2 with
      | stop r2 => cases hso
      | cont st2 =>
        cases hso
        obtain ⟨hlo, hlp, hlc⟩ := ih st1
        simp only [loop, h1, h2]
        exact ⟨hlo, by simp [Trace.append, hsp, hlp], by simp [Trace.append, hsc, hlc]⟩

/-- Claim C9: the Debug capability is purely observational: whether or not
the graph implements it (and hence whether the VisitedNode notifications
fire), the result of FindPath is identical, as are the PossiblePath
notifications and the sequence of graph callbacks. -/
theorem claim_C9 (g : Graph) (d1 d2 hp : Bool) (fuel : Nat) (s e : Node) :
    (findPathT g d1 hp fuel s e).1 = (findPathT g d2 hp fuel s e).1 ∧
    (findPathT g d1 hp fuel s e).2.pp = (findPathT g d2 hp fuel s e).2.pp ∧
    (findPathT g d1 hp fuel s e).2.calls = (findPathT g d2 hp fuel s e).2.calls := by
  cases hh : g.heuristicCost s e with
  | error er => simp [findPathT, hh]
  | ok p =>
    obtain ⟨hlo, hlp, hlc⟩ := loop_debug_proj g e d1 d2 hp fuel (initState p s)
    simp only [findPathT, hh]
    exact ⟨hlo, by simp [Trace.append, hlp], by simp [Trace.append, hlc]⟩

/-! ### Records through the heap operations

The heap operations (`heapSwap`, `up`, `down`, `popBest`, the sift parts of
`addNodeInfo` / `updateNodeInfo`) mutate only the `index` field of records;
everything else about the lookup table is untouched.  `SameCores` captures
this. -/

/-- The fields of a record other than its heap index. -/
def NodeInfo.core (r : NodeInfo) : Node × Node × Rat × Rat × Nat :=
  (r.node, r.parent, r.cost, r.predictedCost, r.stamp)

/-- Two lookup tables hold the same records up to heap indices. -/
def SameCores (a b : List (Node × NodeInfo)) : Prop :=
  ∀ n, (getInfo a n).map NodeInfo.core = (getInfo b n).map NodeInfo.core

theorem sameCores_refl (a : List (Node × NodeInfo)) : SameCores a a := fun _ => rfl

theorem sameCores_trans {a b c : List (Node × NodeInfo)}
    (h1 : SameCores a b) (h2 : SameCores b c) : SameCores a c :=
  fun n => (h1 n).trans (h2 n)

theorem setIndex_cores (st : AState) (n : Node) (ix : Int) :
    SameCores st.info (setIndex st n ix).info := by
  intro m
  unfold setIndex
  cases hn : getInfo st.info n with
  | none => rfl
  | some r =>
    by_cases hm : m = n
    · subst hm
      simp [getInfo_setInfo_self, hn, NodeInfo.core]
    · simp [getInfo_setInfo_ne _ _ _ _ hm]

theorem setIndex_heap (st : AState) (n : Node) (ix : Int) :
    (setIndex st n ix).heap = st.heap := by
  unfold setIndex
  cases hn : getInfo st.info n <;> rfl

theorem setIndex_maxCost (st : AState) (n : Node) (ix : Int) :
    (setIndex st n ix).maxCost = st.maxCost := by
  unfold setIndex
  cases hn : getInfo st.info n <;> rfl

theorem setIndex_clock (st : AState) (n : Node) (ix : Int) :
    (setIndex st n ix).clock = st.clock := by
  unfold setIndex
  cases hn : getInfo st.info n <;> rfl

theorem heapSwap_cores (st : AState) (i j : Nat) :
    SameCores st.info (heapSwap st i j).info := by
  unfold heapSwap
  dsimp only
  exact sameCores_trans
    (setIndex_cores { st with heap := (st.heap.set i (heapAt st j)).set j (heapAt st i) }
      (heapAt st j) (Int.ofNat i))
    (setIndex_cores _ _ _)

theorem heapSwap_maxCost (st : AState) (i j : Nat) :
    (heapSwap st i j).maxCost = st.maxCost := by
  unfold heapSwap
  rw [setIndex_maxCost, setIndex_maxCost]

theorem heapSwap_clock (st : AState) (i j : Nat) :
    (heapSwap st i j).clock = st.clock := by
  unfold heapSwap
  rw [setIndex_clock, setIndex_clock]

theorem heapSwap_heap_length (st : AState) (i j : Nat) :
    (heapSwap st i j).heap.length = st.heap.length := by
  unfold heapSwap
  rw [setIndex_heap, setIndex_heap]
  simp

theorem upFuel_cores (fuel : Nat) : ∀ (st : AState) (j : Nat),
    SameCores st.info (upFuel fuel st j).info := by
  induction fuel with
  | zero => exact fun st j => sameCores_refl _
  | succ k ih =>
    intro st j
    unfold upFuel
    dsimp only
    by_cases h1 : (j - 1) / 2 = j
    · rw [if_pos h1]; exact sameCores_refl _
    · rw [if_neg h1]
      by_cases h2 : lessAt st j ((j - 1) / 2)
      · rw [if_pos h2]
        exact sameCores_trans (heapSwap_cores _ _ _) (ih _ _)
      · rw [if_neg h2]; exact sameCores_refl _

theorem upFuel_maxCost (fuel : Nat) : ∀ (st : AState) (j : Nat),
    (upFuel fuel st j).maxCost = st.maxCost := by
  induction fuel with
  | zero => exact fun st j => rfl
  | succ k ih =>
    intro st j
    unfold upFuel
    dsimp only
    by_cases h1 : (j - 1) / 2 = j
    · rw [if_pos h1]
    · rw [if_neg h1]
      by_cases h2 : lessAt st j ((j - 1) / 2)
      · rw [if_pos h2, ih, heapSwap_maxCost]
      · rw [if_neg h2]

theorem upFuel_clock (fuel : Nat) : ∀ (st : AState) (j : Nat),
    (upFuel fuel st j).clock = st.clock := by
  induction fuel with
  | zero => exact fun st j => rfl
  | succ k ih =>
    intro st j
    unfold upFuel
    dsimp only
    by_cases h1 : (j - 1) / 2 = j
    · rw [if_pos h1]
    · rw [if_neg h1]
      by_cases h2 : lessAt st j ((j - 1) / 2)
      · rw [if_pos h2, ih, heapSwap_clock]
      · rw [if_neg h2]

theorem downFuel_cores (fuel : Nat) : ∀ (st : AState) (i n : Nat),
    SameCores st.info (downFuel fuel st i n).info := by
  induction fuel with
  | zero => exact fun st i n => sameCores_refl _
  | succ k ih =>
    intro st i n
    unfold downFuel
    dsimp only
    by_cases h1 : n ≤ 2 * i + 1
    · rw [if_pos h1]; exact sameCores_refl _
    · rw [if_neg h1]
      set j := if 2 * i + 2 < n ∧ ¬ lessAt st (2 * i + 1) (2 * i + 2) then 2 * i + 2
        else 2 * i + 1 with hj
      by_cases h2 : lessAt st j i
      · rw [if_pos h2]
        exact sameCores_trans (heapSwap_cores _ _ _) (ih _ _ _)
      · rw [if_neg h2]; exact sameCores_refl _

theorem downFuel_maxCost (fuel : Nat) : ∀ (st : AState) (i n : Nat),
    (downFuel fuel st i n).maxCost = st.maxCost := by
  induction fuel with
  | zero => exact fun st i n => rfl
  | succ k ih =>
    intro st i n
    unfold downFuel
    dsimp only
    by_cases h1 : n ≤ 2 * i + 1
    · rw [if_pos h1]
    · rw [if_neg h1]
      set j := if 2 * i + 2 < n ∧ ¬ lessAt st (2 * i + 1) (2 * i + 2) then 2 * i + 2
        else 2 * i + 1 with hj
      by_cases h2 : lessAt st j i
      · rw [if_pos h2, ih, heapSwap_maxCost]
      · rw [if_neg h2]

theorem downFuel_clock (fuel : Nat) : ∀ (st : AState) (i n : Nat),
    (downFuel fuel st i n).clock = st.clock := by
  induction fuel with
  | zero => exact fun st i n => rfl
  | succ k ih =>
    intro st i n
    unfold downFuel
    dsimp only
    by_cases h1 : n ≤ 2 * i + 1
    · rw [if_pos h1]
    · rw [if_neg h1]
      set j := if 2 * i + 2 < n ∧ ¬ lessAt st (2 * i + 1) (2 * i + 2) then 2 * i + 2
        else 2 * i + 1 with hj
      by_cases h2 : lessAt st j i
      · rw [if_pos h2, ih, heapSwap_clock]
      · rw [if_neg h2]

theorem up_cores (st : AState) (j : Nat) : SameCores st.info (up st j).info :=
  upFuel_cores _ _ _

theorem down_cores (st : AState) (i n : Nat) : SameCores st.info (down st i n).info :=
  downFuel_cores _ _ _ _

theorem up_maxCost (st : AState) (j : Nat) : (up st j).maxCost = st.maxCost :=
  upFuel_maxCost _ _ _

theorem down_maxCost (st : AState) (i n : Nat) : (down st i n).maxCost = st.maxCost :=
  downFuel_maxCost _ _ _ _

theorem up_clock (st : AState) (j : Nat) : (up st j).clock = st.clock :=
  upFuel_clock _ _ _

theorem down_clock (st : AState) (i n : Nat) : (down st i n).clock = st.clock :=
  downFuel_clock _ _ _ _

theorem popBest_eq_some {st : AState} {cur : NodeInfo} {st1 : AState}
    (h : popBest st = some (cur, st1)) :
    st.heap.length ≠ 0 ∧
    st1 = setIndex
      { down (heapSwap st 0 (st.heap.length - 1)) 0 (st.heap.length - 1) with
        heap := (down (heapSwap st 0 (st.heap.length - 1)) 0
          (st.heap.length - 1)).heap.take (st.heap.length - 1) }
      (heapAt (down (heapSwap st 0 (st.heap.length - 1)) 0 (st.heap.length - 1))
        (st.heap.length - 1)) (-1) ∧
    cur = (getInfo st1.info (heapAt (down (heapSwap st 0 (st.heap.length - 1)) 0
      (st.heap.length - 1)) (st.heap.length - 1))).getD default := by
  unfold popBest at h
  by_cases h0 : st.heap.length = 0
  · rw [if_pos h0] at h; cases h
  · rw [if_neg h0] at h
    dsimp only at h
    have h2 := Option.some.inj h
    simp only [Prod.mk.injEq] at h2
    exact ⟨h0, h2.2.symm, by rw [← h2.2]; exact h2.1.symm⟩

theorem popBest_cores {st : AState} {cur : NodeInfo} {st1 : AState}
    (h : popBest st = some (cur, st1)) : SameCores st.info st1.info := by
  obtain ⟨h0, hst1, hcur⟩ := popBest_eq_some h
  subst hst1
  exact sameCores_trans (heapSwap_cores st 0 (st.heap.length - 1))
    (sameCores_trans (down_cores _ 0 (st.heap.length - 1))
      (setIndex_cores
        { down (heapSwap st 0 (st.heap.length - 1)) 0 (st.heap.length - 1) with
          heap := (down (heapSwap st 0 (st.heap.length - 1)) 0
            (st.heap.length - 1)).heap.take (st.heap.length - 1) } _ _))

theorem popBest_maxCost {st : AState} {cur : NodeInfo} {st1 : AState}
    (h : popBest st = some (cur, st1)) : st1.maxCost = st.maxCost := by
  obtain ⟨h0, hst1, hcur⟩ := popBest_eq_some h
  subst hst1
  rw [setIndex_maxCost]
  exact (down_maxCost _ _ _).trans (heapSwap_maxCost _ _ _)

theorem popBest_clock {st : AState} {cur : NodeInfo} {st1 : AState}
    (h : popBest st = some (cur, st1)) : st1.clock = st.clock := by
  obtain ⟨h0, hst1, hcur⟩ := popBest_eq_some h
  subst hst1
  rw [setIndex_clock]
  exact (down_clock _ _ _).trans (heapSwap_clock _ _ _)

/-! ### Case characterizations of one edge relaxation and one loop step -/

theorem maxUpd_info (st : AState) (c : Rat) : (maxUpd st c).info = st.info := by
  unfold maxUpd; split <;> rfl

theorem maxUpd_clock (st : AState) (c : Rat) : (maxUpd st c).clock = st.clock := by
  unfold maxUpd; split <;> rfl

theorem maxUpd_heap (st : AState) (c : Rat) : (maxUpd st c).heap = st.heap := by
  unfold maxUpd; split <;> rfl

theorem addNodeInfo_cores (st : AState) (r : NodeInfo) :
    SameCores (setInfo st.info r.node r) (addNodeInfo st r).info := by
  unfold addNodeInfo
  dsimp only
  exact sameCores_trans
    (setIndex_cores { st with info := setInfo st.info r.node r, heap := st.heap ++ [r.node] } _ _)
    (up_cores _ _)

theorem addNodeInfo_maxCost (st : AState) (r : NodeInfo) :
    (addNodeInfo st r).maxCost = st.maxCost := by
  unfold addNodeInfo
  dsimp only
  rw [up_maxCost, setIndex_maxCost]

theorem addNodeInfo_clock (st : AState) (r : NodeInfo) :
    (addNodeInfo st r).clock = st.clock := by
  unfold addNodeInfo
  dsimp only
  rw [up_clock, setIndex_clock]

theorem updateNodeInfo_cores (st : AState) (r : NodeInfo) :
    SameCores st.info (updateNodeInfo st r).info := by
  unfold updateNodeInfo
  exact sameCores_trans (down_cores _ _ _) (up_cores _ _)

theorem updateNodeInfo_maxCost (st : AState) (r : NodeInfo) :
    (updateNodeInfo st r).maxCost = st.maxCost := by
  unfold updateNodeInfo
  rw [up_maxCost, down_maxCost]

theorem updateNodeInfo_clock (st : AState) (r : NodeInfo) :
    (updateNodeInfo st r).clock = st.clock := by
  unfold updateNodeInfo
  rw [up_clock, down_clock]

theorem afterChange_ok_cases {cfg : Config} {ed : Edge} {cost : Rat} {st1 : AState}
    {calls : List GCall} {st2 : AState} {pp : List PPEv} {cs : List GCall}
    (h : afterChange cfg ed cost st1 calls = (.ok st2, pp, cs)) :
    cs = calls ∧
      ((ed.node ≠ cfg.endN ∧ st2 = st1 ∧ pp = []) ∨
       (ed.node = cfg.endN ∧ st2 = maxUpd st1 cost ∧
         ((cfg.hasPossible = false ∧ pp = []) ∨ (cfg.hasPossible = true ∧ ∃ pth,
           pathToNode (maxUpd st1 cost)
             ((getInfo (maxUpd st1 cost).info ed.node).getD default) = some pth ∧
           pp = [⟨pth, ((getInfo (maxUpd st1 cost).info ed.node).getD default).cost,
             true⟩])))) := by
  unfold afterChange at h
  by_cases he : ed.node = cfg.endN
  · rw [if_pos he] at h
    dsimp only at h
    cases hcp : cfg.hasPossible with
    | false =>
      rw [hcp, if_neg Bool.false_ne_true] at h
      injection h with h1 h23
      injection h23 with h2 h3
      injection h1 with h1
      exact ⟨h3.symm, Or.inr ⟨he, h1.symm, Or.inl ⟨rfl, h2.symm⟩⟩⟩
    | true =>
      rw [hcp, if_pos rfl] at h
      cases hpath : pathToNode (maxUpd st1 cost)
          ((getInfo (maxUpd st1 cost).info ed.node).getD default) with
      | none =>
        rw [hpath] at h
        injection h with h1 h23
        cases h1
      | some pth =>
        rw [hpath] at h
        injection h with h1 h23
        injection h23 with h2 h3
        injection h1 with h1
        exact ⟨h3.symm, Or.inr ⟨he, h1.symm, Or.inr ⟨rfl, pth, rfl, h2.symm⟩⟩⟩
  · rw [if_neg he] at h
    injection h with h1 h23
    injection h23 with h2 h3
    injection h1 with h1
    exact ⟨h3.symm, Or.inl ⟨he, h1.symm, h2.symm⟩⟩

/-- Exhaustive description of a successful edge relaxation: the five
branches of the Go edge loop (skip the current parent / create / improve /
non-improving alternate route to the goal / no effect). -/
theorem relaxEdge_ok_cases {cfg : Config} {cn : Node} {st : AState} {ed : Edge}
    {st2 : AState} {pp : List PPEv} {cs : List GCall} {cur : NodeInfo} {cost : Rat}
    (hcur : cur = (getInfo st.info cn).getD default)
    (hcost : cost = cur.cost + ed.cost)
    (h : relaxEdge cfg cn st ed = (.ok st2, pp, cs)) :
    (ed.node = cur.parent ∧ st2 = st ∧ pp = [] ∧ cs = []) ∨
    (ed.node ≠ cur.parent ∧ getInfo st.info ed.node = none ∧ ∃ p,
      cfg.g.heuristicCost ed.node cfg.endN = .ok p ∧
      afterChange cfg ed cost (createState st cn ed p cost)
        [.heur ed.node cfg.endN (.ok p)] = (.ok st2, pp, cs)) ∨
    (ed.node ≠ cur.parent ∧ ∃ ni, getInfo st.info ed.node = some ni ∧ cost < ni.cost ∧
      afterChange cfg ed cost (improveState st cn ed ni cost) [] = (.ok st2, pp, cs)) ∨
    (ed.node ≠ cur.parent ∧ ∃ ni, getInfo st.info ed.node = some ni ∧ ¬ cost < ni.cost ∧
      ed.node = cfg.endN ∧ st2 = maxUpd st cost ∧ cs = [] ∧
      ((cfg.hasPossible = false ∧ pp = []) ∨ (cfg.hasPossible = true ∧
        ∃ pth, pathToNode (maxUpd st cost)
          ((getInfo (maxUpd st cost).info cn).getD default) = some pth ∧
        pp = [⟨pth ++ [cfg.endN], cost, false⟩]))) ∨
    (ed.node ≠ cur.parent ∧ ∃ ni, getInfo st.info ed.node = some ni ∧ ¬ cost < ni.cost ∧
      ed.node ≠ cfg.endN ∧ st2 = st ∧ pp = [] ∧ cs = []) := by
  subst hcur hcost
  unfold relaxEdge at h
  dsimp only at h
  by_cases hskip : ed.node = ((getInfo st.info cn).getD default).parent
  · rw [if_pos hskip] at h
    injection h with hA hBC
    injection hBC with hB hC
    injection hA with hA
    exact Or.inl ⟨hskip, hA.symm, hB.symm, hC.symm⟩
  · rw [if_neg hskip] at h
    cases hni : getInfo st.info ed.node with
    | none =>
      simp only [hni] at h
      cases hheur : cfg.g.heuristicCost ed.node cfg.endN with
      | error er =>
        simp only [hheur] at h
        injection h with hA hBC
        cases hA
      | ok p =>
        simp only [hheur] at h
        exact Or.inr (Or.inl ⟨hskip, rfl, p, rfl, h⟩)
    | some ni =>
      simp only [hni] at h
      by_cases himp : ((getInfo st.info cn).getD default).cost + ed.cost < ni.cost
      · rw [if_pos himp] at h
        exact Or.inr (Or.inr (Or.inl ⟨hskip, ni, rfl, himp, h⟩))
      · rw [if_neg himp] at h
        by_cases hend : ed.node = cfg.endN
        · rw [if_pos hend] at h
          cases hcp : cfg.hasPossible with
          | false =>
            rw [hcp, if_neg Bool.false_ne_true] at h
            injection h with hA hBC
            injection hBC with hB hC
            injection hA with hA
            exact Or.inr (Or.inr (Or.inr (Or.inl
              ⟨hskip, ni, rfl, himp, hend, hA.symm, hC.symm, Or.inl ⟨rfl, hB.symm⟩⟩)))
          | true =>
            rw [hcp, if_pos rfl] at h
            cases hpath : pathToNode
                (maxUpd st (((getInfo st.info cn).getD default).cost + ed.cost))
                ((getInfo (maxUpd st
                  (((getInfo st.info cn).getD default).cost + ed.cost)).info cn).getD
                  default) with
            | none =>
              rw [hpath] at h
              injection h with hA hBC
              cases hA
            | some pth =>
              rw [hpath] at h
              injection h with hA hBC
              injection hBC with hB hC
              injection hA with hA
              exact Or.inr (Or.inr (Or.inr (Or.inl
                ⟨hskip, ni, rfl, himp, hend, hA.symm, hC.symm,
                  Or.inr ⟨rfl, pth, rfl, hB.symm⟩⟩)))
        · rw [if_neg hend] at h
          injection h with hA hBC
          injection hBC with hB hC
          injection hA with hA
          exact Or.inr (Or.inr (Or.inr (Or.inr
            ⟨hskip, ni, rfl, himp, hend, hA.symm, hB.symm, hC.symm⟩)))

/-- Description of an expansion that continues the loop. -/
theorem expand_cont_cases {cfg : Config} {cur : NodeInfo} {stp st1 : AState}
    {pp : List PPEv} {cs : List GCall}
    (h : expand cfg cur stp = (.cont st1, pp, cs)) :
    ∃ es cs2, cfg.g.neighbors cur.node = .ok es ∧
      relaxEdges cfg cur.node stp es = (.ok st1, pp, cs2) ∧
      cs = .neigh cur.node (.ok es) :: cs2 := by
  unfold expand at h
  cases hnb : cfg.g.neighbors cur.node with
  | error er =>
    simp only [hnb] at h
    injection h with h1 h2
    cases h1
  | ok es =>
    simp only [hnb] at h
    cases hrel : relaxEdges cfg cur.node stp es with
    | mk out ppcs =>
      obtain ⟨pp2, cs2⟩ := ppcs
      simp only [hrel] at h
      cases out with
      | ok st2 =>
        injection h with h1 h23
        injection h23 with h2 h3
        injection h1 with h1
        exact ⟨es, cs2, rfl, by rw [hrel, h1, h2], h3.symm⟩
      | fail er =>
        injection h with h1 h23
        cases h1
      | hang =>
        injection h with h1 h23
        cases h1

/-- Exhaustive description of a loop iteration that continues: either the
popped record was pruned by `maxCost`, or it was expanded successfully. -/
theorem step_cont_cases {cfg : Config} {st st1 : AState} {tr : Trace}
    (h : step cfg st = (.cont st1, tr)) :
    ∃ cur stp, popBest st = some (cur, stp) ∧ cur.node ≠ cfg.endN ∧
      ((geMax cur.cost stp.maxCost ∧ st1 = stp ∧ tr = Trace.nil) ∨
       (¬ geMax cur.cost stp.maxCost ∧ ∃ es pp cs,
         cfg.g.neighbors cur.node = .ok es ∧
         relaxEdges cfg cur.node stp es = (.ok st1, pp, cs) ∧
         tr = ⟨(if cfg.hasDebug then
             [⟨cur.node, cur.parent, cur.cost, cur.predictedCost⟩] else []), pp,
           .neigh cur.node (.ok es) :: cs⟩)) := by
  unfold step at h
  cases hpop : popBest st with
  | none =>
    simp only [hpop] at h
    injection h with h1 h2
    cases h1
  | some pr =>
    obtain ⟨cur, stp⟩ := pr
    simp only [hpop] at h
    by_cases hend : cur.node = cfg.endN
    · rw [if_pos hend] at h
      cases hpath : pathToNode stp cur with
      | none =>
        simp only [hpath] at h
        injection h with h1 h2
        cases h1
      | some p =>
        simp only [hpath] at h
        injection h with h1 h2
        cases h1
    · rw [if_neg hend] at h
      by_cases hge : geMax cur.cost stp.maxCost
      · rw [if_pos hge] at h
        injection h with h1 h2
        injection h1 with h1
        exact ⟨cur, stp, rfl, hend, Or.inl ⟨hge, h1.symm, h2.symm⟩⟩
      · rw [if_neg hge] at h
        cases hex : expand cfg cur stp with
        | mk res ppcs =>
          obtain ⟨pp, cs⟩ := ppcs
          simp only [hex] at h
          cases res with
          | cont st2 =>
            injection h with h1 h2
            injection h1 with h1
            obtain ⟨es, cs2, hnb, hrel, hcs⟩ := expand_cont_cases (h1 ▸ hex)
            exact ⟨cur, stp, rfl, hend, Or.inr
              ⟨hge, es, pp, cs2, hnb, hrel, by rw [← h2, hcs]⟩⟩
          | stop r =>
            injection h with h1 h2
            cases h1

/-! ### Map well-formedness and cost monotonicity -/

/-- Every record is filed under its own node identity (automatic in Go,
where the map key used is always `ni.node`). -/
def WfInfo (info : List (Node × NodeInfo)) : Prop :=
  ∀ n r, getInfo info n = some r → r.node = n

theorem setInfo_setInfo (l : List (Node × NodeInfo)) (n : Node) (a b : NodeInfo) :
    setInfo (setInfo l n a) n b = setInfo l n b := by
  induction l with
  | nil => simp [setInfo]
  | cons p rest ih =>
    by_cases hp : p.1 = n
    · simp [setInfo, hp]
    · simp [setInfo, hp, ih]

theorem SameCores.node_eq {a b : List (Node × NodeInfo)} (h : SameCores a b)
    {n : Node} {r : NodeInfo} (hr : getInfo a n = some r) :
    ∃ r2, getInfo b n = some r2 ∧ r2.node = r.node ∧ r2.parent = r.parent ∧
      r2.cost = r.cost ∧ r2.predictedCost = r.predictedCost ∧ r2.stamp = r.stamp := by
  have hn := h n
  rw [hr] at hn
  cases hb : getInfo b n with
  | none => rw [hb] at hn; cases hn
  | some r2 =>
    rw [hb] at hn
    injection hn with hc
    unfold NodeInfo.core at hc
    simp only [Prod.mk.injEq] at hc
    exact ⟨r2, rfl, hc.1.symm, hc.2.1.symm, hc.2.2.1.symm, hc.2.2.2.1.symm, hc.2.2.2.2.symm⟩

theorem SameCores.wfInfo {a b : List (Node × NodeInfo)} (h : SameCores a b)
    (hw : WfInfo a) : WfInfo b := by
  intro n r hr
  have hn := h n
  cases ha : getInfo a n with
  | none => rw [ha, hr] at hn; cases hn
  | some r0 =>
    obtain ⟨r2, hb, hnode, _⟩ := SameCores.node_eq h ha
    rw [hr] at hb
    injection hb with hb
    rw [hb, hnode]
    exact hw n r0 ha

/-- Every record of `old` still exists in `new`, with a cost no larger. -/
def InfoMono (old new : List (Node × NodeInfo)) : Prop :=
  ∀ n r, getInfo old n = some r → ∃ r2, getInfo new n = some r2 ∧ r2.cost ≤ r.cost

theorem infoMono_refl (a : List (Node × NodeInfo)) : InfoMono a a :=
  fun _ r h => ⟨r, h, le_refl _⟩

theorem infoMono_trans {a b c : List (Node × NodeInfo)}
    (h1 : InfoMono a b) (h2 : InfoMono b c) : InfoMono a c := by
  intro n r h
  obtain ⟨r2, hb, hc2⟩ := h1 n r h
  obtain ⟨r3, hc, hc3⟩ := h2 n r2 hb
  exact ⟨r3, hc, le_trans hc3 hc2⟩

theorem SameCores.infoMono {a b : List (Node × NodeInfo)} (h : SameCores a b) :
    InfoMono a b := by
  intro n r hr
  obtain ⟨r2, hb, _, _, hcost, _⟩ := SameCores.node_eq h hr
  exact ⟨r2, hb, le_of_eq hcost⟩

theorem infoMono_setInfo_new (info : List (Node × NodeInfo)) (k : Node) (r : NodeInfo)
    (hnone : getInfo info k = none) : InfoMono info (setInfo info k r) := by
  intro n rr hn
  by_cases hk : n = k
  · rw [hk, hnone] at hn; cases hn
  · exact ⟨rr, by rw [getInfo_setInfo_ne _ _ _ _ hk]; exact hn, le_refl _⟩

theorem infoMono_setInfo_improve (info : List (Node × NodeInfo)) (k : Node)
    {old new : NodeInfo} (hold : getInfo info k = some old) (hle : new.cost ≤ old.cost) :
    InfoMono info (setInfo info k new) := by
  intro n rr hn
  by_cases hk : n = k
  · subst hk
    rw [hold] at hn
    injection hn with hn
    exact ⟨new, getInfo_setInfo_self _ _ _, by rw [← hn]; exact hle⟩
  · exact ⟨rr, by rw [getInfo_setInfo_ne _ _ _ _ hk]; exact hn, le_refl _⟩

theorem createState_mono {st : AState} {cn : Node} {ed : Edge} {p cost : Rat}
    (hnone : getInfo st.info ed.node = none) :
    InfoMono st.info (createState st cn ed p cost).info := by
  unfold createState
  refine infoMono_trans (infoMono_setInfo_new st.info ed.node
    ⟨ed.node, cn, 0, cost, p, st.clock⟩ hnone) ?_
  exact SameCores.infoMono (addNodeInfo_cores { st with clock := st.clock + 1 }
    ⟨ed.node, cn, 0, cost, p, st.clock⟩)

theorem improveState_mono {st : AState} {cn : Node} {ed : Edge} {ni : NodeInfo}
    {cost : Rat} (hwf : WfInfo st.info) (hni : getInfo st.info ed.node = some ni)
    (hlt : cost < ni.cost) :
    InfoMono st.info (improveState st cn ed ni cost).info := by
  unfold improveState
  dsimp only
  set r : NodeInfo := { ni with parent := cn, cost := cost, stamp := st.clock } with hr
  have hbase : InfoMono st.info (setInfo st.info ed.node r) :=
    infoMono_setInfo_improve st.info ed.node hni (le_of_lt hlt)
  have hnode : r.node = ed.node := by rw [hr]; exact hwf ed.node ni hni
  by_cases hix : r.index ≥ 0
  · rw [if_pos hix]
    exact infoMono_trans hbase
      (SameCores.infoMono (updateNodeInfo_cores
        { st with info := setInfo st.info ed.node r, clock := st.clock + 1 } r))
  · rw [if_neg hix]
    refine infoMono_trans hbase (SameCores.infoMono ?_)
    have := addNodeInfo_cores
      { st with info := setInfo st.info ed.node r, clock := st.clock + 1 } r
    rw [hnode] at this
    dsimp only at this
    rw [setInfo_setInfo] at this
    exact this

theorem relaxEdge_ok_mono {cfg : Config} {cn : Node} {st : AState} {ed : Edge}
    {st2 : AState} {pp : List PPEv} {cs : List GCall} (hwf : WfInfo st.info)
    (h : relaxEdge cfg cn st ed = (.ok st2, pp, cs)) :
    InfoMono st.info st2.info := by
  rcases relaxEdge_ok_cases rfl rfl h with
    ⟨_, hst, _, _⟩ | ⟨_, hnone, p, _, hafter⟩ | ⟨_, ni, hni, hlt, hafter⟩ |
    ⟨_, ni, hni, _, _, hst, _, _⟩ | ⟨_, ni, hni, _, _, hst, _, _⟩
  · rw [hst]; exact infoMono_refl _
  · obtain ⟨_, hcase⟩ := afterChange_ok_cases hafter
    rcases hcase with ⟨_, hst2, _⟩ | ⟨_, hst2, _⟩ <;> rw [hst2]
    · exact createState_mono hnone
    · rw [show (maxUpd (createState st cn ed p _) _).info =
          (createState st cn ed p _).info from maxUpd_info _ _]
      exact createState_mono hnone
  · obtain ⟨_, hcase⟩ := afterChange_ok_cases hafter
    rcases hcase with ⟨_, hst2, _⟩ | ⟨_, hst2, _⟩ <;> rw [hst2]
    · exact improveState_mono hwf hni hlt
    · rw [show (maxUpd (improveState st cn ed ni _) _).info =
          (improveState st cn ed ni _).info from maxUpd_info _ _]
      exact improveState_mono hwf hni hlt
  · rw [hst, show (maxUpd st _).info = st.info from maxUpd_info _ _]
    exact infoMono_refl _
  · rw [hst]; exact infoMono_refl _

theorem wfInfo_setInfo {info : List (Node × NodeInfo)} {k : Node} {r : NodeInfo}
    (hw : WfInfo info) (hk : r.node = k) : WfInfo (setInfo info k r) := by
  intro n rr hn
  by_cases hnk : n = k
  · subst hnk
    rw [getInfo_setInfo_self] at hn
    injection hn with hn
    rw [← hn]
    exact hk
  · rw [getInfo_setInfo_ne _ _ _ _ hnk] at hn
    exact hw n rr hn

theorem createState_wf {st : AState} {cn : Node} {ed : Edge} {p cost : Rat}
    (hw : WfInfo st.info) : WfInfo (createState st cn ed p cost).info := by
  unfold createState
  exact SameCores.wfInfo (addNodeInfo_cores { st with clock := st.clock + 1 }
    ⟨ed.node, cn, 0, cost, p, st.clock⟩) (wfInfo_setInfo hw rfl)

theorem improveState_wf {st : AState} {cn : Node} {ed : Edge} {ni : NodeInfo}
    {cost : Rat} (hw : WfInfo st.info) (hni : getInfo st.info ed.node = some ni) :
    WfInfo (improveState st cn ed ni cost).info := by
  unfold improveState
  dsimp only
  set r : NodeInfo := { ni with parent := cn, cost := cost, stamp := st.clock } with hr
  have hnode : r.node = ed.node := hw ed.node ni hni
  have hbase : WfInfo (setInfo st.info ed.node r) := wfInfo_setInfo hw hnode
  by_cases hix : r.index ≥ 0
  · rw [if_pos hix]
    exact SameCores.wfInfo (updateNodeInfo_cores
      { st with info := setInfo st.info ed.node r, clock := st.clock + 1 } r) hbase
  · rw [if_neg hix]
    refine SameCores.wfInfo ?_ hbase
    have := addNodeInfo_cores
      { st with info := setInfo st.info ed.node r, clock := st.clock + 1 } r
    rw [hnode] at this
    dsimp only at this
    rw [setInfo_setInfo] at this
    exact this

theorem relaxEdge_ok_wf {cfg : Config} {cn : Node} {st : AState} {ed : Edge}
    {st2 : AState} {pp : List PPEv} {cs : List GCall} (hwf : WfInfo st.info)
    (h : relaxEdge cfg cn st ed = (.ok st2, pp, cs)) : WfInfo st2.info := by
  rcases relaxEdge_ok_cases rfl rfl h with
    ⟨_, hst, _, _⟩ | ⟨_, hnone, p, _, hafter⟩ | ⟨_, ni, hni, hlt, hafter⟩ |
    ⟨_, ni, hni, _, _, hst, _, _⟩ | ⟨_, ni, hni, _, _, hst, _, _⟩
  · rw [hst]; exact hwf
  · obtain ⟨_, hcase⟩ := afterChange_ok_cases hafter
    rcases hcase with ⟨_, hst2, _⟩ | ⟨_, hst2, _⟩ <;> rw [hst2]
    · exact createState_wf hwf
    · rw [show (maxUpd (createState st cn ed p _) _).info =
          (createState st cn ed p _).info from maxUpd_info _ _]
      exact createState_wf hwf
  · obtain ⟨_, hcase⟩ := afterChange_ok_cases hafter
    rcases hcase with ⟨_, hst2, _⟩ | ⟨_, hst2, _⟩ <;> rw [hst2]
    · exact improveState_wf hwf hni
    · rw [show (maxUpd (improveState st cn ed ni _) _).info =
          (improveState st cn ed ni _).info from maxUpd_info _ _]
      exact improveState_wf hwf hni
  · rw [hst, show (maxUpd st _).info = st.info from maxUpd_info _ _]
    exact hwf
  · rw [hst]; exact hwf

theorem relaxEdges_ok_mono_wf {cfg : Config} {cn : Node} :
    ∀ {es : List Edge} {st st2 : AState} {pp : List PPEv} {cs : List GCall},
    WfInfo st.info → relaxEdges cfg cn st es = (.ok st2, pp, cs) →
    InfoMono st.info st2.info ∧ WfInfo st2.info := by
  intro es
  induction es with
  | nil =>
    intro st st2 pp cs hw h
    unfold relaxEdges at h
    injection h with h1 h23
    injection h1 with h1
    rw [← h1]
    exact ⟨infoMono_refl _, hw⟩
  | cons a rest ih =>
    intro st st2 pp cs hw h
    unfold relaxEdges at h
    cases hra : relaxEdge cfg cn st a with
    | mk out ppcs =>
      obtain ⟨pp1, cs1⟩ := ppcs
      simp only [hra] at h
      cases out with
      | ok st1 =>
        cases hrr : relaxEdges cfg cn st1 rest with
        | mk out2 ppcs2 =>
          obtain ⟨pp2, cs2⟩ := ppcs2
          simp only [hrr] at h
          injection h with h1 h23
          subst h1
          have hm1 := relaxEdge_ok_mono hw hra
          have hw1 := relaxEdge_ok_wf hw hra
          obtain ⟨hm2, hw2⟩ := ih hw1 hrr
          exact ⟨infoMono_trans hm1 hm2, hw2⟩
      | fail er =>
        injection h with h1 h23
        cases h1
      | hang =>
        injection h with h1 h23
        cases h1

theorem step_cont_mono_wf {cfg : Config} {st st1 : AState} {tr : Trace}
    (hw : WfInfo st.info) (h : step cfg st = (.cont st1, tr)) :
    InfoMono st.info st1.info ∧ WfInfo st1.info := by
  obtain ⟨cur, stp, hpop, hend, hcase⟩ := step_cont_cases h
  have hmono0 := SameCores.infoMono (popBest_cores hpop)
  have hw0 := SameCores.wfInfo (popBest_cores hpop) hw
  rcases hcase with ⟨_, hst, _⟩ | ⟨_, es, pp, cs, hnb, hrel, _⟩
  · rw [hst]; exact ⟨hmono0, hw0⟩
  · obtain ⟨hm, hw2⟩ := relaxEdges_ok_mono_wf hw0 hrel
    exact ⟨infoMono_trans hmono0 hm, hw2⟩

/-- Iterated continuing loop iterations: the state after `k` more iterations
of the Go main loop, `none` when the loop stopped (or fuel ran out) before
`k` iterations. -/
def stepN (cfg : Config) : Nat → AState → Option AState
  | 0, st => some st
  | k + 1, st =>
    match step cfg st with
    | (.cont st1, _) => stepN cfg k st1
    | _ => none

theorem stepN_mono_wf {cfg : Config} : ∀ {k : Nat} {st st1 : AState},
    WfInfo st.info → stepN cfg k st = some st1 →
    InfoMono st.info st1.info ∧ WfInfo st1.info := by
  intro k
  induction k with
  | zero =>
    intro st st1 hw h
    unfold stepN at h
    injection h with h
    rw [← h]
    exact ⟨infoMono_refl _, hw⟩
  | succ n ih =>
    intro st st1 hw h
    unfold stepN at h
    cases hs : step cfg st with
    | mk res tr =>
      simp only [hs] at h
      cases res with
      | cont st2 =>
        obtain ⟨hm1, hw1⟩ := step_cont_mono_wf hw hs
        obtain ⟨hm2, hw2⟩ := ih hw1 h
        exact ⟨infoMono_trans hm1 hm2, hw2⟩
      | stop r => cases h

theorem wfInfo_initState (p : Rat) (s : Node) : WfInfo (initState p s).info := by
  intro n r h
  rw [initState_eq] at h
  unfold getInfo at h
  by_cases hs : s = n
  · rw [if_pos hs] at h
    injection h with h
    rw [← h]
    exact hs
  · rw [if_neg hs] at h
    exact absurd h (by simp [getInfo])

/-- Claim C8: within one FindPath invocation, the `cost` (g) field of every
node record is monotonically non-increasing over the record's lifetime:
whatever the search state, after any number of further loop iterations every
record still exists and its cost has not increased (it is only ever
overwritten by a strictly smaller path cost). -/
theorem claim_C8 (cfg : Config) (k : Nat) (st st1 : AState)
    (hw : WfInfo st.info) (h : stepN cfg k st = some st1) (n : Node) (r : NodeInfo)
    (hr : getInfo st.info n = some r) :
    ∃ r2, getInfo st1.info n = some r2 ∧ r2.cost ≤ r.cost :=
  (stepN_mono_wf hw h).1 n r hr

/-- Witness for `claim_C8` at a concrete input: one iteration of the search
for goal 1 on the edgeless graph, applied to the start record. -/
theorem claim_C8_witness :
    ∃ st1, stepN ⟨gEmpty, 1, false, false⟩ 1 (initState 0 0) = some st1 ∧
      ∃ r2, getInfo st1.info 0 = some r2 ∧ r2.cost ≤ (0 : Rat) := by
  cases hs : stepN ⟨gEmpty, 1, false, false⟩ 1 (initState 0 0) with
  | none => exact absurd hs (by decide)
  | some st1 =>
    have hr : getInfo (initState 0 0).info 0 = some ⟨0, -1, 0, 0, 0, 0⟩ := by decide
    obtain ⟨r2, hr2, hc⟩ :=
      claim_C8 ⟨gEmpty, 1, false, false⟩ 1 (initState 0 0) st1
        (wfInfo_initState 0 0) hs 0 ⟨0, -1, 0, 0, 0, 0⟩ hr
    exact ⟨st1, rfl, r2, hr2, hc⟩

/-! ### Claim C6: error propagation -/

/-- The error carried by a failed graph callback, if any. -/
def callErr : GCall → Option Nat
  | .heur _ _ (.error e) => some e
  | .neigh _ (.error e) => some e
  | _ => none

theorem afterChange_no_fail {cfg : Config} {ed : Edge} {cost : Rat} {st1 : AState}
    {calls : List GCall} {err : Nat} {pp : List PPEv} {cs : List GCall} :
    afterChange cfg ed cost st1 calls ≠ (.fail err, pp, cs) := by
  intro h
  unfold afterChange at h
  by_cases he : ed.node = cfg.endN
  · rw [if_pos he] at h
    dsimp only at h
    cases hcp : cfg.hasPossible with
    | false =>
      rw [hcp, if_neg Bool.false_ne_true] at h
      injection h with h1 h2
      cases h1
    | true =>
      rw [hcp, if_pos rfl] at h
      cases hpath : pathToNode (maxUpd st1 cost)
          ((getInfo (maxUpd st1 cost).info ed.node).getD default) with
      | none =>
        rw [hpath] at h
        injection h with h1 h2
        cases h1
      | some pth =>
        rw [hpath] at h
        injection h with h1 h2
        cases h1
  · rw [if_neg he] at h
    injection h with h1 h2
    cases h1

/-- A failing relaxation comes from the heuristic call for a newly
discovered node, and the failing call is the only one it records. -/
theorem relaxEdge_fail_cases {cfg : Config} {cn : Node} {st : AState} {ed : Edge}
    {err : Nat} {pp : List PPEv} {cs : List GCall}
    (h : relaxEdge cfg cn st ed = (.fail err, pp, cs)) :
    cfg.g.heuristicCost ed.node cfg.endN = .error err ∧ pp = [] ∧
    cs = [.heur ed.node cfg.endN (.error err)] := by
  unfold relaxEdge at h
  dsimp only at h
  by_cases hskip : ed.node = ((getInfo st.info cn).getD default).parent
  · rw [if_pos hskip] at h
    injection h with h1 h2
    cases h1
  · rw [if_neg hskip] at h
    cases hni : getInfo st.info ed.node with
    | none =>
      simp only [hni] at h
      cases hheur : cfg.g.heuristicCost ed.node cfg.endN with
      | error er =>
        simp only [hheur] at h
        injection h with h1 h23
        injection h23 with h2 h3
        injection h1 with h1
        subst h1
        exact ⟨rfl, h2.symm, h3.symm⟩
      | ok p =>
        simp only [hheur] at h
        exact absurd h afterChange_no_fail
    | some ni =>
      simp only [hni] at h
      by_cases himp : ((getInfo st.info cn).getD default).cost + ed.cost < ni.cost
      · rw [if_pos himp] at h
        exact absurd h afterChange_no_fail
      · rw [if_neg himp] at h
        by_cases hend : ed.node = cfg.endN
        · rw [if_pos hend] at h
          cases hcp : cfg.hasPossible with
          | false =>
            rw [hcp, if_neg Bool.false_ne_true] at h
            injection h with h1 h2
            cases h1
          | true =>
            rw [hcp, if_pos rfl] at h
            cases hpath : pathToNode
                (maxUpd st (((getInfo st.info cn).getD default).cost + ed.cost))
                ((getInfo (maxUpd st
                  (((getInfo st.info cn).getD default).cost + ed.cost)).info cn).getD
                  default) with
            | none =>
              rw [hpath] at h
              injection h with h1 h2
              cases h1
            | some pth =>
              rw [hpath] at h
              injection h with h1 h2
              cases h1
        · rw [if_neg hend] at h
          injection h with h1 h2
          cases h1

/-- The calls a successful relaxation records all succeeded. -/
theorem relaxEdge_ok_calls {cfg : Config} {cn : Node} {st : AState} {ed : Edge}
    {st2 : AState} {pp : List PPEv} {cs : List GCall}
    (h : relaxEdge cfg cn st ed = (.ok st2, pp, cs)) :
    ∀ c ∈ cs, callErr c = none := by
  rcases relaxEdge_ok_cases rfl rfl h with
    ⟨_, _, _, hcs⟩ | ⟨_, _, p, _, hafter⟩ | ⟨_, ni, _, _, hafter⟩ |
    ⟨_, ni, _, _, _, _, hcs, _⟩ | ⟨_, ni, _, _, _, _, _, hcs⟩
  · intro c hc; rw [hcs] at hc; cases hc
  · obtain ⟨hcs, _⟩ := afterChange_ok_cases hafter
    intro c hc
    rw [hcs] at hc
    cases hc with
    | head => rfl
    | tail _ hmem => cases hmem
  · obtain ⟨hcs, _⟩ := afterChange_ok_cases hafter
    intro c hc
    rw [hcs] at hc
    cases hc
  · intro c hc; rw [hcs] at hc; cases hc
  · intro c hc; rw [hcs] at hc; cases hc

/-- A hanging relaxation emits no notification and records only successful
calls. -/
theorem relaxEdge_hang_cases {cfg : Config} {cn : Node} {st : AState} {ed : Edge}
    {pp : List PPEv} {cs : List GCall}
    (h : relaxEdge cfg cn st ed = (.hang, pp, cs)) :
    pp = [] ∧ ∀ c ∈ cs, callErr c = none := by
  unfold relaxEdge at h
  dsimp only at h
  by_cases hskip : ed.node = ((getInfo st.info cn).getD default).parent
  · rw [if_pos hskip] at h
    injection h with h1 h2
    cases h1
  · rw [if_neg hskip] at h
    cases hni : getInfo st.info ed.node with
    | none =>
      simp only [hni] at h
      cases hheur : cfg.g.heuristicCost ed.node cfg.endN with
      | error er =>
        simp only [hheur] at h
        injection h with h1 h2
        cases h1
      | ok p =>
        simp only [hheur] at h
        unfold afterChange at h
        by_cases hend : ed.node = cfg.endN
        · rw [if_pos hend] at h
          dsimp only at h
          cases hcp : cfg.hasPossible with
          | false =>
            rw [hcp, if_neg Bool.false_ne_true] at h
            injection h with h1 h2
            cases h1
          | true =>
            rw [hcp, if_pos rfl] at h
            cases hpath : pathToNode (maxUpd (createState st cn ed p _) _)
                ((getInfo (maxUpd (createState st cn ed p _) _).info ed.node).getD
                  default) with
            | none =>
              rw [hpath] at h
              injection h with h1 h23
              injection h23 with h2 h3
              refine ⟨h2.symm, ?_⟩
              intro c hc
              rw [← h3] at hc
              cases hc with
              | head => rfl
              | tail _ hmem => cases hmem
            | some pth =>
              rw [hpath] at h
              injection h with h1 h2
              cases h1
        · rw [if_neg hend] at h
          injection h with h1 h2
          cases h1
    | some ni =>
      simp only [hni] at h
      by_cases himp : ((getInfo st.info cn).getD default).cost + ed.cost < ni.cost
      · rw [if_pos himp] at h
        unfold afterChange at h
        by_cases hend : ed.node = cfg.endN
        · rw [if_pos hend] at h
          dsimp only at h
          cases hcp : cfg.hasPossible with
          | false =>
            rw [hcp, if_neg Bool.false_ne_true] at h
            injection h with h1 h2
            cases h1
          | true =>
            rw [hcp, if_pos rfl] at h
            cases hpath : pathToNode (maxUpd (improveState st cn ed ni _) _)
                ((getInfo (maxUpd (improveState st cn ed ni _) _).info ed.node).getD
                  default) with
            | none =>
              rw [hpath] at h
              injection h with h1 h23
              injection h23 with h2 h3
              refine ⟨h2.symm, ?_⟩
              intro c hc
              rw [← h3] at hc
              cases hc
            | some pth =>
              rw [hpath] at h
              injection h with h1 h2
              cases h1
        · rw [if_neg hend] at h
          injection h with h1 h2
          cases h1
      · rw [if_neg himp] at h
        by_cases hend : ed.node = cfg.endN
        · rw [if_pos hend] at h
          cases hcp : cfg.hasPossible with
          | false =>
            rw [hcp, if_neg Bool.false_ne_true] at h
            injection h with h1 h2
            cases h1
          | true =>
            rw [hcp, if_pos rfl] at h
            cases hpath : pathToNode
                (maxUpd st (((getInfo st.info cn).getD default).cost + ed.cost))
                ((getInfo (maxUpd st
                  (((getInfo st.info cn).getD default).cost + ed.cost)).info cn).getD
                  default) with
            | none =>
              rw [hpath] at h
              injection h with h1 h23
              injection h23 with h2 h3
              refine ⟨h2.symm, ?_⟩
              intro c hc
              rw [← h3] at hc
              cases hc
            | some pth =>
              rw [hpath] at h
              injection h with h1 h2
              cases h1
        · rw [if_neg hend] at h
          injection h with h1 h2
          cases h1

theorem relaxEdges_ok_calls {cfg : Config} {cn : Node} :
    ∀ {es : List Edge} {st st2 : AState} {pp : List PPEv} {cs : List GCall},
    relaxEdges cfg cn st es = (.ok st2, pp, cs) → ∀ c ∈ cs, callErr c = none := by
  intro es
  induction es with
  | nil =>
    intro st st2 pp cs h
    unfold relaxEdges at h
    injection h with h1 h23
    injection h23 with h2 h3
    intro c hc
    rw [← h3] at hc
    cases hc
  | cons a rest ih =>
    intro st st2 pp cs h
    unfold relaxEdges at h
    cases hra : relaxEdge cfg cn st a with
    | mk out ppcs =>
      obtain ⟨pp1, cs1⟩ := ppcs
      simp only [hra] at h
      cases out with
      | ok st1 =>
        cases hrr : relaxEdges cfg cn st1 rest with
        | mk out2 ppcs2 =>
          obtain ⟨pp2, cs2⟩ := ppcs2
          simp only [hrr] at h
          injection h with h1 h23
          injection h23 with h2 h3
          subst h1
          intro c hc
          rw [← h3] at hc
          rcases List.mem_append.mp hc with hc1 | hc2
          · exact relaxEdge_ok_calls hra c hc1
          · exact ih hrr c hc2
      | fail er =>
        injection h with h1 h23
        cases h1
      | hang =>
        injection h with h1 h23
        cases h1

theorem relaxEdges_hang_calls {cfg : Config} {cn : Node} :
    ∀ {es : List Edge} {st : AState} {pp : List PPEv} {cs : List GCall},
    relaxEdges cfg cn st es = (.hang, pp, cs) → ∀ c ∈ cs, callErr c = none := by
  intro es
  induction es with
  | nil =>
    intro st pp cs h
    unfold relaxEdges at h
    injection h with h1 h23
    cases h1
  | cons a rest ih =>
    intro st pp cs h
    unfold relaxEdges at h
    cases hra : relaxEdge cfg cn st a with
    | mk out ppcs =>
      obtain ⟨pp1, cs1⟩ := ppcs
      simp only [hra] at h
      cases out with
      | ok st1 =>
        cases hrr : relaxEdges cfg cn st1 rest with
        | mk out2 ppcs2 =>
          obtain ⟨pp2, cs2⟩ := ppcs2
          simp only [hrr] at h
          injection h with h1 h23
          injection h23 with h2 h3
          intro c hc
          rw [← h3] at hc
          rcases List.mem_append.mp hc with hc1 | hc2
          · exact relaxEdge_ok_calls hra c hc1
          · subst h1
            exact ih hrr c hc2
      | fail er =>
        injection h with h1 h23
        cases h1
      | hang =>
        injection h with h1 h23
        injection h23 with h2 h3
        intro c hc
        rw [← h3] at hc
        exact (relaxEdge_hang_cases hra).2 c hc

theorem relaxEdges_fail_calls {cfg : Config} {cn : Node} :
    ∀ {es : List Edge} {st : AState} {err : Nat} {pp : List PPEv} {cs : List GCall},
    relaxEdges cfg cn st es = (.fail err, pp, cs) →
    ∃ pre last, cs = pre ++ [last] ∧ callErr last = some err ∧
      ∀ c ∈ pre, callErr c = none := by
  intro es
  induction es with
  | nil =>
    intro st err pp cs h
    unfold relaxEdges at h
    injection h with h1 h23
    cases h1
  | cons a rest ih =>
    intro st err pp cs h
    unfold relaxEdges at h
    cases hra : relaxEdge cfg cn st a with
    | mk out ppcs =>
      obtain ⟨pp1, cs1⟩ := ppcs
      simp only [hra] at h
      cases out with
      | ok st1 =>
        cases hrr : relaxEdges cfg cn st1 rest with
        | mk out2 ppcs2 =>
          obtain ⟨pp2, cs2⟩ := ppcs2
          simp only [hrr] at h
          injection h with h1 h23
          injection h23 with h2 h3
          subst h1
          obtain ⟨pre, last, hsplit, herr, hok⟩ := ih hrr
          refine ⟨cs1 ++ pre, last, ?_, herr, ?_⟩
          · rw [← h3, hsplit, List.append_assoc]
          · intro c hc
            rcases List.mem_append.mp hc with hc1 | hc2
            · exact relaxEdge_ok_calls hra c hc1
            · exact hok c hc2
      | fail er =>
        injection h with h1 h23
        injection h23 with h2 h3
        injection h1 with h1
        subst h1
        obtain ⟨hheur, hpp, hcs⟩ := relaxEdge_fail_cases hra
        refine ⟨[], .heur a.node cfg.endN (.error er), ?_, rfl, ?_⟩
        · rw [← h3, hcs]; rfl
        · intro c hc; cases hc
      | hang =>
        injection h with h1 h23
        cases h1

/-- A continuing loop iteration records only successful calls. -/
theorem step_cont_calls {cfg : Config} {st st1 : AState} {tr : Trace}
    (h : step cfg st = (.cont st1, tr)) : ∀ c ∈ tr.calls, callErr c = none := by
  obtain ⟨cur, stp, hpop, hend, hcase⟩ := step_cont_cases h
  rcases hcase with ⟨_, _, htr⟩ | ⟨_, es, pp, cs, hnb, hrel, htr⟩
  · rw [htr]; intro c hc; cases hc
  · rw [htr]
    intro c hc
    cases hc with
    | head => rfl
    | tail _ hmem => exact relaxEdges_ok_calls hrel c hmem

/-- A loop iteration that stops with a graph error records the failing call
last, after only successful ones. -/
theorem step_gerr_calls {cfg : Config} {st : AState} {err : Nat} {tr : Trace}
    (h : step cfg st = (.stop (.gerr err), tr)) :
    ∃ pre last, tr.calls = pre ++ [last] ∧ callErr last = some err ∧
      ∀ c ∈ pre, callErr c = none := by
  unfold step at h
  cases hpop : popBest st with
  | none =>
    simp only [hpop] at h
    injection h with h1 h2
    injection h1 with h1
    cases h1
  | some pr =>
    obtain ⟨cur, stp⟩ := pr
    simp only [hpop] at h
    by_cases hend : cur.node = cfg.endN
    · rw [if_pos hend] at h
      cases hpath : pathToNode stp cur with
      | none =>
        simp only [hpath] at h
        injection h with h1 h2
        injection h1 with h1
        cases h1
      | some p =>
        simp only [hpath] at h
        injection h with h1 h2
        injection h1 with h1
        cases h1
    · rw [if_neg hend] at h
      by_cases hge : geMax cur.cost stp.maxCost
      · rw [if_pos hge] at h
        injection h with h1 h2
        cases h1
      · rw [if_neg hge] at h
        unfold expand at h
        cases hnb : cfg.g.neighbors cur.node with
        | error er =>
          simp only [hnb] at h
          injection h with h1 h23
          injection h1 with h1
          injection h1 with h1
          subst h1
          refine ⟨[], .neigh cur.node (.error er), ?_, rfl, ?_⟩
          · rw [← h23]
            rfl
          · intro c hc; cases hc
        | ok es =>
          simp only [hnb] at h
          cases hrel : relaxEdges cfg cur.node stp es with
          | mk out ppcs =>
            obtain ⟨pp2, cs2⟩ := ppcs
            simp only [hrel] at h
            cases out with
            | ok st2 =>
              injection h with h1 h2
              cases h1
            | fail er =>
              injection h with h1 h23
              injection h1 with h1
              injection h1 with h1
              subst h1
              obtain ⟨pre, last, hsplit, herr, hok⟩ := relaxEdges_fail_calls hrel
              refine ⟨.neigh cur.node (.ok es) :: pre, last, ?_, herr, ?_⟩
              · rw [← h23]
                dsimp only
                rw [hsplit]
                rfl
              · intro c hc
                cases hc with
                | head => rfl
                | tail _ hmem => exact hok c hmem
            | hang =>
              injection h with h1 h2
              cases h1

theorem loop_gerr_calls {cfg : Config} : ∀ {fuel : Nat} {st : AState} {err : Nat},
    (loop cfg fuel st).1 = .gerr err →
    ∃ pre last, (loop cfg fuel st).2.calls = pre ++ [last] ∧
      callErr last = some err ∧ ∀ c ∈ pre, callErr c = none := by
  intro fuel
  induction fuel with
  | zero =>
    intro st err h
    unfold loop at h
    cases h
  | succ n ih =>
    intro st err h
    cases hs : step cfg st with
    | mk res tr =>
      cases res with
      | stop r =>
        simp only [loop, hs] at h ⊢
        subst h
        exact step_gerr_calls hs
      | cont st2 =>
        simp only [loop, hs] at h ⊢
        obtain ⟨pre, last, hsplit, herr, hok⟩ := ih h
        refine ⟨tr.calls ++ pre, last, ?_, herr, ?_⟩
        · simp only [Trace.append]
          rw [hsplit, List.append_assoc]
        · intro c hc
          rcases List.mem_append.mp hc with hc1 | hc2
          · exact step_cont_calls hs c hc1
          · exact hok c hc2

/-- Claim C6: a failing HeuristicCost or Neighbors call aborts FindPath
immediately with that error and no path.  First part: if the very first
heuristic call (start to end) fails, FindPath returns that error having made
no other graph call at all (in particular Neighbors was never invoked).
Second part: whenever FindPath returns a graph error, the recorded call
sequence consists of successful calls followed by exactly one failing call
carrying that error — the search performed no further graph call after the
failure, and no path accompanies the error. -/
theorem claim_C6 (g : Graph) (hd hp : Bool) (fuel : Nat) (s e : Node) (err : Nat) :
    (g.heuristicCost s e = .error err →
      findPathT g hd hp fuel s e = (.gerr err, ⟨[], [], [.heur s e (.error err)]⟩)) ∧
    ((findPathT g hd hp fuel s e).1 = .gerr err →
      ∃ pre last, (findPathT g hd hp fuel s e).2.calls = pre ++ [last] ∧
        callErr last = some err ∧ ∀ c ∈ pre, callErr c = none) := by
  constructor
  · intro h
    unfold findPathT
    rw [h]
  · intro h
    cases hh : g.heuristicCost s e with
    | error er =>
      simp only [findPathT, hh] at h ⊢
      cases h
      exact ⟨[], .heur s e (.error err), rfl, rfl, fun c hc => absurd hc (by simp)⟩
    | ok p =>
      simp only [findPathT, hh] at h ⊢
      obtain ⟨pre, last, hsplit, herr, hok⟩ := loop_gerr_calls h
      refine ⟨.heur s e (.ok p) :: pre, last, ?_, herr, ?_⟩
      · simp only [Trace.append]
        rw [hsplit]
        rfl
      · intro c hc
        cases hc with
        | head => rfl
        | tail _ hmem => exact hok c hmem

/-- A graph whose heuristic always fails with error 5. -/
def gHeurFail : Graph := ⟨fun _ => .ok [], fun _ _ => .error 5⟩

/-- A graph whose heuristic succeeds but whose neighbor enumeration fails
with error 7. -/
def gNeighFail : Graph := ⟨fun _ => .error 7, fun _ _ => .ok 0⟩

/-- Witness for `claim_C6` at concrete inputs: a failing first heuristic
call, and a run whose neighbor enumeration fails. -/
theorem claim_C6_witness :
    findPathT gHeurFail false false 3 0 1 = (.gerr 5, ⟨[], [], [.heur 0 1 (.error 5)]⟩) ∧
    ∃ pre last, (findPathT gNeighFail false false 3 0 1).2.calls = pre ++ [last] ∧
      callErr last = some 7 ∧ ∀ c ∈ pre, callErr c = none :=
  ⟨(claim_C6 gHeurFail false false 3 0 1 5).1 rfl,
   (claim_C6 gNeighFail false false 3 0 1 7).2 (by decide)⟩

/-! ### The record written by a creation or improvement -/

theorem createState_endRec (st : AState) (cn : Node) (ed : Edge) (p cost : Rat) :
    ∃ r2, getInfo (createState st cn ed p cost).info ed.node = some r2 ∧
      r2.node = ed.node ∧ r2.parent = cn ∧ r2.cost = cost ∧
      r2.predictedCost = p ∧ r2.stamp = st.clock := by
  unfold createState
  have hself : getInfo
      (setInfo st.info ed.node ⟨ed.node, cn, 0, cost, p, st.clock⟩) ed.node =
      some ⟨ed.node, cn, 0, cost, p, st.clock⟩ := getInfo_setInfo_self _ _ _
  obtain ⟨r2, hr2, h1, h2, h3, h4, h5⟩ :=
    SameCores.node_eq (addNodeInfo_cores { st with clock := st.clock + 1 }
      ⟨ed.node, cn, 0, cost, p, st.clock⟩) hself
  exact ⟨r2, hr2, h1, h2, h3, h4, h5⟩

theorem createState_other (st : AState) (cn : Node) (ed : Edge) (p cost : Rat)
    (m : Node) (hm : m ≠ ed.node) :
    (getInfo (createState st cn ed p cost).info m).map NodeInfo.core =
      (getInfo st.info m).map NodeInfo.core := by
  unfold createState
  have hc := addNodeInfo_cores { st with clock := st.clock + 1 }
    ⟨ed.node, cn, 0, cost, p, st.clock⟩
  rw [← hc m]
  rw [getInfo_setInfo_ne _ _ _ _ hm]

theorem improveState_endRec (st : AState) (cn : Node) (ed : Edge) (ni : NodeInfo)
    (cost : Rat) (hwf : WfInfo st.info) (hni : getInfo st.info ed.node = some ni) :
    ∃ r2, getInfo (improveState st cn ed ni cost).info ed.node = some r2 ∧
      r2.node = ni.node ∧ r2.parent = cn ∧ r2.cost = cost ∧
      r2.predictedCost = ni.predictedCost ∧ r2.stamp = st.clock := by
  unfold improveState
  dsimp only
  set r : NodeInfo := { ni with parent := cn, cost := cost, stamp := st.clock } with hrdef
  have hnode : r.node = ed.node := hwf ed.node ni hni
  have hself : getInfo (setInfo st.info ed.node r) ed.node = some r :=
    getInfo_setInfo_self _ _ _
  by_cases hix : r.index ≥ 0
  · rw [if_pos hix]
    obtain ⟨r2, hr2, h1, h2, h3, h4, h5⟩ := SameCores.node_eq (updateNodeInfo_cores
      { st with info := setInfo st.info ed.node r, clock := st.clock + 1 } r) hself
    exact ⟨r2, hr2, h1, h2, h3, h4, h5⟩
  · rw [if_neg hix]
    have hcores := addNodeInfo_cores
      { st with info := setInfo st.info ed.node r, clock := st.clock + 1 } r
    rw [hnode] at hcores
    dsimp only at hcores
    rw [setInfo_setInfo] at hcores
    obtain ⟨r2, hr2, h1, h2, h3, h4, h5⟩ := SameCores.node_eq hcores hself
    exact ⟨r2, hr2, h1, h2, h3, h4, h5⟩

theorem improveState_other (st : AState) (cn : Node) (ed : Edge) (ni : NodeInfo)
    (cost : Rat) (hwf : WfInfo st.info) (hni : getInfo st.info ed.node = some ni)
    (m : Node) (hm : m ≠ ed.node) :
    (getInfo (improveState st cn ed ni cost).info m).map NodeInfo.core =
      (getInfo st.info m).map NodeInfo.core := by
  unfold improveState
  dsimp only
  set r : NodeInfo := { ni with parent := cn, cost := cost, stamp := st.clock } with hrdef
  have hnode : r.node = ed.node := hwf ed.node ni hni
  by_cases hix : r.index ≥ 0
  · rw [if_pos hix]
    rw [← updateNodeInfo_cores
      { st with info := setInfo st.info ed.node r, clock := st.clock + 1 } r m]
    rw [getInfo_setInfo_ne _ _ _ _ hm]
  · rw [if_neg hix]
    have hcores := addNodeInfo_cores
      { st with info := setInfo st.info ed.node r, clock := st.clock + 1 } r
    rw [hnode] at hcores
    dsimp only at hcores
    rw [setInfo_setInfo] at hcores
    rw [← hcores m]
    rw [getInfo_setInfo_ne _ _ _ _ hm]

/-! ### Claim C5: PossiblePath notification costs -/

/-- Costs of the notifications that reported a newly created or improved
goal record (the call site of astar.go line 214), in emission order. -/
def improvingCosts (evs : List PPEv) : List Rat :=
  (evs.filter (fun ev => ev.improving)).map PPEv.cost

/-- The claim as stated: no notification carries a higher cost than an
earlier notification with the same terminal node. -/
def PPMonotone (evs : List PPEv) : Prop :=
  List.Pairwise (fun a b => a.path.getLast? = b.path.getLast? → b.cost ≤ a.cost) evs

instance (evs : List PPEv) : Decidable (PPMonotone evs) := by
  unfold PPMonotone
  exact List.instDecidablePairwise evs

/-- Invariant tying the goal record to the improving notifications emitted
so far: their costs strictly decrease, and the last one (if any) is the goal
record's current cost. -/
def PPInv (endN : Node) (st : AState) (evs : List PPEv) : Prop :=
  List.Chain' (fun a b => b < a) (improvingCosts evs) ∧
  (improvingCosts evs = [] ∨ ∃ r, getInfo st.info endN = some r ∧
    (improvingCosts evs).getLast? = some r.cost)

theorem improvingCosts_append (a b : List PPEv) :
    improvingCosts (a ++ b) = improvingCosts a ++ improvingCosts b := by
  unfold improvingCosts
  rw [List.filter_append, List.map_append]

theorem improvingCosts_improving (p : List Node) (c : Rat) :
    improvingCosts [⟨p, c, true⟩] = [c] := rfl

theorem improvingCosts_nonimproving (p : List Node) (c : Rat) :
    improvingCosts [⟨p, c, false⟩] = [] := rfl

theorem chain'_gt_snoc {L : List Rat} {c : Rat}
    (h : List.Chain' (fun a b => b < a) L)
    (hlast : ∀ x, L.getLast? = some x → c < x) :
    List.Chain' (fun a b => b < a) (L ++ [c]) := by
  rw [List.chain'_append]
  refine ⟨h, List.chain'_singleton c, ?_⟩
  intro x hx y hy
  simp only [List.head?_cons, Option.mem_def, Option.some.injEq] at hy
  rw [← hy]
  exact hlast x hx

theorem map_core_some {o1 o2 : Option NodeInfo}
    (h : o1.map NodeInfo.core = o2.map NodeInfo.core) {r : NodeInfo}
    (hr : o2 = some r) :
    ∃ r2, o1 = some r2 ∧ r2.cost = r.cost := by
  subst hr
  cases ho1 : o1 with
  | none => rw [ho1] at h; cases h
  | some r2 =>
    rw [ho1] at h
    injection h with h
    unfold NodeInfo.core at h
    simp only [Prod.mk.injEq] at h
    exact ⟨r2, rfl, h.2.2.1⟩

theorem PPInv_of_mapcore {endN : Node} {st st' : AState} {evs : List PPEv}
    (hc : (getInfo st'.info endN).map NodeInfo.core =
      (getInfo st.info endN).map NodeInfo.core)
    (h : PPInv endN st evs) : PPInv endN st' evs := by
  refine ⟨h.1, ?_⟩
  rcases h.2 with h2 | ⟨r, hr, hl⟩
  · exact Or.inl h2
  · obtain ⟨r2, hr2, hcost⟩ := map_core_some hc hr
    exact Or.inr ⟨r2, hr2, by rw [hcost]; exact hl⟩

theorem PPInv_of_sameCores {endN : Node} {st st' : AState} {evs : List PPEv}
    (hc : SameCores st.info st'.info) (h : PPInv endN st evs) : PPInv endN st' evs :=
  PPInv_of_mapcore (hc endN).symm h

theorem PPInv_of_info_eq {endN : Node} {st st' : AState} {evs : List PPEv}
    (hc : st'.info = st.info) (h : PPInv endN st evs) : PPInv endN st' evs :=
  PPInv_of_mapcore (by rw [hc]) h

theorem getLast?_snoc (L : List Rat) (c : Rat) : (L ++ [c]).getLast? = some c := by
  simp

theorem relaxEdge_ppinv {cfg : Config} {cn : Node} {st : AState} {ed : Edge}
    {out : RelaxOut} {pp : List PPEv} {cs : List GCall} {evs : List PPEv}
    (h : relaxEdge cfg cn st ed = (out, pp, cs)) (hwf : WfInfo st.info)
    (hcp : cfg.hasPossible = true) (hinv : PPInv cfg.endN st evs) :
    List.Chain' (fun a b => b < a) (improvingCosts (evs ++ pp)) ∧
    ∀ st2, out = .ok st2 → PPInv cfg.endN st2 (evs ++ pp) := by
  cases out with
  | fail er =>
    obtain ⟨_, hpp, _⟩ := relaxEdge_fail_cases h
    subst hpp
    exact ⟨by rw [List.append_nil]; exact hinv.1, fun st2 heq => by cases heq⟩
  | hang =>
    obtain ⟨hpp, _⟩ := relaxEdge_hang_cases h
    subst hpp
    exact ⟨by rw [List.append_nil]; exact hinv.1, fun st2 heq => by cases heq⟩
  | ok st2 =>
    have hgoal : PPInv cfg.endN st2 (evs ++ pp) := by
      rcases relaxEdge_ok_cases rfl rfl h with
        ⟨_, hst, hpp, _⟩ | ⟨hne, hnone, p, hheur, hafter⟩ | ⟨hne, ni, hni, hlt, hafter⟩ |
        ⟨hne, ni, hni, hnlt, hend, hst, _, hppd⟩ | ⟨_, ni, hni, _, _, hst, hpp, _⟩
      · subst hst hpp
        rw [List.append_nil]
        exact hinv
      · set c0 : Rat := ((getInfo st.info cn).getD default).cost + ed.cost with hc0
        obtain ⟨_, hcase⟩ := afterChange_ok_cases hafter
        rcases hcase with ⟨hne2, hst2, hpp⟩ | ⟨hend, hst2, hppd⟩
        · subst hst2 hpp
          rw [List.append_nil]
          exact PPInv_of_mapcore
            (createState_other st cn ed p c0 cfg.endN fun hh => hne2 hh.symm) hinv
        · rcases hppd with ⟨hcpf, _⟩ | ⟨_, pth, hpath, hpp⟩
          · rw [hcp] at hcpf; cases hcpf
          · obtain ⟨r2, hr2, _, _, hr2cost, _, _⟩ := createState_endRec st cn ed p c0
            have hni2 : (getInfo (maxUpd (createState st cn ed p c0) c0).info
                ed.node).getD default = r2 := by
              rw [maxUpd_info, hr2]; rfl
            have hE : improvingCosts evs = [] := by
              rcases hinv.2 with hE | ⟨r, hr, _⟩
              · exact hE
              · rw [hend] at hnone
                rw [hnone] at hr
                cases hr
            constructor
            · rw [improvingCosts_append, hE, hpp, hni2, improvingCosts_improving,
                List.nil_append]
              exact List.chain'_singleton _
            · refine Or.inr ⟨r2, ?_, ?_⟩
              · rw [hst2, maxUpd_info, ← hend, hr2]
              · rw [improvingCosts_append, hE, hpp, hni2, improvingCosts_improving,
                  List.nil_append]
                rfl
      · set c0 : Rat := ((getInfo st.info cn).getD default).cost + ed.cost with hc0
        obtain ⟨_, hcase⟩ := afterChange_ok_cases hafter
        rcases hcase with ⟨hne2, hst2, hpp⟩ | ⟨hend, hst2, hppd⟩
        · subst hst2 hpp
          rw [List.append_nil]
          exact PPInv_of_mapcore
            (improveState_other st cn ed ni c0 hwf hni cfg.endN fun hh => hne2 hh.symm)
            hinv
        · rcases hppd with ⟨hcpf, _⟩ | ⟨_, pth, hpath, hpp⟩
          · rw [hcp] at hcpf; cases hcpf
          · obtain ⟨r2, hr2, _, _, hr2cost, _, _⟩ :=
              improveState_endRec st cn ed ni c0 hwf hni
            have hni2 : (getInfo (maxUpd (improveState st cn ed ni c0) c0).info
                ed.node).getD default = r2 := by
              rw [maxUpd_info, hr2]; rfl
            have hstate : getInfo st2.info cfg.endN = some r2 := by
              rw [hst2, maxUpd_info, ← hend, hr2]
            rcases hinv.2 with hE | ⟨r, hr, hl⟩
            · constructor
              · rw [improvingCosts_append, hE, hpp, hni2, improvingCosts_improving,
                  List.nil_append]
                exact List.chain'_singleton _
              · refine Or.inr ⟨r2, hstate, ?_⟩
                rw [improvingCosts_append, hE, hpp, hni2, improvingCosts_improving,
                  List.nil_append]
                rfl
            · have hrni : r = ni := by
                rw [hend] at hni
                rw [hni] at hr
                injection hr with hr
                exact hr.symm
              constructor
              · rw [improvingCosts_append, hpp, hni2, improvingCosts_improving]
                refine chain'_gt_snoc hinv.1 ?_
                intro x hx
                rw [hl] at hx
                injection hx with hx
                rw [← hx, hrni] at *
                rw [hr2cost]
                exact hlt
              · refine Or.inr ⟨r2, hstate, ?_⟩
                rw [improvingCosts_append, hpp, hni2, improvingCosts_improving]
                exact getLast?_snoc _ _
      · set c0 : Rat := ((getInfo st.info cn).getD default).cost + ed.cost with hc0
        rcases hppd with ⟨hcpf, _⟩ | ⟨_, pth, hpath, hpp⟩
        · rw [hcp] at hcpf; cases hcpf
        · have hic : improvingCosts (evs ++ pp) = improvingCosts evs := by
            rw [improvingCosts_append, hpp, improvingCosts_nonimproving, List.append_nil]
          have hstep : PPInv cfg.endN st2 evs :=
            PPInv_of_info_eq (by rw [hst, maxUpd_info]) hinv
          exact ⟨by rw [hic]; exact hstep.1, by rw [hic]; exact hstep.2⟩
      · subst hst hpp
        rw [List.append_nil]
        exact hinv
    exact ⟨hgoal.1, fun st2x heq => by injection heq with heq; subst heq; exact hgoal⟩

theorem relaxEdges_ppinv {cfg : Config} {cn : Node} :
    ∀ {es : List Edge} {st : AState} {out : RelaxOut} {pp : List PPEv}
      {cs : List GCall} {evs : List PPEv},
    relaxEdges cfg cn st es = (out, pp, cs) → WfInfo st.info →
    cfg.hasPossible = true → PPInv cfg.endN st evs →
    List.Chain' (fun a b => b < a) (improvingCosts (evs ++ pp)) ∧
    ∀ st2, out = .ok st2 → PPInv cfg.endN st2 (evs ++ pp) := by
  intro es
  induction es with
  | nil =>
    intro st out pp cs evs h hwf hcp hinv
    unfold relaxEdges at h
    injection h with h1 h23
    injection h23 with h2 h3
    subst h1
    rw [← h2, List.append_nil]
    exact ⟨hinv.1, fun st2 heq => by injection heq with heq; subst heq; exact hinv⟩
  | cons a rest ih =>
    intro st out pp cs evs h hwf hcp hinv
    unfold relaxEdges at h
    cases hra : relaxEdge cfg cn st a with
    | mk out1 ppcs =>
      obtain ⟨pp1, cs1⟩ := ppcs
      simp only [hra] at h
      cases out1 with
      | ok st1 =>
        cases hrr : relaxEdges cfg cn st1 rest with
        | mk out2 ppcs2 =>
          obtain ⟨pp2, cs2⟩ := ppcs2
          simp only [hrr] at h
          injection h with h1 h23
          injection h23 with h2 h3
          subst h1
          obtain ⟨hch1, hinv1f⟩ := relaxEdge_ppinv hra hwf hcp hinv
          have hinv1 := hinv1f st1 rfl
          have hwf1 := relaxEdge_ok_wf hwf hra
          obtain ⟨hch2, hinv2f⟩ := ih hrr hwf1 hcp hinv1
          rw [← h2]
          constructor
          · rw [← List.append_assoc]
            exact hch2
          · intro st2 heq
            rw [← List.append_assoc]
            exact hinv2f st2 heq
      | fail er =>
        injection h with h1 h23
        injection h23 with h2 h3
        subst h1
        obtain ⟨hch1, _⟩ := relaxEdge_ppinv hra hwf hcp hinv
        rw [← h2]
        exact ⟨hch1, fun st2 heq => by cases heq⟩
      | hang =>
        injection h with h1 h23
        injection h23 with h2 h3
        subst h1
        obtain ⟨hch1, _⟩ := relaxEdge_ppinv hra hwf hcp hinv
        rw [← h2]
        exact ⟨hch1, fun st2 heq => by cases heq⟩

theorem step_ppinv {cfg : Config} {st : AState} {res : StepRes} {tr : Trace}
    {evs : List PPEv} (h : step cfg st = (res, tr)) (hwf : WfInfo st.info)
    (hcp : cfg.hasPossible = true) (hinv : PPInv cfg.endN st evs) :
    List.Chain' (fun a b => b < a) (improvingCosts (evs ++ tr.pp)) ∧
    ∀ st1, res = .cont st1 → (PPInv cfg.endN st1 (evs ++ tr.pp) ∧ WfInfo st1.info) := by
  unfold step at h
  cases hpop : popBest st with
  | none =>
    simp only [hpop] at h
    injection h with h1 h2
    subst h1
    rw [← h2, show Trace.nil.pp = [] from rfl, List.append_nil]
    exact ⟨hinv.1, fun st1 heq => by cases heq⟩
  | some pr =>
    obtain ⟨cur, stp⟩ := pr
    simp only [hpop] at h
    have hinvp := PPInv_of_sameCores (popBest_cores hpop) hinv
    have hwfp := SameCores.wfInfo (popBest_cores hpop) hwf
    by_cases hend : cur.node = cfg.endN
    · rw [if_pos hend] at h
      cases hpath : pathToNode stp cur with
      | none =>
        simp only [hpath] at h
        injection h with h1 h2
        subst h1
        rw [← h2, show Trace.nil.pp = [] from rfl, List.append_nil]
        exact ⟨hinv.1, fun st1 heq => by cases heq⟩
      | some p =>
        simp only [hpath] at h
        injection h with h1 h2
        subst h1
        rw [← h2, show Trace.nil.pp = [] from rfl, List.append_nil]
        exact ⟨hinv.1, fun st1 heq => by cases heq⟩
    · rw [if_neg hend] at h
      by_cases hge : geMax cur.cost stp.maxCost
      · rw [if_pos hge] at h
        injection h with h1 h2
        subst h1
        rw [← h2, show Trace.nil.pp = [] from rfl, List.append_nil]
        exact ⟨hinvp.1, fun st1 heq => by
          injection heq with heq
          subst heq
          exact ⟨hinvp, hwfp⟩⟩
      · rw [if_neg hge] at h
        unfold expand at h
        cases hnb : cfg.g.neighbors cur.node with
        | error er =>
          simp only [hnb] at h
          injection h with h1 h2
          subst h1
          rw [← h2]
          dsimp only
          rw [List.append_nil]
          exact ⟨hinv.1, fun st1 heq => by cases heq⟩
        | ok es =>
          simp only [hnb] at h
          cases hrel : relaxEdges cfg cur.node stp es with
          | mk out2 ppcs2 =>
            obtain ⟨pp2, cs2⟩ := ppcs2
            simp only [hrel] at h
            obtain ⟨hch, hf⟩ := relaxEdges_ppinv hrel hwfp hcp hinvp
            cases out2 with
            | ok st2 =>
              dsimp only at h
              injection h with h1 h2
              subst h1
              rw [← h2]
              exact ⟨hch, fun st1 heq => by
                injection heq with heq
                subst heq
                have hwf2 := relaxEdges_ok_mono_wf hwfp hrel
                exact ⟨hf st2 rfl, hwf2.2⟩⟩
            | fail er =>
              dsimp only at h
              injection h with h1 h2
              subst h1
              rw [← h2]
              exact ⟨hch, fun st1 heq => by cases heq⟩
            | hang =>
              dsimp only at h
              injection h with h1 h2
              subst h1
              rw [← h2]
              exact ⟨hch, fun st1 heq => by cases heq⟩

theorem loop_ppinv {cfg : Config} : ∀ {fuel : Nat} {st : AState} {evs : List PPEv},
    WfInfo st.info → cfg.hasPossible = true → PPInv cfg.endN st evs →
    List.Chain' (fun a b => b < a)
      (improvingCosts (evs ++ (loop cfg fuel st).2.pp)) := by
  intro fuel
  induction fuel with
  | zero =>
    intro st evs hwf hcp hinv
    unfold loop
    rw [show (Trace.nil : Trace).pp = [] from rfl, List.append_nil]
    exact hinv.1
  | succ n ih =>
    intro st evs hwf hcp hinv
    cases hs : step cfg st with
    | mk res tr =>
      cases res with
      | stop r =>
        simp only [loop, hs]
        exact (step_ppinv hs hwf hcp hinv).1
      | cont st1 =>
        simp only [loop, hs]
        obtain ⟨hch, hf⟩ := step_ppinv hs hwf hcp hinv
        obtain ⟨hinv1, hwf1⟩ := hf st1 rfl
        have hrec := ih hwf1 hcp hinv1
        rw [show (tr.append (loop cfg n st1).2).pp =
          tr.pp ++ (loop cfg n st1).2.pp from rfl, ← List.append_assoc]
        exact hrec

theorem ppinv_init (p : Rat) (s e : Node) : PPInv e (initState p s) [] :=
  ⟨List.chain'_nil, Or.inl rfl⟩

/-- Claim C5 (amended): with the PossiblePath capability implemented, the
notifications that report a newly created or improved goal record carry
strictly decreasing costs; the claim as stated fails because the alternate
non-improving call site (astar.go line 205) may report a route to the goal
whose cost exceeds a previously reported one. -/
theorem claim_C5 (g : Graph) (hd : Bool) (fuel : Nat) (s e : Node) :
    List.Chain' (fun a b => b < a)
      (improvingCosts (findPathT g hd true fuel s e).2.pp) := by
  cases hh : g.heuristicCost s e with
  | error er =>
    simp only [findPathT, hh]
    exact List.chain'_nil
  | ok p =>
    simp only [findPathT, hh]
    have hrec := @loop_ppinv ⟨g, e, hd, true⟩ fuel (initState p s) []
      (wfInfo_initState p s) rfl (ppinv_init p s e)
    rw [List.nil_append] at hrec
    exact hrec

/-- Graph for the C5 counterexample: goal 2 is first found directly from 0
at cost 5, then the alternate route through 1 reaches it at cost 7. -/
def gC5 : Graph :=
  ⟨fun n => if n = 0 then .ok [⟨2, 5⟩, ⟨1, 1⟩]
    else if n = 1 then .ok [⟨2, 6⟩] else .ok [],
   fun _ _ => .ok 0⟩

/-- Claim C5 counterexample: running the search on `gC5` notifies
PossiblePath with cost 5 and later with cost 7 for the same terminal node
2, so the notification sequence for one terminal node is not
non-increasing. -/
theorem claim_C5_counterexample :
    (findPathT gC5 false true 10 0 2).2.pp =
      [⟨[0, 2], 5, true⟩, ⟨[0, 1, 2], 7, false⟩] ∧
    ¬ PPMonotone (findPathT gC5 false true 10 0 2).2.pp := by
  constructor
  · decide
  · decide

/-! ### Heap integrity: slots and index fields agree

Needed to reason about which record `popBest` hands to the loop. -/

theorem getD_set_self : ∀ (l : List Node) (i : Nat), i < l.length →
    ∀ b d, (l.set i b).getD i d = b
  | [], i, h => absurd h (by simp)
  | _ :: _, 0, _ => fun b d => rfl
  | x :: xs, i + 1, h => fun b d =>
    getD_set_self xs i (by simpa using h) b d

theorem getD_set_ne : ∀ (l : List Node) (i k : Nat), i ≠ k →
    ∀ b d, (l.set i b).getD k d = l.getD k d
  | [], _, _, _ => fun b d => rfl
  | x :: xs, 0, 0, h => fun _ _ => absurd rfl h
  | x :: xs, 0, k + 1, _ => fun b d => rfl
  | x :: xs, i + 1, 0, _ => fun b d => rfl
  | x :: xs, i + 1, k + 1, h => fun b d =>
    getD_set_ne xs i k (fun hh => h (by rw [hh])) b d

theorem set_of_ge : ∀ (l : List Node) (i : Nat), l.length ≤ i → ∀ b, l.set i b = l
  | [], _, _ => fun _ => rfl
  | x :: xs, 0, h => absurd h (by simp)
  | x :: xs, i + 1, h => fun b => by
    show x :: xs.set i b = x :: xs
    rw [set_of_ge xs i (by simpa using h) b]

theorem getD_of_ge : ∀ (l : List Node) (i : Nat), l.length ≤ i → ∀ d, l.getD i d = d
  | [], _, _ => fun _ => rfl
  | x :: xs, 0, h => absurd h (by simp)
  | x :: xs, i + 1, h => fun d => getD_of_ge xs i (by simpa using h) d

/-- Every heap slot holds a recorded node whose record's `index` is exactly
that slot. -/
def SlotOk (st : AState) : Prop :=
  ∀ i, i < st.heap.length →
    ∃ r, getInfo st.info (st.heap.getD i 0) = some r ∧ r.index = Int.ofNat i

/-- Every record's `index` is either the closed sentinel −1 or a valid heap
slot holding that node. -/
def IdxOk (st : AState) : Prop :=
  ∀ n r, getInfo st.info n = some r → r.index = -1 ∨
    ∃ i : Nat, r.index = Int.ofNat i ∧ i < st.heap.length ∧ st.heap.getD i 0 = n

/-- Heap integrity (the consistency invariant of spec §3). -/
def WfIdx (st : AState) : Prop := SlotOk st ∧ IdxOk st

/-- Two valid slots holding the same node are the same slot. -/
theorem slot_inj {st : AState} (hs : SlotOk st) {i j : Nat}
    (hi : i < st.heap.length) (hj : j < st.heap.length)
    (h : st.heap.getD i 0 = st.heap.getD j 0) : i = j := by
  obtain ⟨r1, hr1, hix1⟩ := hs i hi
  obtain ⟨r2, hr2, hix2⟩ := hs j hj
  rw [h] at hr1
  rw [hr1] at hr2
  injection hr2 with hr2
  rw [hr2] at hix1
  rw [hix1] at hix2
  exact Int.ofNat.inj hix2

/-- `setIndex` rewrites exactly the index field of the record for `n`. -/
theorem getInfo_setIndex_self {st : AState} {n : Node} {r : NodeInfo}
    (hr : getInfo st.info n = some r) (ix : Int) :
    getInfo (setIndex st n ix).info n = some { r with index := ix } := by
  unfold setIndex
  rw [hr]
  exact getInfo_setInfo_self _ _ _

theorem getInfo_setIndex_ne (st : AState) (n : Node) (ix : Int) {m : Node}
    (hm : m ≠ n) : getInfo (setIndex st n ix).info m = getInfo st.info m := by
  unfold setIndex
  cases hn : getInfo st.info n with
  | none => rfl
  | some r => exact getInfo_setInfo_ne _ _ _ _ hm

theorem setIndex_of_none {st : AState} {n : Node}
    (hn : getInfo st.info n = none) (ix : Int) : setIndex st n ix = st := by
  unfold setIndex
  rw [hn]

/-- Precise description of `heapSwap` on a consistent state with in-range
indices. -/
theorem heapSwap_spec (st : AState) (i j : Nat) (hi : i < st.heap.length)
    (hj : j < st.heap.length) (hw : SlotOk st) :
    (heapSwap st i j).heap = (st.heap.set i (st.heap.getD j 0)).set j (st.heap.getD i 0) ∧
    (∀ n, n ≠ st.heap.getD i 0 → n ≠ st.heap.getD j 0 →
      getInfo (heapSwap st i j).info n = getInfo st.info n) ∧
    (∀ r, getInfo st.info (st.heap.getD i 0) = some r →
      getInfo (heapSwap st i j).info (st.heap.getD i 0) = some { r with index := Int.ofNat j }) ∧
    (st.heap.getD i 0 ≠ st.heap.getD j 0 →
      ∀ r, getInfo st.info (st.heap.getD j 0) = some r →
      getInfo (heapSwap st i j).info (st.heap.getD j 0) = some { r with index := Int.ofNat i }) := by
  obtain ⟨ra, hra, hixa⟩ := hw i hi
  obtain ⟨rb, hrb, hixb⟩ := hw j hj
  unfold heapSwap heapAt
  dsimp only
  set st1 : AState := { st with heap := (st.heap.set i (st.heap.getD j 0)).set j (st.heap.getD i 0) }
    with hst1
  have hst1i : st1.info = st.info := rfl
  refine ⟨by rw [setIndex_heap, setIndex_heap], ?_, ?_, ?_⟩
  · intro n hna hnb
    rw [getInfo_setIndex_ne _ _ _ hna, getInfo_setIndex_ne _ _ _ hnb]
  · intro r hr
    by_cases hab : st.heap.getD i 0 = st.heap.getD j 0
    · have hb2 : getInfo st1.info (st.heap.getD j 0) = some r := by
        rw [hst1i, ← hab]; exact hr
      have h1 := getInfo_setIndex_self hb2 (Int.ofNat i)
      have h2 : getInfo (setIndex st1 (st.heap.getD j 0) (Int.ofNat i)).info
          (st.heap.getD i 0) = some { r with index := Int.ofNat i } := by
        rw [hab]; exact h1
      have h3 := getInfo_setIndex_self h2 (Int.ofNat j)
      rw [h3]
    · have hb2 : getInfo st1.info (st.heap.getD j 0) = some rb := by
        rw [hst1i]; exact hrb
      have h1 : getInfo (setIndex st1 (st.heap.getD j 0) (Int.ofNat i)).info
          (st.heap.getD i 0) = some r := by
        rw [getInfo_setIndex_ne _ _ _ hab, hst1i]
        exact hr
      exact getInfo_setIndex_self h1 (Int.ofNat j)
  · intro hab r hr
    have hb2 : getInfo st1.info (st.heap.getD j 0) = some r := by
      rw [hst1i]; exact hr
    have h1 := getInfo_setIndex_self hb2 (Int.ofNat i)
    rw [getInfo_setIndex_ne _ _ _ (fun hh => hab hh.symm)]
    exact h1

theorem getD_append_lt : ∀ (l l2 : List Node) (k : Nat), k < l.length →
    ∀ d, (l ++ l2).getD k d = l.getD k d
  | [], _, _, h => absurd h (by simp)
  | _ :: _, _, 0, _ => fun _ => rfl
  | _ :: xs, l2, k + 1, h => fun d => getD_append_lt xs l2 k (by simpa using h) d

theorem getD_append_len : ∀ (l : List Node) (x d : Node), (l ++ [x]).getD l.length d = x
  | [], _, _ => rfl
  | _ :: ys, x, d => getD_append_len ys x d

theorem getD_take : ∀ (l : List Node) (n k : Nat), k < n → ∀ d, (l.take n).getD k d = l.getD k d
  | [], _, _, _ => fun _ => by rw [List.take_nil]
  | _ :: _, _ + 1, 0, _ => fun _ => rfl
  | _ :: xs, n + 1, k + 1, h => fun d => getD_take xs n k (by omega) d
  | _ :: _, 0, _, h => absurd h (by omega)

theorem upFuel_heap_length : ∀ (fuel : Nat) (st : AState) (j : Nat),
    (upFuel fuel st j).heap.length = st.heap.length := by
  intro fuel
  induction fuel with
  | zero => intro st j; rfl
  | succ k ih =>
    intro st j
    unfold upFuel
    dsimp only
    by_cases hij : (j - 1) / 2 = j
    · rw [if_pos hij]
    · rw [if_neg hij]
      by_cases hl : lessAt st j ((j - 1) / 2)
      · rw [if_pos hl, ih, heapSwap_heap_length]
      · rw [if_neg hl]

theorem downFuel_heap_length : ∀ (fuel : Nat) (st : AState) (i n : Nat),
    (downFuel fuel st i n).heap.length = st.heap.length := by
  intro fuel
  induction fuel with
  | zero => intro st i n; rfl
  | succ k ih =>
    intro st i n
    unfold downFuel
    dsimp only
    by_cases hstop : n ≤ 2 * i + 1
    · rw [if_pos hstop]
    · rw [if_neg hstop]
      by_cases hl : lessAt st
          (if 2 * i + 2 < n ∧ ¬ lessAt st (2 * i + 1) (2 * i + 2) then 2 * i + 2
            else 2 * i + 1) i
      · rw [if_pos hl, ih, heapSwap_heap_length]
      · rw [if_neg hl]

theorem up_heap_length (st : AState) (j : Nat) : (up st j).heap.length = st.heap.length :=
  upFuel_heap_length _ _ _

theorem down_heap_length (st : AState) (i n : Nat) :
    (down st i n).heap.length = st.heap.length :=
  downFuel_heap_length _ _ _ _

/-- A swap of two in-range slots preserves heap integrity. -/
theorem heapSwap_wfIdx {st : AState} {i j : Nat} (hi : i < st.heap.length)
    (hj : j < st.heap.length) (hw : WfIdx st) : WfIdx (heapSwap st i j) := by
  obtain ⟨hs, hx⟩ := hw
  obtain ⟨hheap, hother, hreci, hrecj⟩ := heapSwap_spec st i j hi hj hs
  obtain ⟨ra, hra, hixa⟩ := hs i hi
  obtain ⟨rb, hrb, hixb⟩ := hs j hj
  have hlen : (heapSwap st i j).heap.length = st.heap.length := heapSwap_heap_length st i j
  have hgj : (heapSwap st i j).heap.getD j 0 = st.heap.getD i 0 := by
    rw [hheap]
    exact getD_set_self _ j (by simpa using hj) _ _
  have hgi : i ≠ j → (heapSwap st i j).heap.getD i 0 = st.heap.getD j 0 := by
    intro hij
    rw [hheap, getD_set_ne _ j i (fun hh => hij hh.symm), getD_set_self _ i hi]
  have hgk : ∀ k, k ≠ i → k ≠ j → (heapSwap st i j).heap.getD k 0 = st.heap.getD k 0 := by
    intro k hki hkj
    rw [hheap, getD_set_ne _ j k (fun hh => hkj hh.symm),
      getD_set_ne _ i k (fun hh => hki hh.symm)]
  constructor
  · intro k hk
    rw [hlen] at hk
    by_cases hkj : k = j
    · subst hkj
      exact ⟨{ ra with index := Int.ofNat k }, by rw [hgj]; exact hreci ra hra, rfl⟩
    · by_cases hki : k = i
      · subst hki
        have hij : k ≠ j := hkj
        have hab : st.heap.getD k 0 ≠ st.heap.getD j 0 := fun h => hij (slot_inj hs hi hj h)
        exact ⟨{ rb with index := Int.ofNat k }, by rw [hgi hij]; exact hrecj hab rb hrb, rfl⟩
      · obtain ⟨r, hr, hixr⟩ := hs k hk
        have hna : st.heap.getD k 0 ≠ st.heap.getD i 0 := fun h => hki (slot_inj hs hk hi h)
        have hnb : st.heap.getD k 0 ≠ st.heap.getD j 0 := fun h => hkj (slot_inj hs hk hj h)
        exact ⟨r, by rw [hgk k hki hkj, hother _ hna hnb]; exact hr, hixr⟩
  · intro m r hr2
    by_cases hna : m = st.heap.getD i 0
    · subst hna
      rw [hreci ra hra] at hr2
      injection hr2 with hr2
      refine Or.inr ⟨j, by rw [← hr2], by rw [hlen]; exact hj, hgj⟩
    · by_cases hnb : m = st.heap.getD j 0
      · subst hnb
        have hab : st.heap.getD i 0 ≠ st.heap.getD j 0 := fun h => hna h.symm
        have hij : i ≠ j := fun h => hab (by rw [h])
        rw [hrecj hab rb hrb] at hr2
        injection hr2 with hr2
        exact Or.inr ⟨i, by rw [← hr2], by rw [hlen]; exact hi, hgi hij⟩
      · rw [hother m hna hnb] at hr2
        rcases hx m r hr2 with h1 | ⟨k, hk1, hk2, hk3⟩
        · exact Or.inl h1
        · have hki : k ≠ i := fun h => hna (by rw [← hk3, h])
          have hkj : k ≠ j := fun h => hnb (by rw [← hk3, h])
          exact Or.inr ⟨k, hk1, by rw [hlen]; exact hk2, by rw [hgk k hki hkj]; exact hk3⟩

/-- Sifting a valid slot up preserves heap integrity. -/
theorem upFuel_wfIdx : ∀ (fuel : Nat) (st : AState) (j : Nat),
    j < st.heap.length → WfIdx st → WfIdx (upFuel fuel st j) := by
  intro fuel
  induction fuel with
  | zero => exact fun st j _ hw => hw
  | succ k ih =>
    intro st j hj hw
    unfold upFuel
    dsimp only
    by_cases hij : (j - 1) / 2 = j
    · rw [if_pos hij]; exact hw
    · rw [if_neg hij]
      by_cases hl : lessAt st j ((j - 1) / 2)
      · rw [if_pos hl]
        have hi : (j - 1) / 2 < st.heap.length := by omega
        exact ih (heapSwap st ((j - 1) / 2) j) ((j - 1) / 2)
          (by rw [heapSwap_heap_length]; omega) (heapSwap_wfIdx hi hj hw)
      · rw [if_neg hl]; exact hw

/-- Sifting down within the first `n ≤ length` slots preserves heap
integrity. -/
theorem downFuel_wfIdx : ∀ (fuel : Nat) (st : AState) (i n : Nat),
    n ≤ st.heap.length → WfIdx st → WfIdx (downFuel fuel st i n) := by
  intro fuel
  induction fuel with
  | zero => exact fun st i n _ hw => hw
  | succ k ih =>
    intro st i n hn hw
    unfold downFuel
    dsimp only
    by_cases hstop : n ≤ 2 * i + 1
    · rw [if_pos hstop]; exact hw
    · rw [if_neg hstop]
      by_cases hc : 2 * i + 2 < n ∧ ¬ lessAt st (2 * i + 1) (2 * i + 2)
      · rw [if_pos hc]
        by_cases hl : lessAt st (2 * i + 2) i
        · rw [if_pos hl]
          have hi : i < st.heap.length := by omega
          have hj : 2 * i + 2 < st.heap.length := by omega
          exact ih (heapSwap st i (2 * i + 2)) (2 * i + 2) n
            (by rw [heapSwap_heap_length]; exact hn) (heapSwap_wfIdx hi hj hw)
        · rw [if_neg hl]; exact hw
      · rw [if_neg hc]
        by_cases hl : lessAt st (2 * i + 1) i
        · rw [if_pos hl]
          have hi : i < st.heap.length := by omega
          have hj : 2 * i + 1 < st.heap.length := by omega
          exact ih (heapSwap st i (2 * i + 1)) (2 * i + 1) n
            (by rw [heapSwap_heap_length]; exact hn) (heapSwap_wfIdx hi hj hw)
        · rw [if_neg hl]; exact hw

theorem up_wfIdx (st : AState) (j : Nat) (hj : j < st.heap.length) (hw : WfIdx st) :
    WfIdx (up st j) :=
  upFuel_wfIdx _ _ _ hj hw

theorem down_wfIdx (st : AState) (i n : Nat) (hn : n ≤ st.heap.length) (hw : WfIdx st) :
    WfIdx (down st i n) :=
  downFuel_wfIdx _ _ _ _ hn hw

theorem addNodeInfo_heap_length (st : AState) (r : NodeInfo) :
    (addNodeInfo st r).heap.length = st.heap.length + 1 := by
  unfold addNodeInfo
  dsimp only
  rw [up_heap_length, setIndex_heap]
  simp

/-- Registering a node that is not currently open preserves heap
integrity. -/
theorem addNodeInfo_wfIdx {st : AState} {r : NodeInfo} (hw : WfIdx st)
    (hnew : ∀ r0, getInfo st.info r.node = some r0 → r0.index < 0) :
    WfIdx (addNodeInfo st r) := by
  unfold addNodeInfo
  dsimp only
  set st1 : AState :=
    { st with info := setInfo st.info r.node r, heap := st.heap ++ [r.node] } with hst1
  have hnotin : ∀ k, k < st.heap.length → st.heap.getD k 0 ≠ r.node := by
    intro k hk heq
    obtain ⟨r0, hr0, hix0⟩ := hw.1 k hk
    rw [heq] at hr0
    have := hnew r0 hr0
    rw [hix0, Int.ofNat_eq_natCast] at this
    omega
  have hlen1 : st1.heap.length = st.heap.length + 1 := by rw [hst1]; simp
  have hidx : st1.heap.length - 1 = st.heap.length := by omega
  have hr1 : getInfo st1.info r.node = some r := getInfo_setInfo_self _ _ _
  have hg1 : ∀ m, m ≠ r.node → getInfo st1.info m = getInfo st.info m := by
    intro m hm
    exact getInfo_setInfo_ne _ _ _ _ hm
  have hw2 : WfIdx (setIndex st1 r.node (Int.ofNat (st1.heap.length - 1))) := by
    have hrec : getInfo (setIndex st1 r.node (Int.ofNat (st1.heap.length - 1))).info r.node =
        some { r with index := Int.ofNat (st1.heap.length - 1) } :=
      getInfo_setIndex_self hr1 _
    have hgother : ∀ m, m ≠ r.node →
        getInfo (setIndex st1 r.node (Int.ofNat (st1.heap.length - 1))).info m =
          getInfo st.info m := by
      intro m hm
      rw [getInfo_setIndex_ne _ _ _ hm]
      exact hg1 m hm
    have hheap2 : (setIndex st1 r.node (Int.ofNat (st1.heap.length - 1))).heap =
        st.heap ++ [r.node] := by
      rw [setIndex_heap]
    constructor
    · intro k hk
      rw [hheap2] at hk ⊢
      simp only [List.length_append, List.length_cons, List.length_nil] at hk
      by_cases hke : k = st.heap.length
      · subst hke
        rw [getD_append_len]
        exact ⟨{ r with index := Int.ofNat (st1.heap.length - 1) }, hrec, by rw [hidx]⟩
      · have hk2 : k < st.heap.length := by omega
        rw [getD_append_lt _ _ _ hk2]
        obtain ⟨r0, hr0, hix0⟩ := hw.1 k hk2
        exact ⟨r0, by rw [hgother _ (hnotin k hk2)]; exact hr0, hix0⟩
    · intro m rr hrr
      by_cases hm : m = r.node
      · subst hm
        rw [hrec] at hrr
        injection hrr with hrr
        refine Or.inr ⟨st.heap.length, by rw [← hrr, hidx], ?_, ?_⟩
        · rw [hheap2]; simp
        · rw [hheap2]; exact getD_append_len _ _ _
      · rw [hgother m hm] at hrr
        rcases hw.2 m rr hrr with h1 | ⟨k, hk1, hk2, hk3⟩
        · exact Or.inl h1
        · refine Or.inr ⟨k, hk1, ?_, ?_⟩
          · rw [hheap2]; simp; omega
          · rw [hheap2, getD_append_lt _ _ _ hk2]; exact hk3
  refine up_wfIdx _ _ ?_ hw2
  rw [setIndex_heap, hst1]
  simp

/-- Re-sifting an open record in place preserves heap integrity. -/
theorem updateNodeInfo_wfIdx {st : AState} {r : NodeInfo} {nn : Node} (hw : WfIdx st)
    (hr : getInfo st.info nn = some r) (hge : 0 ≤ r.index) :
    WfIdx (updateNodeInfo st r) := by
  rcases hw.2 nn r hr with h1 | ⟨k, hk1, hk2, hk3⟩
  · rw [h1] at hge; exact absurd hge (by decide)
  · unfold updateNodeInfo
    dsimp only
    have htn : r.index.toNat = k := by rw [hk1]; rfl
    rw [htn]
    refine up_wfIdx _ _ ?_ (down_wfIdx _ _ _ (le_refl _) hw)
    rw [down_heap_length]
    exact hk2

/-- What `popBest` hands to the loop on a consistent state: the extracted
record is a genuine stored record (filed under its own node, now closed),
and the shrunken state is consistent again. -/
theorem popBest_spec {st : AState} {cur : NodeInfo} {st1 : AState}
    (hwf : WfInfo st.info) (hw : WfIdx st) (h : popBest st = some (cur, st1)) :
    WfIdx st1 ∧ getInfo st1.info cur.node = some cur ∧ cur.index = -1 ∧
      st1.heap.length = st.heap.length - 1 := by
  obtain ⟨h0, hst1, hcur⟩ := popBest_eq_some h
  set n := st.heap.length - 1 with hn
  set st2 := down (heapSwap st 0 n) 0 n with hst2
  have hn1 : n < st.heap.length := by omega
  have h01 : 0 < st.heap.length := by omega
  have hw1 : WfIdx (heapSwap st 0 n) := heapSwap_wfIdx h01 hn1 hw
  have hlen1 : (heapSwap st 0 n).heap.length = st.heap.length := heapSwap_heap_length st 0 n
  have hw2 : WfIdx st2 := down_wfIdx _ _ _ (by rw [hlen1]; omega) hw1
  have hlen2 : st2.heap.length = st.heap.length := by
    rw [hst2, down_heap_length, hlen1]
  have hwf2 : WfInfo st2.info := by
    refine SameCores.wfInfo ?_ hwf
    exact sameCores_trans (heapSwap_cores st 0 n) (down_cores _ 0 n)
  obtain ⟨rv, hrv, hixv⟩ := hw2.1 n (by rw [hlen2]; exact hn1)
  set v := st2.heap.getD n 0 with hv
  set st3 : AState := { st2 with heap := st2.heap.take n } with hst3
  have hlen3 : st3.heap.length = n := by
    rw [hst3]
    simp only [List.length_take]
    rw [hlen2]
    omega
  have hinfo3 : st3.info = st2.info := rfl
  have hrv3 : getInfo st3.info v = some rv := hrv
  have hvA : heapAt st2 n = v := rfl
  rw [hvA] at hst1 hcur
  have hv1 : getInfo st1.info v = some { rv with index := -1 } := by
    rw [hst1]
    exact getInfo_setIndex_self hrv3 (-1)
  have hg1 : ∀ m, m ≠ v → getInfo st1.info m = getInfo st2.info m := by
    intro m hm
    rw [hst1, getInfo_setIndex_ne _ _ _ hm]
  have hheap1 : st1.heap = st2.heap.take n := by
    rw [hst1, setIndex_heap]
  have hcur2 : cur = { rv with index := -1 } := by
    rw [hcur, hv1]
    rfl
  have hnode : cur.node = v := by
    rw [hcur2]
    exact hwf2 v rv hrv
  refine ⟨⟨?_, ?_⟩, ?_, ?_, ?_⟩
  · intro k hk
    rw [hheap1] at hk ⊢
    simp only [List.length_take] at hk
    have hkn : k < n := by omega
    have hkl : k < st2.heap.length := by omega
    rw [getD_take _ _ _ hkn]
    have hmv : st2.heap.getD k 0 ≠ v := by
      intro heq
      have := slot_inj hw2.1 hkl (by rw [hlen2]; exact hn1) heq
      omega
    obtain ⟨r0, hr0, hix0⟩ := hw2.1 k hkl
    exact ⟨r0, by rw [hg1 _ hmv]; exact hr0, hix0⟩
  · intro m rr hrr
    by_cases hm : m = v
    · subst hm
      rw [hv1] at hrr
      injection hrr with hrr
      rw [← hrr]
      exact Or.inl rfl
    · rw [hg1 m hm] at hrr
      rcases hw2.2 m rr hrr with h1 | ⟨k, hk1, hk2, hk3⟩
      · exact Or.inl h1
      · have hkn : k ≠ n := by
          intro heq
          rw [heq] at hk3
          exact hm hk3.symm
        have hkn2 : k < n := by
          rw [hlen2] at hk2
          omega
        refine Or.inr ⟨k, hk1, ?_, ?_⟩
        · rw [hheap1]
          simp only [List.length_take]
          rw [hlen2]
          omega
        · rw [hheap1, getD_take _ _ _ hkn2]
          exact hk3
  · rw [hnode]
    rw [hcur2]
    exact hv1
  · rw [hcur2]
  · rw [hheap1]
    simp only [List.length_take]
    omega

/-! ### Parent pointers: every record's parent is the −1 sentinel on the
start record, or a recorded node with a reported edge to the child. -/

/-- Parent well-formedness of the lookup table (relative to graph `g` and
start node `s`). -/
def ParentOk (g : Graph) (s : Node) (info : List (Node × NodeInfo)) : Prop :=
  ∀ n r, getInfo info n = some r →
    (n = s ∧ r.parent = -1) ∨
    ((getInfo info r.parent).isSome = true ∧ ∃ w, ReportsEdge g r.parent n w)

theorem SameCores.isSome_eq {a b : List (Node × NodeInfo)} (h : SameCores a b)
    (n : Node) : (getInfo a n).isSome = (getInfo b n).isSome := by
  have hn := h n
  cases ha : getInfo a n <;> cases hb : getInfo b n
  · rfl
  · rw [ha, hb] at hn; simp at hn
  · rw [ha, hb] at hn; simp at hn
  · rfl

theorem SameCores.parent_eq {a b : List (Node × NodeInfo)} (h : SameCores a b)
    {n : Node} {ra rb : NodeInfo} (hra : getInfo a n = some ra)
    (hrb : getInfo b n = some rb) : ra.parent = rb.parent := by
  have hn := h n
  rw [hra, hrb] at hn
  injection hn with hn
  exact congrArg (fun c => c.2.1) hn

theorem SameCores.parentOk {g : Graph} {s : Node} {a b : List (Node × NodeInfo)}
    (h : SameCores a b) (hp : ParentOk g s a) : ParentOk g s b := by
  intro n r hr
  have hn := h n
  rw [hr] at hn
  cases ha : getInfo a n with
  | none => rw [ha] at hn; simp at hn
  | some r0 =>
    rw [ha] at hn
    injection hn with hn
    have hpar : r0.parent = r.parent := congrArg (fun c => c.2.1) hn
    rcases hp n r0 ha with ⟨h1, h2⟩ | ⟨h1, w, h2⟩
    · exact Or.inl ⟨h1, by rw [← hpar]; exact h2⟩
    · refine Or.inr ⟨?_, w, by rw [← hpar]; exact h2⟩
      rw [← hpar, ← h.isSome_eq]
      exact h1

/-- Filing a record whose parent is a recorded node with a reported edge
preserves parent well-formedness. -/
theorem parentOk_setInfo {g : Graph} {s : Node} {info : List (Node × NodeInfo)}
    {cn : Node} {ed : Edge} (hp : ParentOk g s info)
    (hcn : (getInfo info cn).isSome = true)
    (hedge : ReportsEdge g cn ed.node ed.cost)
    (r : NodeInfo) (hrn : r.parent = cn) :
    ParentOk g s (setInfo info ed.node r) := by
  intro n rr hrr
  by_cases hn : n = ed.node
  · subst hn
    rw [getInfo_setInfo_self] at hrr
    injection hrr with hrr
    subst hrr
    refine Or.inr ⟨?_, ed.cost, by rw [hrn]; exact hedge⟩
    rw [hrn]
    by_cases hck : cn = ed.node
    · rw [hck, getInfo_setInfo_self]; rfl
    · rw [getInfo_setInfo_ne _ _ _ _ hck]; exact hcn
  · rw [getInfo_setInfo_ne _ _ _ _ hn] at hrr
    rcases hp n rr hrr with ⟨h1, h2⟩ | ⟨h1, w, h2⟩
    · exact Or.inl ⟨h1, h2⟩
    · refine Or.inr ⟨?_, w, h2⟩
      by_cases hpk : rr.parent = ed.node
      · rw [hpk, getInfo_setInfo_self]; rfl
      · rw [getInfo_setInfo_ne _ _ _ _ hpk]; exact h1

theorem createState_parentOk {g : Graph} {s : Node} {st : AState} {cn : Node}
    {ed : Edge} {p cost : Rat} (hp : ParentOk g s st.info)
    (hcn : (getInfo st.info cn).isSome = true)
    (hedge : ReportsEdge g cn ed.node ed.cost) :
    ParentOk g s (createState st cn ed p cost).info := by
  refine SameCores.parentOk
    (addNodeInfo_cores { st with clock := st.clock + 1 }
      ⟨ed.node, cn, 0, cost, p, st.clock⟩) ?_
  exact parentOk_setInfo hp hcn hedge _ rfl

theorem improveState_parentOk {g : Graph} {s : Node} {st : AState} {cn : Node}
    {ed : Edge} {ni : NodeInfo} {cost : Rat} (hwf : WfInfo st.info)
    (hp : ParentOk g s st.info) (hni : getInfo st.info ed.node = some ni)
    (hcn : (getInfo st.info cn).isSome = true)
    (hedge : ReportsEdge g cn ed.node ed.cost) :
    ParentOk g s (improveState st cn ed ni cost).info := by
  unfold improveState
  dsimp only
  set r : NodeInfo := { ni with parent := cn, cost := cost, stamp := st.clock } with hrdef
  have hbase : ParentOk g s (setInfo st.info ed.node r) :=
    parentOk_setInfo hp hcn hedge r rfl
  have hnode : r.node = ed.node := by rw [hrdef]; exact hwf ed.node ni hni
  by_cases hix : r.index ≥ 0
  · rw [if_pos hix]
    exact SameCores.parentOk (updateNodeInfo_cores
      { st with info := setInfo st.info ed.node r, clock := st.clock + 1 } r) hbase
  · rw [if_neg hix]
    refine SameCores.parentOk ?_ hbase
    have := addNodeInfo_cores
      { st with info := setInfo st.info ed.node r, clock := st.clock + 1 } r
    rw [hnode] at this
    dsimp only at this
    rw [setInfo_setInfo] at this
    exact this

/-! ### Heap-integrity preservation through one edge relaxation -/

theorem maxUpd_wfIdx {st : AState} {c : Rat} (hw : WfIdx st) : WfIdx (maxUpd st c) := by
  unfold maxUpd
  split
  · exact hw
  · exact hw

/-- Replacing a record without touching its `index` preserves heap
integrity (stated for any state with the rewritten table and an unchanged
heap, to cover the clock bump of the source). -/
theorem wfIdx_replace {st st' : AState} {k : Node} {ni r : NodeInfo} (hw : WfIdx st)
    (hni : getInfo st.info k = some ni) (hix : r.index = ni.index)
    (hinfo : st'.info = setInfo st.info k r) (hheap : st'.heap = st.heap) :
    WfIdx st' := by
  constructor
  · intro i hi
    rw [hheap] at hi ⊢
    obtain ⟨r0, hr0, hix0⟩ := hw.1 i hi
    by_cases hm : st.heap.getD i 0 = k
    · rw [hinfo, hm, getInfo_setInfo_self]
      refine ⟨r, rfl, ?_⟩
      rw [hm] at hr0
      rw [hni] at hr0
      injection hr0 with hr0
      rw [hix, hr0]
      exact hix0
    · rw [hinfo, getInfo_setInfo_ne _ _ _ _ hm]
      exact ⟨r0, hr0, hix0⟩
  · intro m rr hrr
    rw [hheap]
    by_cases hm : m = k
    · subst hm
      rw [hinfo, getInfo_setInfo_self] at hrr
      injection hrr with hrr
      subst hrr
      rcases hw.2 m ni hni with h1 | ⟨i, h2, h3, h4⟩
      · exact Or.inl (by rw [hix]; exact h1)
      · exact Or.inr ⟨i, by rw [hix]; exact h2, h3, h4⟩
    · rw [hinfo, getInfo_setInfo_ne _ _ _ _ hm] at hrr
      rcases hw.2 m rr hrr with h1 | h2
      · exact Or.inl h1
      · exact Or.inr h2

theorem createState_wfIdx {st : AState} {cn : Node} {ed : Edge} {p cost : Rat}
    (hw : WfIdx st) (hnone : getInfo st.info ed.node = none) :
    WfIdx (createState st cn ed p cost) := by
  unfold createState
  refine addNodeInfo_wfIdx hw ?_
  intro r0 hr0
  dsimp only at hr0
  rw [hnone] at hr0
  cases hr0

theorem improveState_wfIdx {st : AState} {cn : Node} {ed : Edge} {ni : NodeInfo}
    {cost : Rat} (hwf : WfInfo st.info) (hw : WfIdx st)
    (hni : getInfo st.info ed.node = some ni) :
    WfIdx (improveState st cn ed ni cost) := by
  unfold improveState
  dsimp only
  set r : NodeInfo := { ni with parent := cn, cost := cost, stamp := st.clock } with hrdef
  set st1 : AState :=
    { st with info := setInfo st.info ed.node r, clock := st.clock + 1 } with hst1
  have hw1 : WfIdx st1 := @wfIdx_replace st st1 ed.node ni r hw hni (by rw [hrdef]) rfl rfl
  have hr1 : getInfo st1.info ed.node = some r := by
    rw [hst1]
    exact getInfo_setInfo_self _ _ _
  have hnode : r.node = ed.node := by rw [hrdef]; exact hwf ed.node ni hni
  by_cases hix : r.index ≥ 0
  · rw [if_pos hix]
    exact updateNodeInfo_wfIdx hw1 hr1 hix
  · rw [if_neg hix]
    refine addNodeInfo_wfIdx hw1 ?_
    intro r0 hr0
    rw [hnode, hr1] at hr0
    injection hr0 with hr0
    rw [← hr0]
    omega

/-! ### The combined reachability invariant used by the path-shape claims -/

/-- Invariant of every state the main loop reaches: records are filed under
their own nodes, the heap is consistent, and parent pointers are
well-formed. -/
def Inv2 (cfg : Config) (s : Node) (st : AState) : Prop :=
  WfInfo st.info ∧ WfIdx st ∧ ParentOk cfg.g s st.info

theorem relaxEdge_ok_isSome {cfg : Config} {cn : Node} {st : AState} {ed : Edge}
    {st2 : AState} {pp : List PPEv} {cs : List GCall} (hwf : WfInfo st.info)
    (h : relaxEdge cfg cn st ed = (.ok st2, pp, cs)) (m : Node)
    (hm : (getInfo st.info m).isSome = true) : (getInfo st2.info m).isSome = true := by
  have hmono := relaxEdge_ok_mono hwf h
  cases hg : getInfo st.info m with
  | none => rw [hg] at hm; cases hm
  | some r =>
    obtain ⟨r2, hr2, _⟩ := hmono m r hg
    rw [hr2]
    rfl

theorem relaxEdge_ok_inv2 {cfg : Config} {cn : Node} {st : AState} {ed : Edge}
    {st2 : AState} {pp : List PPEv} {cs : List GCall} {s : Node}
    (hinv : Inv2 cfg s st) (hcn : (getInfo st.info cn).isSome = true)
    (hedge : ReportsEdge cfg.g cn ed.node ed.cost)
    (h : relaxEdge cfg cn st ed = (.ok st2, pp, cs)) :
    Inv2 cfg s st2 := by
  obtain ⟨hwf, hwx, hpo⟩ := hinv
  rcases relaxEdge_ok_cases rfl rfl h with
    ⟨_, hst, _, _⟩ | ⟨_, hnone, p, _, hafter⟩ | ⟨_, ni, hni, hlt, hafter⟩ |
    ⟨_, ni, hni, _, _, hst, _, _⟩ | ⟨_, ni, hni, _, _, hst, _, _⟩
  · rw [hst]; exact ⟨hwf, hwx, hpo⟩
  · obtain ⟨_, hcase⟩ := afterChange_ok_cases hafter
    have hinv1 : Inv2 cfg s (createState st cn ed p
        (((getInfo st.info cn).getD default).cost + ed.cost)) :=
      ⟨createState_wf hwf, createState_wfIdx hwx hnone,
        createState_parentOk hpo hcn hedge⟩
    rcases hcase with ⟨_, hst2, _⟩ | ⟨_, hst2, _⟩
    · rw [hst2]; exact hinv1
    · rw [hst2]
      exact ⟨by rw [maxUpd_info]; exact hinv1.1, maxUpd_wfIdx hinv1.2.1,
        by rw [maxUpd_info]; exact hinv1.2.2⟩
  · obtain ⟨_, hcase⟩ := afterChange_ok_cases hafter
    have hinv1 : Inv2 cfg s (improveState st cn ed ni
        (((getInfo st.info cn).getD default).cost + ed.cost)) :=
      ⟨improveState_wf hwf hni, improveState_wfIdx hwf hwx hni,
        improveState_parentOk hwf hpo hni hcn hedge⟩
    rcases hcase with ⟨_, hst2, _⟩ | ⟨_, hst2, _⟩
    · rw [hst2]; exact hinv1
    · rw [hst2]
      exact ⟨by rw [maxUpd_info]; exact hinv1.1, maxUpd_wfIdx hinv1.2.1,
        by rw [maxUpd_info]; exact hinv1.2.2⟩
  · rw [hst]
    exact ⟨by rw [maxUpd_info]; exact hwf, maxUpd_wfIdx hwx,
      by rw [maxUpd_info]; exact hpo⟩
  · rw [hst]; exact ⟨hwf, hwx, hpo⟩

theorem relaxEdges_ok_inv2 {cfg : Config} {cn : Node} {s : Node} :
    ∀ {es : List Edge} {st st2 : AState} {pp : List PPEv} {cs : List GCall},
    Inv2 cfg s st → (getInfo st.info cn).isSome = true →
    (∀ ed ∈ es, ReportsEdge cfg.g cn ed.node ed.cost) →
    relaxEdges cfg cn st es = (.ok st2, pp, cs) → Inv2 cfg s st2 := by
  intro es
  induction es with
  | nil =>
    intro st st2 pp cs hinv _ _ h
    unfold relaxEdges at h
    injection h with h1 h23
    injection h1 with h1
    rw [← h1]
    exact hinv
  | cons a rest ih =>
    intro st st2 pp cs hinv hcn hre h
    unfold relaxEdges at h
    cases hra : relaxEdge cfg cn st a with
    | mk out ppcs =>
      obtain ⟨pp1, cs1⟩ := ppcs
      simp only [hra] at h
      cases out with
      | ok st1 =>
        cases hrr : relaxEdges cfg cn st1 rest with
        | mk out2 ppcs2 =>
          obtain ⟨pp2, cs2⟩ := ppcs2
          simp only [hrr] at h
          injection h with h1 h23
          subst h1
          have hinv1 := relaxEdge_ok_inv2 hinv hcn (hre a (by simp)) hra
          have hcn1 := relaxEdge_ok_isSome hinv.1 hra cn hcn
          exact ih hinv1 hcn1 (fun ed hed => hre ed (by simp [hed])) hrr
      | fail er =>
        injection h with h1 h23
        cases h1
      | hang =>
        injection h with h1 h23
        cases h1

theorem popBest_inv2 {cfg : Config} {s : Node} {st : AState} {cur : NodeInfo}
    {stp : AState} (hinv : Inv2 cfg s st) (h : popBest st = some (cur, stp)) :
    Inv2 cfg s stp ∧ getInfo stp.info cur.node = some cur ∧ cur.index = -1 := by
  obtain ⟨hwf, hwx, hpo⟩ := hinv
  obtain ⟨hwx1, hrec, hixm, _⟩ := popBest_spec hwf hwx h
  have hc := popBest_cores h
  exact ⟨⟨SameCores.wfInfo hc hwf, hwx1, SameCores.parentOk hc hpo⟩, hrec, hixm⟩

theorem step_cont_inv2 {cfg : Config} {s : Node} {st st1 : AState} {tr : Trace}
    (hinv : Inv2 cfg s st) (h : step cfg st = (.cont st1, tr)) : Inv2 cfg s st1 := by
  obtain ⟨cur, stp, hpop, hend, hcase⟩ := step_cont_cases h
  obtain ⟨hinv1, hrec, _⟩ := popBest_inv2 hinv hpop
  rcases hcase with ⟨_, hst, _⟩ | ⟨_, es, pp, cs, hnb, hrel, _⟩
  · rw [hst]; exact hinv1
  · refine relaxEdges_ok_inv2 hinv1 (by rw [hrec]; rfl) ?_ hrel
    intro ed hed
    exact ⟨es, hnb, hed⟩

theorem wfIdx_initState (p : Rat) (s : Node) : WfIdx (initState p s) := by
  rw [initState_eq]
  constructor
  · intro i hi
    simp only [List.length_cons, List.length_nil] at hi
    have hi0 : i = 0 := by omega
    subst hi0
    exact ⟨⟨s, -1, 0, 0, p, 0⟩, by simp [getInfo], rfl⟩
  · intro n rr h
    unfold getInfo at h
    by_cases hs : s = n
    · rw [if_pos hs] at h
      injection h with h
      refine Or.inr ⟨0, by rw [← h]; rfl, by simp, hs⟩
    · rw [if_neg hs] at h
      exact absurd h (by simp [getInfo])

theorem parentOk_initState (g : Graph) (p : Rat) (s : Node) :
    ParentOk g s (initState p s).info := by
  rw [initState_eq]
  intro n r h
  unfold getInfo at h
  by_cases hs : s = n
  · rw [if_pos hs] at h
    injection h with h
    exact Or.inl ⟨hs.symm, by rw [← h]⟩
  · rw [if_neg hs] at h
    exact absurd h (by simp [getInfo])

theorem inv2_initState (g : Graph) (e : Node) (hd hp : Bool) (p : Rat) (s : Node) :
    Inv2 ⟨g, e, hd, hp⟩ s (initState p s) :=
  ⟨wfInfo_initState p s, wfIdx_initState p s, parentOk_initState g p s⟩

/-! ### The shape of a reconstructed path (claim C2) -/

/-- `neighbors` reports an edge from `a` to `b` (of some cost). -/
def EdgeStep (g : Graph) (a b : Node) : Prop := ∃ w, ReportsEdge g a b w

/-- When every record's parent is itself recorded, the backward walk of
`pathToNode` can never stop (the Go loop diverges; the model returns
`none`). -/
theorem pathToNodeAux_none_of_allRec {info : List (Node × NodeInfo)}
    (hwf : WfInfo info)
    (hall : ∀ n r, getInfo info n = some r → (getInfo info r.parent).isSome = true) :
    ∀ (fuel : Nat) (r : NodeInfo) (acc : List Node),
      getInfo info r.node = some r → pathToNodeAux info fuel r acc = none := by
  intro fuel
  induction fuel with
  | zero => intro r acc _; rfl
  | succ k ih =>
    intro r acc hr
    unfold pathToNodeAux
    cases hp : getInfo info r.parent with
    | none =>
      have := hall r.node r hr
      rw [hp] at this
      cases this
    | some r2 =>
      have hr2 : getInfo info r2.node = some r2 := by
        rw [hwf r.parent r2 hp]
        exact hp
      exact ih r2 (r.node :: acc) hr2

/-- The backward walk of `pathToNode`, on a table with well-formed parent
pointers and with the −1 sentinel unrecorded, produces a chain of reported
edges that starts at the start node and keeps the accumulator's last
element. -/
theorem pathToNodeAux_chain {g : Graph} {s : Node} {info : List (Node × NodeInfo)}
    (hwf : WfInfo info) (hpo : ParentOk g s info)
    (hm1 : getInfo info (-1 : Node) = none) :
    ∀ (fuel : Nat) (r : NodeInfo) (acc p : List Node),
      getInfo info r.node = some r →
      List.Chain' (EdgeStep g) (r.node :: acc) →
      pathToNodeAux info fuel r acc = some p →
      p.head? = some s ∧ List.Chain' (EdgeStep g) p ∧
        p.getLast? = (r.node :: acc).getLast? := by
  intro fuel
  induction fuel with
  | zero =>
    intro r acc p _ _ h
    simp [pathToNodeAux] at h
  | succ k ih =>
    intro r acc p hr hch h
    unfold pathToNodeAux at h
    cases hp : getInfo info r.parent with
    | none =>
      rw [hp] at h
      dsimp only at h
      injection h with h
      rcases hpo r.node r hr with ⟨h1, h2⟩ | ⟨h1, h2⟩
      · refine ⟨?_, ?_, ?_⟩
        · rw [← h, h1]
          rfl
        · rw [← h]; exact hch
        · rw [← h]
      · rw [hp] at h1
        cases h1
    | some r2 =>
      rw [hp] at h
      dsimp only at h
      have hr2node : r2.node = r.parent := hwf r.parent r2 hp
      have hr2 : getInfo info r2.node = some r2 := by rw [hr2node]; exact hp
      have hedge : EdgeStep g r2.node r.node := by
        rcases hpo r.node r hr with ⟨h1, h2⟩ | ⟨h1, w, h2⟩
        · rw [h2] at hp
          rw [hm1] at hp
          cases hp
        · exact ⟨w, by rw [hr2node]; exact h2⟩
      have hch2 : List.Chain' (EdgeStep g) (r2.node :: r.node :: acc) :=
        List.chain'_cons.mpr ⟨hedge, hch⟩
      have hrec := ih r2 (r.node :: acc) p hr2 hch2 h
      refine ⟨hrec.1, hrec.2.1, ?_⟩
      rw [hrec.2.2]
      exact List.getLast?_cons_cons

/-- A loop iteration that returns a path: the path starts at the start
node, ends at the goal and follows reported edges. -/
theorem step_found {cfg : Config} {s : Node} {st : AState} {p : List Node} {tr : Trace}
    (hinv : Inv2 cfg s st) (h : step cfg st = (.stop (.found p), tr)) :
    p.head? = some s ∧ p.getLast? = some cfg.endN ∧ List.Chain' (EdgeStep cfg.g) p := by
  unfold step at h
  cases hpop : popBest st with
  | none =>
    simp only [hpop] at h
    injection h with h1 h2
    injection h1 with h1
    cases h1
  | some pr =>
    obtain ⟨cur, stp⟩ := pr
    simp only [hpop] at h
    by_cases hend : cur.node = cfg.endN
    · rw [if_pos hend] at h
      cases hpath : pathToNode stp cur with
      | none =>
        simp only [hpath] at h
        injection h with h1 h2
        injection h1 with h1
        cases h1
      | some q =>
        simp only [hpath] at h
        injection h with h1 h2
        injection h1 with h1
        injection h1 with h1
        subst h1
        obtain ⟨hinv1, hrec, _⟩ := popBest_inv2 hinv hpop
        obtain ⟨hwf1, hwx1, hpo1⟩ := hinv1
        by_cases hm1 : getInfo stp.info (-1 : Node) = none
        · have hres := pathToNodeAux_chain hwf1 hpo1 hm1 (stp.info.length + 1) cur [] q
            hrec (List.chain'_singleton _) hpath
          refine ⟨hres.1, ?_, hres.2.1⟩
          rw [hres.2.2, hend]
          rfl
        · have hall : ∀ n r, getInfo stp.info n = some r →
              (getInfo stp.info r.parent).isSome = true := by
            intro n r hr
            rcases hpo1 n r hr with ⟨_, h2⟩ | ⟨h2, _⟩
            · rw [h2]
              cases hg : getInfo stp.info (-1 : Node) with
              | none => exact absurd hg hm1
              | some _ => rfl
            · exact h2
          have hnone := pathToNodeAux_none_of_allRec hwf1 hall
            (stp.info.length + 1) cur [] hrec
          unfold pathToNode at hpath
          rw [hnone] at hpath
          cases hpath
    · rw [if_neg hend] at h
      by_cases hge : geMax cur.cost stp.maxCost
      · rw [if_pos hge] at h
        injection h with h1 h2
        cases h1
      · rw [if_neg hge] at h
        cases hex : expand cfg cur stp with
        | mk res ppcs =>
          obtain ⟨pp, cs⟩ := ppcs
          simp only [hex] at h
          injection h with h1 h2
          subst h1
          unfold expand at hex
          cases hnb : cfg.g.neighbors cur.node with
          | error er =>
            simp only [hnb] at hex
            injection hex with h1 h2
            injection h1 with h1
            cases h1
          | ok es =>
            simp only [hnb] at hex
            cases hrel : relaxEdges cfg cur.node stp es with
            | mk out ppcs2 =>
              obtain ⟨pp2, cs2⟩ := ppcs2
              simp only [hrel] at hex
              cases out with
              | ok st2 =>
                injection hex with h1 h2
                cases h1
              | fail er =>
                injection hex with h1 h2
                injection h1 with h1
                cases h1
              | hang =>
                injection hex with h1 h2
                injection h1 with h1
                cases h1

theorem loop_found {cfg : Config} {s : Node} : ∀ {fuel : Nat} {st : AState}
    {p : List Node} {tr : Trace}, Inv2 cfg s st → loop cfg fuel st = (.found p, tr) →
    p.head? = some s ∧ p.getLast? = some cfg.endN ∧ List.Chain' (EdgeStep cfg.g) p := by
  intro fuel
  induction fuel with
  | zero =>
    intro st p tr _ h
    unfold loop at h
    injection h with h1 h2
    cases h1
  | succ k ih =>
    intro st p tr hinv h
    unfold loop at h
    cases hs : step cfg st with
    | mk res tr1 =>
      simp only [hs] at h
      cases res with
      | cont st1 =>
        cases hl : loop cfg k st1 with
        | mk r2 tr2 =>
          simp only [hl] at h
          injection h with h1 h2
          subst h1
          exact ih (step_cont_inv2 hinv hs) hl
      | stop r =>
        injection h with h1 h2
        subst h1
        exact step_found hinv hs

/-- Claim C2: every path returned by FindPath is a non-empty sequence whose
first element is the start node, whose last element is the goal node, and in
which each consecutive pair is joined by an edge the Neighbors callback
reports for the earlier node. -/
theorem claim_C2 (g : Graph) (hd hp : Bool) (fuel : Nat) (s e : Node) (p : List Node)
    (h : FindPath g hd hp fuel s e = .found p) :
    p ≠ [] ∧ p.head? = some s ∧ p.getLast? = some e ∧
      List.Chain' (EdgeStep g) p := by
  unfold FindPath findPathT at h
  cases hq : g.heuristicCost s e with
  | error er =>
    rw [hq] at h
    dsimp only at h
    cases h
  | ok q =>
    rw [hq] at h
    dsimp only at h
    cases hl : loop ⟨g, e, hd, hp⟩ fuel (initState q s) with
    | mk r tr =>
      rw [hl] at h
      dsimp only at h
      subst h
      obtain ⟨h1, h2, h3⟩ := loop_found (inv2_initState g e hd hp q s) hl
      refine ⟨?_, h1, h2, h3⟩
      intro hnil
      rw [hnil] at h1
      cases h1

/-- Witness for `claim_C2`: a two-node graph whose run returns the path
`[0, 1]`, which indeed starts at 0, ends at 1, and follows a reported
edge. -/
def gC2 : Graph := ⟨fun n => if n = 0 then .ok [⟨1, 1⟩] else .ok [], fun _ _ => .ok 0⟩

theorem claim_C2_witness :
    [0, 1] ≠ ([] : List Node) ∧ ([0, 1] : List Node).head? = some 0 ∧
      ([0, 1] : List Node).getLast? = some 1 ∧
      List.Chain' (EdgeStep gC2) [0, 1] :=
  claim_C2 gC2 false false 3 0 1 [0, 1] (by decide)

/-! ### Acyclicity of parent chains (claim C10)

Ghost instrumentation: every parent link strictly decreases the pair
(cost, stamp) in lexicographic order, so the backward walk terminates. -/

/-- Strict lexicographic order on (cost, stamp). -/
def lexLtP (a b : NodeInfo) : Prop :=
  a.cost < b.cost ∨ (a.cost = b.cost ∧ a.stamp < b.stamp)

/-- Reflexive lexicographic order on (cost, stamp). -/
def lexLeP (a b : NodeInfo) : Prop :=
  a.cost < b.cost ∨ (a.cost = b.cost ∧ a.stamp ≤ b.stamp)

instance (a b : NodeInfo) : Decidable (lexLtP a b) := by
  unfold lexLtP; infer_instance

instance (a b : NodeInfo) : Decidable (lexLeP a b) := by
  unfold lexLeP; infer_instance

theorem lexLeP_refl (a : NodeInfo) : lexLeP a a :=
  Or.inr ⟨rfl, le_refl _⟩

theorem lexLeP_of_lt {a b : NodeInfo} (h : lexLtP a b) : lexLeP a b := by
  rcases h with h | ⟨h1, h2⟩
  · exact Or.inl h
  · exact Or.inr ⟨h1, le_of_lt h2⟩

theorem lexLeP_trans_lt {a b c : NodeInfo} (h1 : lexLeP a b) (h2 : lexLtP b c) :
    lexLeP a c := by
  rcases h1 with h1 | ⟨h1a, h1b⟩ <;> rcases h2 with h2 | ⟨h2a, h2b⟩
  · exact Or.inl (lt_trans h1 h2)
  · exact Or.inl (h2a ▸ h1)
  · exact Or.inl (h1a ▸ h2)
  · exact Or.inr ⟨h1a.trans h2a, le_of_lt (lt_of_le_of_lt h1b h2b)⟩

theorem not_lexLeP_of_lt {b c : NodeInfo} (h : lexLtP b c) : ¬ lexLeP c b := by
  intro hcb
  rcases h with h | ⟨h1, h2⟩ <;> rcases hcb with hc | ⟨hc1, hc2⟩
  · exact absurd (lt_trans h hc) (lt_irrefl _)
  · rw [hc1] at h; exact absurd h (lt_irrefl _)
  · rw [h1] at hc; exact absurd hc (lt_irrefl _)
  · exact absurd (lt_of_le_of_lt hc2 h2) (lt_irrefl _)

theorem getInfo_mem : ∀ {info : List (Node × NodeInfo)} {n : Node} {r : NodeInfo},
    getInfo info n = some r → (n, r) ∈ info := by
  intro info
  induction info with
  | nil => intro n r h; cases h
  | cons a t ih =>
    intro n r h
    unfold getInfo at h
    by_cases ha : a.1 = n
    · rw [if_pos ha] at h
      injection h with h
      exact List.mem_cons.mpr (Or.inl (by rw [← ha, ← h]))
    · rw [if_neg ha] at h
      exact List.mem_cons.mpr (Or.inr (ih h))

theorem filter_length_mono {α : Type} (p q : α → Bool)
    (himp : ∀ x, q x = true → p x = true) :
    ∀ l : List α, (l.filter q).length ≤ (l.filter p).length := by
  intro l
  induction l with
  | nil => exact le_refl _
  | cons a t ih =>
    cases hq : q a with
    | true =>
      have hp := himp a hq
      simp only [List.filter_cons, hq, hp, if_true, List.length_cons]
      omega
    | false =>
      cases hp : p a with
      | true =>
        simp only [List.filter_cons, hq, hp, if_true, Bool.false_eq_true, if_false,
          List.length_cons]
        omega
      | false =>
        simp only [List.filter_cons, hq, hp, Bool.false_eq_true, if_false]
        exact ih

theorem filter_length_lt {α : Type} (l : List α) (p q : α → Bool)
    (himp : ∀ x, q x = true → p x = true) (x0 : α) (hx0 : x0 ∈ l)
    (hp : p x0 = true) (hq : q x0 = false) :
    (l.filter q).length < (l.filter p).length := by
  induction l with
  | nil => cases hx0
  | cons a t ih =>
    rcases List.mem_cons.mp hx0 with he | ht
    · subst he
      simp only [List.filter_cons, hp, hq, if_true, Bool.false_eq_true, if_false,
        List.length_cons]
      exact Nat.lt_succ_of_le (filter_length_mono p q himp t)
    · cases hqa : q a with
      | true =>
        have hpa := himp a hqa
        simp only [List.filter_cons, hqa, hpa, if_true, List.length_cons]
        exact Nat.succ_lt_succ (ih ht)
      | false =>
        cases hpa : p a with
        | true =>
          simp only [List.filter_cons, hqa, hpa, if_true, Bool.false_eq_true, if_false,
            List.length_cons]
          exact Nat.lt_succ_of_lt (ih ht)
        | false =>
          simp only [List.filter_cons, hqa, hpa, Bool.false_eq_true, if_false]
          exact ih ht

/-- Every parent link strictly decreases (cost, stamp) lexicographically
(or is the −1 sentinel). -/
def LexOk (info : List (Node × NodeInfo)) : Prop :=
  ∀ n r, getInfo info n = some r → r.parent = -1 ∨
    ∃ rp, getInfo info r.parent = some rp ∧ lexLtP rp r

/-- All stamps are below the ghost clock. -/
def StampOk (st : AState) : Prop :=
  ∀ n r, getInfo st.info n = some r → r.stamp < st.clock

/-- On a table whose parent links decrease (cost, stamp) and whose −1
sentinel is unrecorded, the backward walk terminates whenever the fuel
exceeds the number of records at or below the starting key. -/
theorem pathToNodeAux_some_of_lex {info : List (Node × NodeInfo)}
    (hwf : WfInfo info) (hlex : LexOk info) (hm1 : getInfo info (-1 : Node) = none) :
    ∀ (fuel : Nat) (r : NodeInfo) (acc : List Node),
      getInfo info r.node = some r →
      (info.filter (fun q => decide (lexLeP q.2 r))).length < fuel →
      ∃ p, pathToNodeAux info fuel r acc = some p := by
  intro fuel
  induction fuel with
  | zero =>
    intro r acc _ hlt
    omega
  | succ k ih =>
    intro r acc hr hlt
    unfold pathToNodeAux
    cases hp : getInfo info r.parent with
    | none => exact ⟨r.node :: acc, rfl⟩
    | some rp =>
      have hlt2 : lexLtP rp r := by
        rcases hlex r.node r hr with h1 | ⟨rp2, hrp2, hl⟩
        · rw [h1, hm1] at hp
          cases hp
        · rw [hp] at hrp2
          injection hrp2 with he
          rw [he]
          exact hl
      have hrp2 : getInfo info rp.node = some rp := by
        rw [hwf r.parent rp hp]
        exact hp
      have hdec : (info.filter (fun q => decide (lexLeP q.2 rp))).length <
          (info.filter (fun q => decide (lexLeP q.2 r))).length := by
        refine filter_length_lt info _ _ ?_ (r.node, r) (getInfo_mem hr) ?_ ?_
        · intro x hx
          rw [decide_eq_true_iff] at hx
          rw [decide_eq_true_iff]
          exact lexLeP_trans_lt hx hlt2
        · exact decide_eq_true (lexLeP_refl r)
        · exact decide_eq_false (not_lexLeP_of_lt hlt2)
      obtain ⟨p, hp2⟩ := ih rp (r.node :: acc) hrp2 (by omega)
      exact ⟨p, hp2⟩

/-- The full walk of `pathToNode` terminates on a lex-well-founded table
with the sentinel unrecorded. -/
theorem pathToNode_some_of_lex {st : AState} {r : NodeInfo}
    (hwf : WfInfo st.info) (hlex : LexOk st.info)
    (hm1 : getInfo st.info (-1 : Node) = none)
    (hr : getInfo st.info r.node = some r) :
    ∃ p, pathToNode st r = some p := by
  refine pathToNodeAux_some_of_lex hwf hlex hm1 (st.info.length + 1) r [] hr ?_
  have := List.length_filter_le (fun q => decide (lexLeP q.2 r)) st.info
  omega

/-- The acyclicity invariant: well-formed records, stamps below the clock,
lex-decreasing parent links, and no record for the −1 sentinel. -/
def Inv3 (st : AState) : Prop :=
  WfInfo st.info ∧ StampOk st ∧ LexOk st.info ∧ getInfo st.info (-1 : Node) = none

theorem SameCores.lexOk {a b : List (Node × NodeInfo)} (h : SameCores a b)
    (hl : LexOk a) : LexOk b := by
  intro n r hr
  have hn := h n
  rw [hr] at hn
  cases ha : getInfo a n with
  | none => rw [ha] at hn; simp at hn
  | some r0 =>
    rw [ha] at hn
    injection hn with hn
    have hpar : r0.parent = r.parent := congrArg (fun c => c.2.1) hn
    have hcost : r0.cost = r.cost := congrArg (fun c => c.2.2.1) hn
    have hstamp : r0.stamp = r.stamp := congrArg (fun c => c.2.2.2.2) hn
    rcases hl n r0 ha with h1 | ⟨rp0, hrp0, hlx⟩
    · exact Or.inl (hpar ▸ h1)
    · have hp := h r0.parent
      rw [hrp0] at hp
      cases hb : getInfo b r0.parent with
      | none => rw [hb] at hp; simp at hp
      | some rp =>
        rw [hb] at hp
        injection hp with hp
        refine Or.inr ⟨rp, by rw [← hpar]; exact hb, ?_⟩
        have hc2 : rp0.cost = rp.cost := congrArg (fun c => c.2.2.1) hp
        have hs2 : rp0.stamp = rp.stamp := congrArg (fun c => c.2.2.2.2) hp
        rcases hlx with hx | ⟨hx1, hx2⟩
        · exact Or.inl (by rw [← hc2, ← hcost]; exact hx)
        · exact Or.inr ⟨by rw [← hc2, ← hcost]; exact hx1,
            by rw [← hs2, ← hstamp]; exact hx2⟩

theorem SameCores.negRec {a b : List (Node × NodeInfo)} (h : SameCores a b)
    (ha : getInfo a (-1 : Node) = none) : getInfo b (-1 : Node) = none := by
  cases hb : getInfo b (-1 : Node) with
  | none => rfl
  | some r =>
    have hh := h.isSome_eq (-1)
    rw [ha, hb] at hh
    simp at hh

theorem stampOk_transfer {st st' : AState} (h : SameCores st.info st'.info)
    (hc : st'.clock = st.clock) (hs : StampOk st) : StampOk st' := by
  intro n r hr
  have hn := h n
  rw [hr] at hn
  cases ha : getInfo st.info n with
  | none => rw [ha] at hn; simp at hn
  | some r0 =>
    rw [ha] at hn
    injection hn with hn
    have hst : r0.stamp = r.stamp := congrArg (fun c => c.2.2.2.2) hn
    rw [hc, ← hst]
    exact hs n r0 ha

theorem inv3_transfer {st st' : AState} (h : SameCores st.info st'.info)
    (hc : st'.clock = st.clock) (h3 : Inv3 st) : Inv3 st' :=
  ⟨SameCores.wfInfo h h3.1, stampOk_transfer h hc h3.2.1,
    SameCores.lexOk h h3.2.2.1, SameCores.negRec h h3.2.2.2⟩

theorem maxUpd_inv3 {st : AState} {c : Rat} (h : Inv3 st) : Inv3 (maxUpd st c) := by
  unfold maxUpd
  split
  · exact h
  · exact h

theorem popBest_inv3 {st : AState} {cur : NodeInfo} {stp : AState} (h3 : Inv3 st)
    (h : popBest st = some (cur, stp)) : Inv3 stp :=
  inv3_transfer (popBest_cores h) (popBest_clock h) h3

/-- Creating a record for a fresh node with a non-negative edge preserves
the acyclicity invariant. -/
theorem createState_inv3 {st : AState} {cn : Node} {ed : Edge} {p cost : Rat}
    (h3 : Inv3 st) (hcn : (getInfo st.info cn).isSome = true)
    (hnone : getInfo st.info ed.node = none)
    (hcost : cost = ((getInfo st.info cn).getD default).cost + ed.cost)
    (hw : 0 ≤ ed.cost) (hne : ed.node ≠ -1) :
    Inv3 (createState st cn ed p cost) := by
  obtain ⟨hwf, hstp, hlex, hneg⟩ := h3
  cases hg : getInfo st.info cn with
  | none => rw [hg] at hcn; cases hcn
  | some c0 =>
  rw [hg] at hcost
  rw [show ((some c0).getD default : NodeInfo) = c0 from rfl] at hcost
  have hcnne : cn ≠ ed.node := by
    intro he
    rw [he, hnone] at hg
    cases hg
  set rnew : NodeInfo := ⟨ed.node, cn, 0, cost, p, st.clock⟩ with hrnew
  set bst : AState :=
    { st with info := setInfo st.info ed.node rnew, clock := st.clock + 1 } with hbst
  have hbinfo : bst.info = setInfo st.info ed.node rnew := rfl
  have hlx : lexLtP c0 rnew := by
    rcases lt_or_eq_of_le hw with hlt | heq
    · left
      rw [hrnew]
      dsimp only
      rw [hcost]
      exact lt_add_of_pos_right _ hlt
    · right
      refine ⟨?_, ?_⟩
      · rw [hrnew]
        dsimp only
        rw [hcost, ← heq, add_zero]
      · rw [hrnew]
        dsimp only
        exact hstp cn c0 hg
  have h3b : Inv3 bst := by
    refine ⟨wfInfo_setInfo hwf rfl, ?_, ?_, ?_⟩
    · intro n r hr
      rw [hbinfo] at hr
      show r.stamp < st.clock + 1
      by_cases hn : n = ed.node
      · subst hn
        rw [getInfo_setInfo_self] at hr
        injection hr with hr
        rw [← hr]
        show st.clock < st.clock + 1
        omega
      · rw [getInfo_setInfo_ne _ _ _ _ hn] at hr
        have := hstp n r hr
        omega
    · intro n r hr
      rw [hbinfo] at hr
      by_cases hn : n = ed.node
      · subst hn
        rw [getInfo_setInfo_self] at hr
        injection hr with hr
        refine Or.inr ⟨c0, ?_, ?_⟩
        · rw [← hr, hbinfo]
          show getInfo (setInfo st.info ed.node rnew) cn = some c0
          rw [getInfo_setInfo_ne _ _ _ _ hcnne]
          exact hg
        · rw [← hr]
          exact hlx
      · rw [getInfo_setInfo_ne _ _ _ _ hn] at hr
        rcases hlex n r hr with h1 | ⟨rp, hrp, hlx2⟩
        · exact Or.inl h1
        · have hrpne : r.parent ≠ ed.node := by
            intro he
            rw [he, hnone] at hrp
            cases hrp
          refine Or.inr ⟨rp, ?_, hlx2⟩
          rw [hbinfo, getInfo_setInfo_ne _ _ _ _ hrpne]
          exact hrp
    · rw [hbinfo, getInfo_setInfo_ne _ _ _ _ (fun he => hne he.symm)]
      exact hneg
  refine inv3_transfer ?_ ?_ h3b
  · exact addNodeInfo_cores { st with clock := st.clock + 1 } rnew
  · rw [show createState st cn ed p cost =
      addNodeInfo { st with clock := st.clock + 1 } rnew from rfl, addNodeInfo_clock]

/-- Strictly improving a record along a non-negative edge preserves the
acyclicity invariant. -/
theorem improveState_inv3 {st : AState} {cn : Node} {ed : Edge} {ni : NodeInfo}
    {cost : Rat} (h3 : Inv3 st) (hcn : (getInfo st.info cn).isSome = true)
    (hni : getInfo st.info ed.node = some ni)
    (hcost : cost = ((getInfo st.info cn).getD default).cost + ed.cost)
    (hlt : cost < ni.cost) (hw : 0 ≤ ed.cost) (hne : ed.node ≠ -1) :
    Inv3 (improveState st cn ed ni cost) := by
  obtain ⟨hwf, hstp, hlex, hneg⟩ := h3
  cases hg : getInfo st.info cn with
  | none => rw [hg] at hcn; cases hcn
  | some c0 =>
  rw [hg] at hcost
  rw [show ((some c0).getD default : NodeInfo) = c0 from rfl] at hcost
  have hcnne : cn ≠ ed.node := by
    intro he
    rw [he, hni] at hg
    injection hg with hg
    rw [hg] at hlt
    rw [hcost] at hlt
    exact absurd hlt (not_lt.mpr (le_add_of_nonneg_right hw))
  unfold improveState
  dsimp only
  set rimp : NodeInfo := { ni with parent := cn, cost := cost, stamp := st.clock }
    with hrimp
  set st1 : AState :=
    { st with info := setInfo st.info ed.node rimp, clock := st.clock + 1 } with hst1
  have hbinfo : st1.info = setInfo st.info ed.node rimp := rfl
  have hlx : lexLtP c0 rimp := by
    rcases lt_or_eq_of_le hw with hl2 | heq
    · left
      rw [hrimp]
      dsimp only
      rw [hcost]
      exact lt_add_of_pos_right _ hl2
    · right
      refine ⟨?_, ?_⟩
      · rw [hrimp]
        dsimp only
        rw [hcost, ← heq, add_zero]
      · rw [hrimp]
        dsimp only
        exact hstp cn c0 hg
  have hrcost : rimp.cost = cost := by rw [hrimp]
  have h31 : Inv3 st1 := by
    refine ⟨wfInfo_setInfo hwf (hwf ed.node ni hni), ?_, ?_, ?_⟩
    · intro n r hr
      rw [hbinfo] at hr
      show r.stamp < st.clock + 1
      by_cases hn : n = ed.node
      · subst hn
        rw [getInfo_setInfo_self] at hr
        injection hr with hr
        rw [← hr]
        show st.clock < st.clock + 1
        omega
      · rw [getInfo_setInfo_ne _ _ _ _ hn] at hr
        have := hstp n r hr
        omega
    · intro n r hr
      rw [hbinfo] at hr
      by_cases hn : n = ed.node
      · subst hn
        rw [getInfo_setInfo_self] at hr
        injection hr with hr
        refine Or.inr ⟨c0, ?_, ?_⟩
        · rw [← hr, hbinfo]
          show getInfo (setInfo st.info ed.node rimp) cn = some c0
          rw [getInfo_setInfo_ne _ _ _ _ hcnne]
          exact hg
        · rw [← hr]
          exact hlx
      · rw [getInfo_setInfo_ne _ _ _ _ hn] at hr
        rcases hlex n r hr with h1 | ⟨rp, hrp, hlx2⟩
        · exact Or.inl h1
        · by_cases hrpe : r.parent = ed.node
          · rw [hrpe, hni] at hrp
            injection hrp with hrp
            refine Or.inr ⟨rimp, ?_, ?_⟩
            · rw [hbinfo, hrpe, getInfo_setInfo_self]
            · left
              rw [hrcost]
              have hnile : ni.cost ≤ r.cost := by
                rcases hlx2 with hx | ⟨hx1, _⟩
                · rw [hrp]; exact le_of_lt hx
                · rw [hrp, hx1]
              exact lt_of_lt_of_le hlt hnile
          · refine Or.inr ⟨rp, ?_, hlx2⟩
            rw [hbinfo, getInfo_setInfo_ne _ _ _ _ hrpe]
            exact hrp
    · rw [hbinfo, getInfo_setInfo_ne _ _ _ _ (fun he => hne he.symm)]
      exact hneg
  have hnode : rimp.node = ed.node := by
    rw [hrimp]
    exact hwf ed.node ni hni
  by_cases hix : rimp.index ≥ 0
  · rw [if_pos hix]
    exact inv3_transfer (updateNodeInfo_cores st1 rimp) (updateNodeInfo_clock st1 rimp) h31
  · rw [if_neg hix]
    refine inv3_transfer ?_ (addNodeInfo_clock st1 rimp) h31
    have hc := addNodeInfo_cores st1 rimp
    rw [hnode] at hc
    rw [show st1.info = setInfo st.info ed.node rimp from rfl] at hc
    rw [setInfo_setInfo] at hc
    exact hc

theorem pathToNode_getD_some {st : AState} {m : Node} (h3 : Inv3 st)
    (hm : (getInfo st.info m).isSome = true) :
    ∃ p, pathToNode st ((getInfo st.info m).getD default) = some p := by
  obtain ⟨hwf, _, hlex, hneg⟩ := h3
  cases hg : getInfo st.info m with
  | none => rw [hg] at hm; cases hm
  | some r =>
    show ∃ p, pathToNode st r = some p
    refine pathToNode_some_of_lex hwf hlex hneg ?_
    rw [hwf m r hg]
    exact hg

theorem relaxOut_ok_helper {X : AState} (h3X : Inv3 X) :
    RelaxOut.ok X ≠ .hang ∧ (∀ st2, RelaxOut.ok X = .ok st2 → Inv3 st2) := by
  constructor
  · intro hc
    cases hc
  · intro st2 he
    injection he with he
    rw [← he]
    exact h3X

theorem relaxOut_fail_helper {e : Nat} :
    RelaxOut.fail e ≠ .hang ∧ (∀ st2, RelaxOut.fail e = .ok st2 → Inv3 st2) := by
  constructor
  · intro hc
    cases hc
  · intro st2 he
    cases he

/-- One edge relaxation from an acyclic state with a non-negative edge not
targeting −1: the walk inside `PossiblePath` notification always
terminates (no `hang`), and the invariant survives. -/
theorem relaxEdge_inv3 {cfg : Config} {cn : Node} {st : AState} {ed : Edge}
    (h3 : Inv3 st) (hcn : (getInfo st.info cn).isSome = true)
    (hw : 0 ≤ ed.cost) (hne : ed.node ≠ -1) :
    (relaxEdge cfg cn st ed).1 ≠ .hang ∧
    (∀ st2, (relaxEdge cfg cn st ed).1 = .ok st2 → Inv3 st2) := by
  unfold relaxEdge
  dsimp only
  by_cases hskip : ed.node = ((getInfo st.info cn).getD default).parent
  · rw [if_pos hskip]
    exact relaxOut_ok_helper h3
  · rw [if_neg hskip]
    cases hni : getInfo st.info ed.node with
    | none =>
      dsimp only
      cases hheur : cfg.g.heuristicCost ed.node cfg.endN with
      | error er => exact relaxOut_fail_helper
      | ok p =>
        dsimp only
        have h3c : Inv3 (createState st cn ed p
            (((getInfo st.info cn).getD default).cost + ed.cost)) :=
          createState_inv3 h3 hcn hni rfl hw hne
        unfold afterChange
        by_cases hend : ed.node = cfg.endN
        · rw [if_pos hend]
          dsimp only
          have h3m : Inv3 (maxUpd (createState st cn ed p
              (((getInfo st.info cn).getD default).cost + ed.cost))
              (((getInfo st.info cn).getD default).cost + ed.cost)) :=
            maxUpd_inv3 h3c
          cases hcp : cfg.hasPossible with
          | false =>
            rw [if_neg Bool.false_ne_true]
            exact relaxOut_ok_helper h3m
          | true =>
            rw [if_pos rfl]
            have hsome : (getInfo (maxUpd (createState st cn ed p
                (((getInfo st.info cn).getD default).cost + ed.cost))
                (((getInfo st.info cn).getD default).cost + ed.cost)).info
                ed.node).isSome = true := by
              rw [maxUpd_info]
              obtain ⟨r2, hr2, _⟩ := createState_endRec st cn ed p
                (((getInfo st.info cn).getD default).cost + ed.cost)
              rw [hr2]
              rfl
            obtain ⟨q, hq⟩ := pathToNode_getD_some h3m hsome
            rw [hq]
            exact relaxOut_ok_helper h3m
        · rw [if_neg hend]
          exact relaxOut_ok_helper h3c
    | some ni =>
      dsimp only
      by_cases himp : ((getInfo st.info cn).getD default).cost + ed.cost < ni.cost
      · rw [if_pos himp]
        have h3i : Inv3 (improveState st cn ed ni
            (((getInfo st.info cn).getD default).cost + ed.cost)) :=
          improveState_inv3 h3 hcn hni rfl himp hw hne
        unfold afterChange
        by_cases hend : ed.node = cfg.endN
        · rw [if_pos hend]
          dsimp only
          have h3m : Inv3 (maxUpd (improveState st cn ed ni
              (((getInfo st.info cn).getD default).cost + ed.cost))
              (((getInfo st.info cn).getD default).cost + ed.cost)) :=
            maxUpd_inv3 h3i
          cases hcp : cfg.hasPossible with
          | false =>
            rw [if_neg Bool.false_ne_true]
            exact relaxOut_ok_helper h3m
          | true =>
            rw [if_pos rfl]
            have hsome : (getInfo (maxUpd (improveState st cn ed ni
                (((getInfo st.info cn).getD default).cost + ed.cost))
                (((getInfo st.info cn).getD default).cost + ed.cost)).info
                ed.node).isSome = true := by
              rw [maxUpd_info]
              obtain ⟨r2, hr2, _⟩ := improveState_endRec st cn ed ni
                (((getInfo st.info cn).getD default).cost + ed.cost) h3.1 hni
              rw [hr2]
              rfl
            obtain ⟨q, hq⟩ := pathToNode_getD_some h3m hsome
            rw [hq]
            exact relaxOut_ok_helper h3m
        · rw [if_neg hend]
          exact relaxOut_ok_helper h3i
      · rw [if_neg himp]
        by_cases hend : ed.node = cfg.endN
        · rw [if_pos hend]
          have h3m : Inv3 (maxUpd st
              (((getInfo st.info cn).getD default).cost + ed.cost)) :=
            maxUpd_inv3 h3
          cases hcp : cfg.hasPossible with
          | false =>
            rw [if_neg Bool.false_ne_true]
            exact relaxOut_ok_helper h3m
          | true =>
            rw [if_pos rfl]
            have hsome : (getInfo (maxUpd st
                (((getInfo st.info cn).getD default).cost + ed.cost)).info
                cn).isSome = true := by
              rw [maxUpd_info]
              exact hcn
            obtain ⟨q, hq⟩ := pathToNode_getD_some h3m hsome
            rw [hq]
            exact relaxOut_ok_helper h3m
        · rw [if_neg hend]
          exact relaxOut_ok_helper h3

theorem relaxEdges_inv3 {cfg : Config} {cn : Node} :
    ∀ {es : List Edge} {st : AState},
    Inv3 st → (getInfo st.info cn).isSome = true →
    (∀ ed ∈ es, 0 ≤ ed.cost ∧ ed.node ≠ -1) →
    (relaxEdges cfg cn st es).1 ≠ .hang ∧
    (∀ st2, (relaxEdges cfg cn st es).1 = .ok st2 → Inv3 st2) := by
  intro es
  induction es with
  | nil =>
    intro st h3 _ _
    constructor
    · intro hc
      cases hc
    · intro st2 he
      injection he with he
      rw [← he]
      exact h3
  | cons a rest ih =>
    intro st h3 hcn hok
    have ha := @relaxEdge_inv3 cfg cn st a h3 hcn (hok a (by simp)).1 (hok a (by simp)).2
    unfold relaxEdges
    cases hra : relaxEdge cfg cn st a with
    | mk out ppcs =>
      obtain ⟨pp1, cs1⟩ := ppcs
      cases out with
      | ok st1 =>
        dsimp only
        have h31 : Inv3 st1 := ha.2 st1 (by rw [hra])
        have hcn1 : (getInfo st1.info cn).isSome = true :=
          relaxEdge_ok_isSome h3.1 hra cn hcn
        have hrest := ih h31 hcn1 (fun ed hed => hok ed (by simp [hed]))
        cases hrr : relaxEdges cfg cn st1 rest with
        | mk out2 ppcs2 =>
          obtain ⟨pp2, cs2⟩ := ppcs2
          rw [hrr] at hrest
          dsimp only at hrest
          dsimp only
          exact hrest
      | fail er =>
        dsimp only
        constructor
        · intro hc
          cases hc
        · intro st2 he
          cases he
      | hang =>
        have hh := ha.1
        rw [hra] at hh
        exact absurd rfl hh

/-- All invariants of a reachable state together. -/
def InvAll (cfg : Config) (s : Node) (st : AState) : Prop := Inv2 cfg s st ∧ Inv3 st

theorem step_cont_invAll {cfg : Config} {s : Node} {st st1 : AState} {tr : Trace}
    (h : InvAll cfg s st)
    (hnn : ∀ n es, cfg.g.neighbors n = .ok es → ∀ ed ∈ es, 0 ≤ ed.cost ∧ ed.node ≠ -1)
    (hs : step cfg st = (.cont st1, tr)) : InvAll cfg s st1 := by
  refine ⟨step_cont_inv2 h.1 hs, ?_⟩
  obtain ⟨cur, stp, hpop, hend, hcase⟩ := step_cont_cases hs
  have h3p := popBest_inv3 h.2 hpop
  obtain ⟨_, hrec, _⟩ := popBest_inv2 h.1 hpop
  rcases hcase with ⟨_, hst, _⟩ | ⟨_, es, pp, cs, hnb, hrel, _⟩
  · rw [hst]; exact h3p
  · have hres := @relaxEdges_inv3 cfg cur.node es stp h3p (by rw [hrec]; rfl)
      (fun ed hed => hnn cur.node es hnb ed hed)
    exact hres.2 st1 (by rw [hrel])

theorem step_no_hang {cfg : Config} {s : Node} {st : AState} {tr : Trace}
    (h : InvAll cfg s st)
    (hnn : ∀ n es, cfg.g.neighbors n = .ok es → ∀ ed ∈ es, 0 ≤ ed.cost ∧ ed.node ≠ -1)
    (hcontra : step cfg st = (.stop .hang, tr)) : False := by
  unfold step at hcontra
  cases hpop : popBest st with
  | none =>
    simp only [hpop] at hcontra
    injection hcontra with h1 h2
    injection h1 with h1
    cases h1
  | some pr =>
    obtain ⟨cur, stp⟩ := pr
    simp only [hpop] at hcontra
    obtain ⟨hinv2p, hrec, _⟩ := popBest_inv2 h.1 hpop
    have h3p : Inv3 stp := popBest_inv3 h.2 hpop
    by_cases hend : cur.node = cfg.endN
    · rw [if_pos hend] at hcontra
      obtain ⟨q, hq⟩ := pathToNode_some_of_lex h3p.1 h3p.2.2.1 h3p.2.2.2 hrec
      rw [hq] at hcontra
      dsimp only at hcontra
      injection hcontra with h1 h2
      injection h1 with h1
      cases h1
    · rw [if_neg hend] at hcontra
      by_cases hge : geMax cur.cost stp.maxCost
      · rw [if_pos hge] at hcontra
        injection hcontra with h1 h2
        cases h1
      · rw [if_neg hge] at hcontra
        cases hex : expand cfg cur stp with
        | mk res ppcs =>
          obtain ⟨pp, cs⟩ := ppcs
          simp only [hex] at hcontra
          injection hcontra with h1 h2
          unfold expand at hex
          cases hnb : cfg.g.neighbors cur.node with
          | error er =>
            simp only [hnb] at hex
            injection hex with he1 he2
            rw [← he1] at h1
            injection h1 with h1
            cases h1
          | ok es =>
            simp only [hnb] at hex
            have hres := @relaxEdges_inv3 cfg cur.node es stp h3p (by rw [hrec]; rfl)
              (fun ed hed => hnn cur.node es hnb ed hed)
            cases hrel : relaxEdges cfg cur.node stp es with
            | mk out2 ppcs2 =>
              obtain ⟨pp2, cs2⟩ := ppcs2
              simp only [hrel] at hex
              rw [hrel] at hres
              dsimp only at hres
              cases out2 with
              | ok st2 =>
                injection hex with he1 he2
                rw [← he1] at h1
                cases h1
              | fail er =>
                injection hex with he1 he2
                rw [← he1] at h1
                injection h1 with h1
                cases h1
              | hang =>
                exact hres.1 rfl

theorem loop_no_hang {cfg : Config} {s : Node}
    (hnn : ∀ n es, cfg.g.neighbors n = .ok es → ∀ ed ∈ es, 0 ≤ ed.cost ∧ ed.node ≠ -1) :
    ∀ {fuel : Nat} {st : AState} {tr : Trace}, InvAll cfg s st →
      loop cfg fuel st ≠ (.hang, tr) := by
  intro fuel
  induction fuel with
  | zero =>
    intro st tr _ h
    unfold loop at h
    injection h with h1 h2
    cases h1
  | succ k ih =>
    intro st tr hinv h
    unfold loop at h
    cases hs : step cfg st with
    | mk res tr1 =>
      simp only [hs] at h
      cases res with
      | cont st1 =>
        cases hl : loop cfg k st1 with
        | mk r2 tr2 =>
          simp only [hl] at h
          injection h with h1 h2
          subst h1
          exact ih (step_cont_invAll hinv hnn hs) hl
      | stop r =>
        injection h with h1 h2
        subst h1
        exact step_no_hang hinv hnn hs

theorem inv3_initState (p : Rat) (s : Node) (hs : s ≠ -1) : Inv3 (initState p s) := by
  refine ⟨wfInfo_initState p s, ?_, ?_, ?_⟩
  · intro n r h
    rw [initState_eq] at h ⊢
    unfold getInfo at h
    by_cases hsn : s = n
    · rw [if_pos hsn] at h
      injection h with h
      rw [← h]
      exact Nat.zero_lt_one
    · rw [if_neg hsn] at h
      exact absurd h (by simp [getInfo])
  · intro n r h
    rw [initState_eq] at h
    unfold getInfo at h
    by_cases hsn : s = n
    · rw [if_pos hsn] at h
      injection h with h
      left
      rw [← h]
    · rw [if_neg hsn] at h
      exact absurd h (by simp [getInfo])
  · rw [initState_eq]
    show getInfo [(s, ⟨s, -1, 0, 0, p, 0⟩)] (-1 : Node) = none
    simp [getInfo, hs]

theorem invAll_initState (g : Graph) (e : Node) (hd hp : Bool) (p : Rat) (s : Node)
    (hs : s ≠ -1) : InvAll ⟨g, e, hd, hp⟩ s (initState p s) :=
  ⟨inv2_initState g e hd hp p s, inv3_initState p s hs⟩

/-! ### Claim C10: the −1 parent sentinel and acyclicity -/

/-- A graph with a negative-cost cycle 1 → 2 → 3 → 1 (no node is −1). -/
def gC10neg : Graph :=
  ⟨fun n => if n = 0 then .ok [⟨1, 0⟩] else if n = 1 then .ok [⟨2, -5⟩]
    else if n = 2 then .ok [⟨3, -5⟩] else if n = 3 then .ok [⟨1, -5⟩]
    else .ok [], fun _ _ => .ok 0⟩

/-- A graph that discovers the node −1 on the way from 0 to 3. -/
def gC10hang : Graph :=
  ⟨fun n => if n = 0 then .ok [⟨1, 1⟩] else if n = 1 then .ok [⟨-1, 1⟩]
    else if n = -1 then .ok [⟨3, 1⟩] else .ok [], fun _ _ => .ok 0⟩

/-- Claim C10 counterexample: as stated (without a non-negativity
precondition) the acyclicity claim fails even though no discovered node has
identity −1: after four loop iterations on `gC10neg`, node 1's record sits
on the parent cycle 1 → 3 → 2 → 1 and the Go `pathToNode` walk from it
never terminates (the model detects the divergence and returns `none`). -/
theorem claim_C10_counterexample :
    ∃ st, stepN ⟨gC10neg, 9, false, false⟩ 4 (initState 0 0) = some st ∧
      getInfo st.info (-1 : Node) = none ∧ (getInfo st.info 1).isSome = true ∧
      pathToNode st ((getInfo st.info 1).getD default) = none := by
  refine ⟨_, rfl, by decide, by decide, by decide⟩

/-- Claim C10 (amended): with non-negative edge costs, a start node other
than −1 and no edge targeting −1, parent chains are acyclic: the search can
never return the `hang` outcome (the Go `pathToNode` always terminates) and
every returned path begins with the start node.  The −1 exclusion is
necessary: on `gC10hang`, whose node −1 collides with the sentinel, the
search diverges inside `pathToNode`. -/
theorem claim_C10 (g : Graph) (hd hp : Bool) (s e : Node) (hs : s ≠ -1)
    (hcond : ∀ n es, g.neighbors n = .ok es → ∀ ed ∈ es, 0 ≤ ed.cost ∧ ed.node ≠ -1) :
    (∀ fuel, FindPath g hd hp fuel s e ≠ .hang) ∧
    (∀ fuel p, FindPath g hd hp fuel s e = .found p → p.head? = some s) ∧
    FindPath gC10hang false false 5 0 3 = .hang := by
  refine ⟨?_, ?_, by decide⟩
  · intro fuel hcontra
    unfold FindPath findPathT at hcontra
    cases hq : g.heuristicCost s e with
    | error er =>
      rw [hq] at hcontra
      dsimp only at hcontra
      cases hcontra
    | ok q =>
      rw [hq] at hcontra
      dsimp only at hcontra
      cases hl : loop ⟨g, e, hd, hp⟩ fuel (initState q s) with
      | mk r tr =>
        rw [hl] at hcontra
        dsimp only at hcontra
        subst hcontra
        exact loop_no_hang hcond (invAll_initState g e hd hp q s hs) hl
  · intro fuel p hfound
    unfold FindPath findPathT at hfound
    cases hq : g.heuristicCost s e with
    | error er =>
      rw [hq] at hfound
      dsimp only at hfound
      cases hfound
    | ok q =>
      rw [hq] at hfound
      dsimp only at hfound
      cases hl : loop ⟨g, e, hd, hp⟩ fuel (initState q s) with
      | mk r tr =>
        rw [hl] at hfound
        dsimp only at hfound
        subst hfound
        exact (loop_found (inv2_initState g e hd hp q s) hl).1

/-- Witness for `claim_C10` on the two-node graph `gC2`. -/
theorem claim_C10_witness :
    (∀ fuel, FindPath gC2 false false fuel 0 1 ≠ .hang) ∧
    (∀ fuel p, FindPath gC2 false false fuel 0 1 = .found p → p.head? = some 0) ∧
    FindPath gC10hang false false 5 0 3 = .hang := by
  refine claim_C10 gC2 false false 0 1 (by decide) ?_
  intro n es h ed hed
  unfold gC2 at h
  dsimp only at h
  by_cases hn : n = 0
  · rw [if_pos hn] at h
    injection h with h
    rw [← h] at hed
    rcases List.mem_singleton.mp hed with he
    rw [he]
    exact ⟨by decide, by decide⟩
  · rw [if_neg hn] at h
    injection h with h
    rw [← h] at hed
    cases hed

/-! ### The binary-heap order invariant (claim C1)

Keys are `cost + predictedCost` (astar.go line 51); `up` and `down`
restore the order after a push, a pop or a decreased key. -/

/-- The key stored at heap slot `k`. -/
def keyAt (st : AState) (k : Nat) : Rat := heapKey st (heapAt st k)

theorem heapKey_congr {st st' : AState} (h : SameCores st.info st'.info) (n : Node) :
    heapKey st n = heapKey st' n := by
  unfold heapKey
  have hn := h n
  cases ha : getInfo st.info n with
  | none =>
    cases hb : getInfo st'.info n with
    | none => rfl
    | some r => rw [ha, hb] at hn; simp at hn
  | some r =>
    cases hb : getInfo st'.info n with
    | none => rw [ha, hb] at hn; simp at hn
    | some r2 =>
      rw [ha, hb] at hn
      injection hn with hn
      have h1 : r.cost = r2.cost := congrArg (fun c => c.2.2.1) hn
      have h2 : r.predictedCost = r2.predictedCost := congrArg (fun c => c.2.2.2.1) hn
      dsimp only
      rw [h1, h2]

theorem heapSwap_heap_eq (st : AState) (i j : Nat) :
    (heapSwap st i j).heap = (st.heap.set i (st.heap.getD j 0)).set j (st.heap.getD i 0) := by
  unfold heapSwap heapAt
  dsimp only
  rw [setIndex_heap, setIndex_heap]

theorem keyAt_heapSwap_other {st : AState} {i j : Nat} (hi : i < st.heap.length)
    (hj : j < st.heap.length) (k : Nat) (hki : k ≠ i) (hkj : k ≠ j) :
    keyAt (heapSwap st i j) k = keyAt st k := by
  unfold keyAt heapAt
  rw [← heapKey_congr (heapSwap_cores st i j), heapSwap_heap_eq,
    getD_set_ne _ j k (fun hh => hkj hh.symm), getD_set_ne _ i k (fun hh => hki hh.symm)]

theorem keyAt_heapSwap_i {st : AState} {i j : Nat} (hi : i < st.heap.length)
    (hj : j < st.heap.length) (hij : i ≠ j) :
    keyAt (heapSwap st i j) i = keyAt st j := by
  unfold keyAt heapAt
  rw [← heapKey_congr (heapSwap_cores st i j), heapSwap_heap_eq,
    getD_set_ne _ j i (fun hh => hij hh.symm), getD_set_self _ i hi]

theorem keyAt_heapSwap_j {st : AState} {i j : Nat} (hi : i < st.heap.length)
    (hj : j < st.heap.length) :
    keyAt (heapSwap st i j) j = keyAt st i := by
  unfold keyAt heapAt
  rw [← heapKey_congr (heapSwap_cores st i j), heapSwap_heap_eq,
    getD_set_self _ j (by simpa using hj)]

/-- Heap order on the first `n` slots. -/
def HeapOrdN (st : AState) (n : Nat) : Prop :=
  ∀ k, 0 < k → k < n → keyAt st ((k - 1) / 2) ≤ keyAt st k

/-- The binary-heap order invariant (every child's key at least its
parent's). -/
def HeapOrd (st : AState) : Prop := HeapOrdN st st.heap.length

/-- Precondition of `up j`: order holds everywhere except possibly on the
link from `j`'s parent to `j`, and `j`'s parent is already at most `j`'s
children. -/
def UpPre (st : AState) (j : Nat) : Prop :=
  (∀ k, 0 < k → k < st.heap.length → k ≠ j → keyAt st ((k - 1) / 2) ≤ keyAt st k) ∧
  (0 < j → ∀ c, c < st.heap.length → 0 < c → (c - 1) / 2 = j →
    keyAt st ((j - 1) / 2) ≤ keyAt st c)

/-- Precondition of `down i n`: order holds within the first `n` slots
except possibly on the links from `i` to its children, and `i`'s parent is
already at most `i`'s children. -/
def DownPre (st : AState) (i n : Nat) : Prop :=
  (∀ k, 0 < k → k < n → (k - 1) / 2 ≠ i → keyAt st ((k - 1) / 2) ≤ keyAt st k) ∧
  (0 < i → ∀ c, c < n → 0 < c → (c - 1) / 2 = i → keyAt st ((i - 1) / 2) ≤ keyAt st c)

theorem upFuel_heapOrd : ∀ (fuel : Nat) (st : AState) (j : Nat), j < fuel →
    j < st.heap.length → UpPre st j → HeapOrd (upFuel fuel st j) := by
  intro fuel
  induction fuel with
  | zero => intro st j hj; omega
  | succ f ih =>
    intro st j hjf hjl hpre
    unfold upFuel
    dsimp only
    by_cases hij : (j - 1) / 2 = j
    · rw [if_pos hij]
      have hj0 : j = 0 := by omega
      intro k hk0 hkl
      exact hpre.1 k hk0 hkl (by omega)
    · rw [if_neg hij]
      have hij2 : (j - 1) / 2 < j := by omega
      have hj0 : 0 < j := by omega
      have hil : (j - 1) / 2 < st.heap.length := by omega
      by_cases hl : lessAt st j ((j - 1) / 2)
      · rw [if_pos hl]
        have hlkey : keyAt st j < keyAt st ((j - 1) / 2) := hl
        refine ih (heapSwap st ((j - 1) / 2) j) ((j - 1) / 2) (by omega)
          (by rw [heapSwap_heap_length]; omega) ⟨?_, ?_⟩
        · intro k hk0 hkl hki
          rw [heapSwap_heap_length] at hkl
          have hikey := keyAt_heapSwap_i hil hjl (by omega)
          have hjkey := keyAt_heapSwap_j hil hjl
          by_cases hkj : k = j
          · subst hkj
            rw [hikey, hjkey]
            exact le_of_lt hlkey
          · have hkey := keyAt_heapSwap_other hil hjl k hki hkj
            rw [hkey]
            by_cases hpk : (k - 1) / 2 = j
            · rw [hpk, hjkey]
              exact hpre.2 hj0 k hkl hk0 hpk
            · by_cases hpk2 : (k - 1) / 2 = (j - 1) / 2
              · rw [hpk2, hikey]
                have h1 := hpre.1 k hk0 hkl hkj
                rw [hpk2] at h1
                exact le_trans (le_of_lt hlkey) h1
              · rw [keyAt_heapSwap_other hil hjl _ hpk2 hpk]
                exact hpre.1 k hk0 hkl hkj
        · intro hi0 c hcl hc0 hpc
          rw [heapSwap_heap_length] at hcl
          have hikey := keyAt_heapSwap_i hil hjl (by omega)
          have hjkey := keyAt_heapSwap_j hil hjl
          have hgp : ((j - 1) / 2 - 1) / 2 ≠ (j - 1) / 2 := by omega
          have hgpj : ((j - 1) / 2 - 1) / 2 ≠ j := by omega
          rw [keyAt_heapSwap_other hil hjl (((j - 1) / 2 - 1) / 2) hgp hgpj]
          by_cases hcj : c = j
          · rw [hcj, hjkey]
            exact hpre.1 ((j - 1) / 2) hi0 hil (by omega)
          · have hci : c ≠ (j - 1) / 2 := by omega
            rw [keyAt_heapSwap_other hil hjl c hci hcj]
            have h1 := hpre.1 ((j - 1) / 2) hi0 hil (by omega)
            have h2 := hpre.1 c hc0 hcl hcj
            rw [hpc] at h2
            exact le_trans h1 h2
      · rw [if_neg hl]
        intro k hk0 hkl
        by_cases hkj : k = j
        · subst hkj
          exact not_lt.mp hl
        · exact hpre.1 k hk0 hkl hkj

theorem downFuel_heapOrdN : ∀ (fuel : Nat) (st : AState) (i n : Nat),
    n ≤ st.heap.length → n - i ≤ fuel → DownPre st i n →
    HeapOrdN (downFuel fuel st i n) n := by
  intro fuel
  induction fuel with
  | zero =>
    intro st i n hn hfu hpre k hk0 hkn
    have hik : (k - 1) / 2 ≠ i := by omega
    exact hpre.1 k hk0 hkn hik
  | succ f ih =>
    intro st i n hn hfu hpre
    unfold downFuel
    dsimp only
    by_cases hstop : n ≤ 2 * i + 1
    · rw [if_pos hstop]
      intro k hk0 hkn
      have hik : (k - 1) / 2 ≠ i := by omega
      exact hpre.1 k hk0 hkn hik
    · rw [if_neg hstop]
      by_cases hc : 2 * i + 2 < n ∧ ¬ lessAt st (2 * i + 1) (2 * i + 2)
      · rw [if_pos hc]
        have hkey12 : keyAt st (2 * i + 2) ≤ keyAt st (2 * i + 1) := not_lt.mp hc.2
        by_cases hl : lessAt st (2 * i + 2) i
        · rw [if_pos hl]
          have hlkey : keyAt st (2 * i + 2) < keyAt st i := hl
          have hi : i < st.heap.length := by omega
          have hj : 2 * i + 2 < st.heap.length := by omega
          have hikey := keyAt_heapSwap_i hi hj (by omega)
          have hjkey := keyAt_heapSwap_j hi hj
          refine ih (heapSwap st i (2 * i + 2)) (2 * i + 2) n
            (by rw [heapSwap_heap_length]; exact hn) (by omega) ⟨?_, ?_⟩
          · intro k hk0 hkn hpk
            by_cases hkj : k = 2 * i + 2
            · rw [hkj]
              have : (k - 1) / 2 = i := by omega
              rw [hkj] at this
              rw [this, hikey, hjkey]
              exact le_of_lt hlkey
            · by_cases hki : k = i
              · rw [hki, hikey]
                have hpi : (i - 1) / 2 ≠ i := by omega
                have hpj : (i - 1) / 2 ≠ 2 * i + 2 := by omega
                rw [keyAt_heapSwap_other hi hj ((i - 1) / 2) hpi hpj]
                rcases Nat.eq_zero_or_pos i with hi0 | hi0
                · rw [hki] at hk0
                  omega
                · exact hpre.2 hi0 (2 * i + 2) (by omega) (by omega) (by omega)
              · have hkk := keyAt_heapSwap_other hi hj k hki hkj
                rw [hkk]
                by_cases hpki : (k - 1) / 2 = i
                · rw [hpki, hikey]
                  have hk1 : k = 2 * i + 1 := by omega
                  rw [hk1]
                  exact hkey12
                · have hpkj2 : (k - 1) / 2 ≠ 2 * i + 2 := hpk
                  rw [keyAt_heapSwap_other hi hj ((k - 1) / 2) hpki hpkj2]
                  exact hpre.1 k hk0 hkn hpki
          · intro hj0 c hcn hc0 hpc
            have hcj : c ≠ 2 * i + 2 := by omega
            have hci : c ≠ i := by omega
            rw [keyAt_heapSwap_other hi hj c hci hcj]
            have hpar : (2 * i + 2 - 1) / 2 = i := by omega
            rw [hpar, hikey]
            have := hpre.1 c hc0 hcn (by omega)
            rw [hpc] at this
            exact this
        · rw [if_neg hl]
          intro k hk0 hkn
          by_cases hpk : (k - 1) / 2 = i
          · have hk12 : k = 2 * i + 1 ∨ k = 2 * i + 2 := by omega
            have hkey2i : keyAt st i ≤ keyAt st (2 * i + 2) := not_lt.mp hl
            rcases hk12 with hk1 | hk2
            · rw [hpk, hk1]
              exact le_trans hkey2i hkey12
            · rw [hpk, hk2]
              exact hkey2i
          · exact hpre.1 k hk0 hkn hpk
      · rw [if_neg hc]
        have hkey21 : 2 * i + 2 < n → keyAt st (2 * i + 1) < keyAt st (2 * i + 2) := by
          intro h2
          by_contra hno
          exact hc ⟨h2, fun hless => absurd (not_lt.mp hno) (not_le.mpr hless)⟩
        by_cases hl : lessAt st (2 * i + 1) i
        · rw [if_pos hl]
          have hlkey : keyAt st (2 * i + 1) < keyAt st i := hl
          have hi : i < st.heap.length := by omega
          have hj : 2 * i + 1 < st.heap.length := by omega
          have hikey := keyAt_heapSwap_i hi hj (by omega)
          have hjkey := keyAt_heapSwap_j hi hj
          refine ih (heapSwap st i (2 * i + 1)) (2 * i + 1) n
            (by rw [heapSwap_heap_length]; exact hn) (by omega) ⟨?_, ?_⟩
          · intro k hk0 hkn hpk
            by_cases hkj : k = 2 * i + 1
            · rw [hkj]
              have : (2 * i + 1 - 1) / 2 = i := by omega
              rw [this, hikey, hjkey]
              exact le_of_lt hlkey
            · by_cases hki : k = i
              · rw [hki, hikey]
                have hpi : (i - 1) / 2 ≠ i := by omega
                have hpj : (i - 1) / 2 ≠ 2 * i + 1 := by omega
                rw [keyAt_heapSwap_other hi hj ((i - 1) / 2) hpi hpj]
                rcases Nat.eq_zero_or_pos i with hi0 | hi0
                · rw [hki] at hk0
                  omega
                · exact hpre.2 hi0 (2 * i + 1) (by omega) (by omega) (by omega)
              · have hkk := keyAt_heapSwap_other hi hj k hki hkj
                rw [hkk]
                by_cases hpki : (k - 1) / 2 = i
                · rw [hpki, hikey]
                  have hk2 : k = 2 * i + 2 := by omega
                  rw [hk2]
                  exact le_of_lt (hkey21 (by omega))
                · have hpkj2 : (k - 1) / 2 ≠ 2 * i + 1 := hpk
                  rw [keyAt_heapSwap_other hi hj ((k - 1) / 2) hpki hpkj2]
                  exact hpre.1 k hk0 hkn hpki
          · intro hj0 c hcn hc0 hpc
            have hcj : c ≠ 2 * i + 1 := by omega
            have hci : c ≠ i := by omega
            rw [keyAt_heapSwap_other hi hj c hci hcj]
            have hpar : (2 * i + 1 - 1) / 2 = i := by omega
            rw [hpar, hikey]
            have := hpre.1 c hc0 hcn (by omega)
            rw [hpc] at this
            exact this
        · rw [if_neg hl]
          intro k hk0 hkn
          by_cases hpk : (k - 1) / 2 = i
          · have hk12 : k = 2 * i + 1 ∨ k = 2 * i + 2 := by omega
            have hkeyi1 : keyAt st i ≤ keyAt st (2 * i + 1) := not_lt.mp hl
            rcases hk12 with hk1 | hk2
            · rw [hpk, hk1]
              exact hkeyi1
            · rw [hpk, hk2]
              exact le_trans hkeyi1 (le_of_lt (hkey21 (by omega)))
          · exact hpre.1 k hk0 hkn hpk

/-- `down` does nothing when the children of `i` already dominate it. -/
theorem downFuel_noop : ∀ (fuel : Nat) (st : AState) (i n : Nat),
    (2 * i + 1 < n → keyAt st i ≤ keyAt st (2 * i + 1)) →
    (2 * i + 2 < n → keyAt st i ≤ keyAt st (2 * i + 2)) →
    downFuel fuel st i n = st := by
  intro fuel st i n h1 h2
  cases fuel with
  | zero => rfl
  | succ f =>
    unfold downFuel
    dsimp only
    by_cases hstop : n ≤ 2 * i + 1
    · rw [if_pos hstop]
    · rw [if_neg hstop]
      by_cases hc : 2 * i + 2 < n ∧ ¬ lessAt st (2 * i + 1) (2 * i + 2)
      · rw [if_pos hc]
        have hnl : ¬ lessAt st (2 * i + 2) i := not_lt.mpr (h2 hc.1)
        rw [if_neg hnl]
      · rw [if_neg hc]
        have hnl : ¬ lessAt st (2 * i + 1) i := not_lt.mpr (h1 (by omega))
        rw [if_neg hnl]

/-! ### Heap membership under the sift operations -/

theorem mem_iff_slot {l : List Node} {x : Node} :
    x ∈ l ↔ ∃ k, k < l.length ∧ l.getD k 0 = x := by
  constructor
  · intro h
    obtain ⟨k, hk, he⟩ := List.mem_iff_getElem.mp h
    exact ⟨k, hk, by rw [List.getD_eq_getElem?_getD, List.getElem?_eq_getElem hk]; exact he⟩
  · intro ⟨k, hk, he⟩
    rw [← he, List.getD_eq_getElem?_getD, List.getElem?_eq_getElem hk]
    exact List.getElem_mem hk

theorem heapSwap_memEq {st : AState} {i j : Nat} (hi : i < st.heap.length)
    (hj : j < st.heap.length) (x : Node) :
    (x ∈ (heapSwap st i j).heap ↔ x ∈ st.heap) := by
  have hlen : (heapSwap st i j).heap.length = st.heap.length := heapSwap_heap_length st i j
  have hgj : (heapSwap st i j).heap.getD j 0 = st.heap.getD i 0 := by
    rw [heapSwap_heap_eq]
    exact getD_set_self _ j (by simpa using hj) _ _
  have hgi : i ≠ j → (heapSwap st i j).heap.getD i 0 = st.heap.getD j 0 := by
    intro hij
    rw [heapSwap_heap_eq, getD_set_ne _ j i (fun hh => hij hh.symm), getD_set_self _ i hi]
  have hgk : ∀ k, k ≠ i → k ≠ j → (heapSwap st i j).heap.getD k 0 = st.heap.getD k 0 := by
    intro k hki hkj
    rw [heapSwap_heap_eq, getD_set_ne _ j k (fun hh => hkj hh.symm),
      getD_set_ne _ i k (fun hh => hki hh.symm)]
  constructor
  · intro h
    obtain ⟨k, hk, he⟩ := mem_iff_slot.mp h
    rw [hlen] at hk
    by_cases hkj : k = j
    · subst hkj
      rw [hgj] at he
      exact mem_iff_slot.mpr ⟨i, hi, he⟩
    · by_cases hki : k = i
      · subst hki
        by_cases hij : k = j
        · exact absurd hij hkj
        · rw [hgi hij] at he
          exact mem_iff_slot.mpr ⟨j, hj, he⟩
      · rw [hgk k hki hkj] at he
        exact mem_iff_slot.mpr ⟨k, hk, he⟩
  · intro h
    obtain ⟨k, hk, he⟩ := mem_iff_slot.mp h
    by_cases hki : k = i
    · subst hki
      exact mem_iff_slot.mpr ⟨j, by rw [hlen]; exact hj, by rw [hgj]; exact he⟩
    · by_cases hkj : k = j
      · subst hkj
        exact mem_iff_slot.mpr ⟨i, by rw [hlen]; exact hi, by rw [hgi (fun hh => hki hh.symm)]; exact he⟩
      · exact mem_iff_slot.mpr ⟨k, by rw [hlen]; exact hk, by rw [hgk k hki hkj]; exact he⟩

theorem upFuel_memEq : ∀ (fuel : Nat) (st : AState) (j : Nat), j < st.heap.length →
    ∀ x, (x ∈ (upFuel fuel st j).heap ↔ x ∈ st.heap) := by
  intro fuel
  induction fuel with
  | zero => intro st j _ x; exact Iff.rfl
  | succ f ih =>
    intro st j hj x
    unfold upFuel
    dsimp only
    by_cases hij : (j - 1) / 2 = j
    · rw [if_pos hij]
    · rw [if_neg hij]
      by_cases hl : lessAt st j ((j - 1) / 2)
      · rw [if_pos hl]
        have hi : (j - 1) / 2 < st.heap.length := by omega
        exact Iff.trans
          (ih (heapSwap st ((j - 1) / 2) j) ((j - 1) / 2)
            (by rw [heapSwap_heap_length]; omega) x)
          (heapSwap_memEq hi hj x)
      · rw [if_neg hl]

theorem downFuel_memEq : ∀ (fuel : Nat) (st : AState) (i n : Nat), n ≤ st.heap.length →
    ∀ x, (x ∈ (downFuel fuel st i n).heap ↔ x ∈ st.heap) := by
  intro fuel
  induction fuel with
  | zero => intro st i n _ x; exact Iff.rfl
  | succ f ih =>
    intro st i n hn x
    unfold downFuel
    dsimp only
    by_cases hstop : n ≤ 2 * i + 1
    · rw [if_pos hstop]
    · rw [if_neg hstop]
      by_cases hc : 2 * i + 2 < n ∧ ¬ lessAt st (2 * i + 1) (2 * i + 2)
      · rw [if_pos hc]
        by_cases hl : lessAt st (2 * i + 2) i
        · rw [if_pos hl]
          have hi : i < st.heap.length := by omega
          have hj : 2 * i + 2 < st.heap.length := by omega
          exact Iff.trans
            (ih (heapSwap st i (2 * i + 2)) (2 * i + 2) n
              (by rw [heapSwap_heap_length]; exact hn) x)
            (heapSwap_memEq hi hj x)
        · rw [if_neg hl]
      · rw [if_neg hc]
        by_cases hl : lessAt st (2 * i + 1) i
        · rw [if_pos hl]
          have hi : i < st.heap.length := by omega
          have hj : 2 * i + 1 < st.heap.length := by omega
          exact Iff.trans
            (ih (heapSwap st i (2 * i + 1)) (2 * i + 1) n
              (by rw [heapSwap_heap_length]; exact hn) x)
            (heapSwap_memEq hi hj x)
        · rw [if_neg hl]

theorem up_memEq (st : AState) (j : Nat) (hj : j < st.heap.length) (x : Node) :
    x ∈ (up st j).heap ↔ x ∈ st.heap :=
  upFuel_memEq _ _ _ hj x

theorem down_memEq (st : AState) (i n : Nat) (hn : n ≤ st.heap.length) (x : Node) :
    x ∈ (down st i n).heap ↔ x ∈ st.heap :=
  downFuel_memEq _ _ _ _ hn x

theorem addNodeInfo_memEq (st : AState) (r : NodeInfo) (x : Node) :
    x ∈ (addNodeInfo st r).heap ↔ (x ∈ st.heap ∨ x = r.node) := by
  unfold addNodeInfo
  dsimp only
  rw [up_memEq _ _ (by rw [setIndex_heap]; simp)]
  rw [setIndex_heap]
  dsimp only
  rw [List.mem_append, List.mem_singleton]

theorem updateNodeInfo_memEq (st : AState) (r : NodeInfo)
    (hk : r.index.toNat < st.heap.length) (x : Node) :
    x ∈ (updateNodeInfo st r).heap ↔ x ∈ st.heap := by
  unfold updateNodeInfo
  dsimp only
  rw [up_memEq _ _ (by rw [down_heap_length]; exact hk)]
  exact down_memEq _ _ _ (le_refl _) x

theorem SameCores.symm {a b : List (Node × NodeInfo)} (h : SameCores a b) :
    SameCores b a := fun n => (h n).symm

theorem keyAt_congr {st st' : AState} (hc : SameCores st'.info st.info)
    (hh : st'.heap = st.heap) (k : Nat) : keyAt st' k = keyAt st k := by
  unfold keyAt heapAt
  rw [hh, heapKey_congr hc]

theorem up_heapOrd {st : AState} {j : Nat} (hj : j < st.heap.length)
    (hpre : UpPre st j) : HeapOrd (up st j) :=
  upFuel_heapOrd (j + 1) st j (by omega) hj hpre

theorem downFuel_getD_ge : ∀ (fuel : Nat) (st : AState) (i n k : Nat), n ≤ k →
    (downFuel fuel st i n).heap.getD k 0 = st.heap.getD k 0 := by
  intro fuel
  induction fuel with
  | zero => intro st i n k _; rfl
  | succ f ih =>
    intro st i n k hk
    unfold downFuel
    dsimp only
    by_cases hstop : n ≤ 2 * i + 1
    · rw [if_pos hstop]
    · rw [if_neg hstop]
      have hswap : ∀ j, j < n → (heapSwap st i j).heap.getD k 0 = st.heap.getD k 0 := by
        intro j hj
        rw [heapSwap_heap_eq, getD_set_ne _ j k (by omega), getD_set_ne _ i k (by omega)]
      by_cases hc : 2 * i + 2 < n ∧ ¬ lessAt st (2 * i + 1) (2 * i + 2)
      · rw [if_pos hc]
        by_cases hl : lessAt st (2 * i + 2) i
        · rw [if_pos hl, ih, hswap _ (by omega)]
          exact hk
        · rw [if_neg hl]
      · rw [if_neg hc]
        by_cases hl : lessAt st (2 * i + 1) i
        · rw [if_pos hl, ih, hswap _ (by omega)]
          exact hk
        · rw [if_neg hl]

theorem heapOrd_root_min {st : AState} (h : HeapOrd st) :
    ∀ k, k < st.heap.length → keyAt st 0 ≤ keyAt st k := by
  intro k
  induction k using Nat.strong_induction_on with
  | _ k ih =>
    intro hk
    rcases Nat.eq_zero_or_pos k with h0 | h0
    · subst h0
      exact le_refl _
    · exact le_trans (ih ((k - 1) / 2) (by omega) (by omega)) (h k h0 hk)

/-- Pushing a node that is not currently open preserves the heap order. -/
theorem addNodeInfo_heapOrd {st : AState} {r : NodeInfo} (hw : WfIdx st)
    (hnew : ∀ r0, getInfo st.info r.node = some r0 → r0.index < 0)
    (hord : HeapOrd st) : HeapOrd (addNodeInfo st r) := by
  unfold addNodeInfo
  dsimp only
  set st1 : AState :=
    { st with info := setInfo st.info r.node r, heap := st.heap ++ [r.node] } with hst1
  have hnotin : ∀ k, k < st.heap.length → st.heap.getD k 0 ≠ r.node := by
    intro k hk heq
    obtain ⟨r0, hr0, hix0⟩ := hw.1 k hk
    rw [heq] at hr0
    have := hnew r0 hr0
    rw [hix0, Int.ofNat_eq_natCast] at this
    omega
  have hlen1 : st1.heap.length = st.heap.length + 1 := by rw [hst1]; simp
  have hkey1 : ∀ k, k < st.heap.length → keyAt st1 k = keyAt st k := by
    intro k hk
    unfold keyAt heapAt
    rw [hst1]
    dsimp only
    rw [getD_append_lt _ _ _ hk]
    unfold heapKey
    rw [getInfo_setInfo_ne _ _ _ _ (hnotin k hk)]
  have hheap2 : (setIndex st1 r.node (Int.ofNat (st1.heap.length - 1))).heap = st1.heap :=
    setIndex_heap _ _ _
  have hkey2 : ∀ k, keyAt (setIndex st1 r.node (Int.ofNat (st1.heap.length - 1))) k =
      keyAt st1 k :=
    keyAt_congr (SameCores.symm (setIndex_cores st1 _ _)) hheap2
  refine up_heapOrd ?_ ⟨?_, ?_⟩
  · rw [hheap2]
    rw [hlen1]
    omega
  · intro k hk0 hkl hkne
    rw [hheap2, hlen1] at hkl
    rw [hlen1] at hkne
    have hk : k < st.heap.length := by omega
    have hpk : (k - 1) / 2 < st.heap.length := by omega
    rw [hkey2, hkey2, hkey1 k hk, hkey1 ((k - 1) / 2) hpk]
    exact hord k hk0 hk
  · intro hj0 c hcl hc0 hpc
    rw [hheap2, hlen1] at hcl
    rw [hlen1] at hpc
    exact absurd hpc (by omega)

/-- `popBest` hands out a minimal-key record and leaves an ordered heap not
containing the extracted node. -/
theorem popBest_ord {st : AState} {cur : NodeInfo} {st1 : AState}
    (hwf : WfInfo st.info) (hw : WfIdx st) (hord : HeapOrd st)
    (h : popBest st = some (cur, st1)) :
    HeapOrd st1 ∧ (∀ m ∈ st.heap, cur.cost + cur.predictedCost ≤ heapKey st m) ∧
      cur.node ∉ st1.heap := by
  obtain ⟨h0, hst1, hcur⟩ := popBest_eq_some h
  set n := st.heap.length - 1 with hn
  set stw := heapSwap st 0 n with hstw
  set st2 := down stw 0 n with hst2
  have hn1 : n < st.heap.length := by omega
  have h01 : 0 < st.heap.length := by omega
  have hlenw : stw.heap.length = st.heap.length := heapSwap_heap_length st 0 n
  have hlen2 : st2.heap.length = st.heap.length := by
    rw [hst2, down_heap_length, hlenw]
  have hww : WfIdx stw := heapSwap_wfIdx h01 hn1 hw
  have hw2 : WfIdx st2 := down_wfIdx _ _ _ (by omega) hww
  have hwf2 : WfInfo st2.info :=
    SameCores.wfInfo (sameCores_trans (heapSwap_cores st 0 n) (down_cores _ 0 n)) hwf
  have hkeyw : ∀ m, heapKey stw m = heapKey st m :=
    fun m => (heapKey_congr (heapSwap_cores st 0 n) m).symm
  have hkey2m : ∀ m, heapKey st2 m = heapKey st m := by
    intro m
    rw [hst2]
    unfold down
    rw [← heapKey_congr (downFuel_cores n stw 0 n) m, hkeyw]
  have hdw : DownPre stw 0 n := by
    constructor
    · intro k hk0 hkn hpk
      have hkey1 : keyAt stw k = keyAt st k :=
        keyAt_heapSwap_other h01 hn1 k (by omega) (by omega)
      have hkey2 : keyAt stw ((k - 1) / 2) = keyAt st ((k - 1) / 2) :=
        keyAt_heapSwap_other h01 hn1 ((k - 1) / 2) hpk (by omega)
      rw [hkey1, hkey2]
      exact hord k hk0 (by omega)
    · intro hcontra
      omega
  have hordN : HeapOrdN st2 n := by
    have := downFuel_heapOrdN n stw 0 n (by omega) (by omega) hdw
    rw [hst2]
    unfold down
    exact this
  set v := heapAt st2 n with hv
  obtain ⟨rv, hrv, hixv⟩ := hw2.1 n (by omega)
  have hrv2 : getInfo st2.info v = some rv := hrv
  set st3 : AState := { st2 with heap := st2.heap.take n } with hst3
  have hlen3 : st3.heap.length = n := by
    rw [hst3]
    simp only [List.length_take]
    omega
  have hrv3 : getInfo st3.info v = some rv := hrv
  have hv1 : getInfo st1.info v = some { rv with index := -1 } := by
    rw [hst1]
    exact getInfo_setIndex_self hrv3 (-1)
  have hcur2 : cur = { rv with index := -1 } := by
    rw [hcur, hv1]
    rfl
  have hnode : cur.node = v := by
    rw [hcur2]
    exact hwf2 v rv hrv
  have hheap1 : st1.heap = st2.heap.take n := by
    rw [hst1, setIndex_heap]
  have hkey13 : ∀ k, k < n → keyAt st1 k = keyAt st2 k := by
    intro k hk
    have hc1 : SameCores st1.info st3.info := by
      rw [hst1]
      exact SameCores.symm (setIndex_cores st3 v (-1))
    have hh1 : st1.heap = st3.heap := by
      rw [hheap1]
    rw [keyAt_congr hc1 hh1]
    show heapKey st3 (st3.heap.getD k 0) = heapKey st2 (st2.heap.getD k 0)
    have he : st3.heap.getD k 0 = st2.heap.getD k 0 := by
      rw [hst3]
      dsimp only
      exact getD_take st2.heap n k hk 0
    rw [he]
    rfl
  have hv0 : v = st.heap.getD 0 0 := by
    rw [hv]
    unfold heapAt
    rw [hst2]
    unfold down
    rw [downFuel_getD_ge n stw 0 n n (le_refl n), hstw, heapSwap_heap_eq,
      getD_set_self _ n (by simpa using hn1)]
  refine ⟨?_, ?_, ?_⟩
  · intro k hk0 hkl
    rw [hheap1] at hkl
    simp only [List.length_take] at hkl
    have hkn : k < n := by omega
    rw [hkey13 k hkn, hkey13 ((k - 1) / 2) (by omega)]
    exact hordN k hk0 hkn
  · intro m hm
    obtain ⟨k, hk, hkm⟩ := mem_iff_slot.mp hm
    have hkey : cur.cost + cur.predictedCost = heapKey st v := by
      obtain ⟨rv0, hrv0, _⟩ := hw.1 0 h01
      rw [← hv0] at hrv0
      have hcores := sameCores_trans (heapSwap_cores st 0 n) (down_cores _ 0 n)
      have hmap := hcores v
      rw [hrv0, hrv2] at hmap
      injection hmap with hmap
      have hc1 : rv0.cost = rv.cost := congrArg (fun c => c.2.2.1) hmap
      have hc2 : rv0.predictedCost = rv.predictedCost := congrArg (fun c => c.2.2.2.1) hmap
      rw [hcur2]
      unfold heapKey
      rw [hrv0]
      dsimp only
      rw [hc1, hc2]
    rw [hkey]
    have hroot := heapOrd_root_min hord k hk
    have hkv : keyAt st 0 = heapKey st v := by
      unfold keyAt heapAt
      rw [hv0]
    have hkm2 : keyAt st k = heapKey st m := by
      unfold keyAt heapAt
      rw [hkm]
    rw [← hkv, ← hkm2]
    exact hroot
  · rw [hnode, hheap1]
    intro hmem
    obtain ⟨k, hk, hkm⟩ := mem_iff_slot.mp hmem
    simp only [List.length_take] at hk
    have hkn : k < n := by omega
    rw [getD_take _ _ _ hkn] at hkm
    have := slot_inj hw2.1 (by omega) (by omega) (hkm.trans rfl)
    omega

theorem createState_heapOrd {st : AState} {cn : Node} {ed : Edge} {p cost : Rat}
    (hw : WfIdx st) (hnone : getInfo st.info ed.node = none)
    (hord : HeapOrd st) : HeapOrd (createState st cn ed p cost) := by
  unfold createState
  refine addNodeInfo_heapOrd hw ?_ hord
  intro r0 hr0
  dsimp only at hr0
  rw [hnone] at hr0
  cases hr0

/-- Improving a record strictly decreases its key; re-sifting restores the
heap order. -/
theorem improveState_heapOrd {st : AState} {cn : Node} {ed : Edge} {ni : NodeInfo}
    {cost : Rat} (hwf : WfInfo st.info) (hw : WfIdx st)
    (hni : getInfo st.info ed.node = some ni) (hlt : cost < ni.cost)
    (hord : HeapOrd st) : HeapOrd (improveState st cn ed ni cost) := by
  unfold improveState
  dsimp only
  set r : NodeInfo := { ni with parent := cn, cost := cost, stamp := st.clock } with hrdef
  set st1 : AState :=
    { st with info := setInfo st.info ed.node r, clock := st.clock + 1 } with hst1
  have hst1i : st1.info = setInfo st.info ed.node r := rfl
  have hst1h : st1.heap = st.heap := rfl
  have hlen1 : st1.heap.length = st.heap.length := rfl
  have hkey_other : ∀ m, m ≠ ed.node → heapKey st1 m = heapKey st m := by
    intro m hm
    unfold heapKey
    rw [hst1i, getInfo_setInfo_ne _ _ _ _ hm]
  have hkey_ed : heapKey st1 ed.node = cost + ni.predictedCost := by
    unfold heapKey
    rw [hst1i, getInfo_setInfo_self]
  have hkey_ed_lt : heapKey st1 ed.node < heapKey st ed.node := by
    rw [hkey_ed]
    unfold heapKey
    rw [hni]
    exact add_lt_add_right hlt _
  by_cases hix : r.index ≥ 0
  · rw [if_pos hix]
    have hix2 : ni.index = r.index := rfl
    rcases hw.2 ed.node ni hni with hneg | ⟨k, hk1, hk2, hk3⟩
    · have h2 : ni.index ≥ 0 := hix
      rw [hneg] at h2
      exact absurd h2 (by decide)
    · have htoNat : r.index.toNat = k := by
        rw [← hix2, hk1]
        rfl
      have honly : ∀ m, m < st.heap.length → m ≠ k → st.heap.getD m 0 ≠ ed.node := by
        intro m hm hmk heq
        obtain ⟨r0, hr0, hix0⟩ := hw.1 m hm
        rw [heq, hni] at hr0
        injection hr0 with hr0
        rw [← hr0, hk1] at hix0
        exact hmk (Int.ofNat.inj hix0.symm)
      have hkeyAt1 : ∀ m, m < st.heap.length → m ≠ k → keyAt st1 m = keyAt st m := by
        intro m hm hmk
        unfold keyAt heapAt
        rw [hst1h, hkey_other _ (honly m hm hmk)]
      have hkeyAtk_le : keyAt st1 k ≤ keyAt st k := by
        have he1 : keyAt st1 k = heapKey st1 ed.node := by
          unfold keyAt heapAt
          rw [hst1h, hk3]
        have he2 : keyAt st k = heapKey st ed.node := by
          unfold keyAt heapAt
          rw [hk3]
        rw [he1, he2]
        exact le_of_lt hkey_ed_lt
      unfold updateNodeInfo
      dsimp only
      rw [htoNat]
      have hnoop : down st1 k st1.heap.length = st1 := by
        unfold down
        refine downFuel_noop _ _ _ _ ?_ ?_
        · intro hc
          rw [hlen1] at hc
          rw [hkeyAt1 (2 * k + 1) hc (by omega)]
          have hp1 : (2 * k + 1 - 1) / 2 = k := by omega
          have hh := hord (2 * k + 1) (by omega) hc
          rw [hp1] at hh
          exact le_trans hkeyAtk_le hh
        · intro hc
          rw [hlen1] at hc
          rw [hkeyAt1 (2 * k + 2) hc (by omega)]
          have hp1 : (2 * k + 2 - 1) / 2 = k := by omega
          have hh := hord (2 * k + 2) (by omega) hc
          rw [hp1] at hh
          exact le_trans hkeyAtk_le hh
      rw [hnoop]
      refine up_heapOrd ?_ ⟨?_, ?_⟩
      · rw [hlen1]
        exact hk2
      · intro m hm0 hml hmk
        rw [hlen1] at hml
        by_cases hpm : (m - 1) / 2 = k
        · rw [hpm, hkeyAt1 m hml hmk]
          have hh := hord m hm0 hml
          rw [hpm] at hh
          exact le_trans hkeyAtk_le hh
        · rw [hkeyAt1 ((m - 1) / 2) (by omega) hpm, hkeyAt1 m hml hmk]
          exact hord m hm0 hml
      · intro hk0 c hcl hc0 hpc
        rw [hlen1] at hcl
        rw [hkeyAt1 ((k - 1) / 2) (by omega) (by omega), hkeyAt1 c hcl (by omega)]
        have h1 := hord k hk0 hk2
        have h2 := hord c hc0 hcl
        rw [hpc] at h2
        exact le_trans h1 h2
  · rw [if_neg hix]
    have hrnode : r.node = ed.node := hwf ed.node ni hni
    have hnew1 : ∀ r0, getInfo st1.info r.node = some r0 → r0.index < 0 := by
      intro r0 hr0
      rw [hrnode, hst1i, getInfo_setInfo_self] at hr0
      injection hr0 with hr0
      rw [← hr0]
      omega
    have hw1 : WfIdx st1 := @wfIdx_replace st st1 ed.node ni r hw hni rfl rfl rfl
    have honly : ∀ m, m < st.heap.length → st.heap.getD m 0 ≠ ed.node := by
      intro m hm heq
      obtain ⟨r0, hr0, hix0⟩ := hw.1 m hm
      rw [heq, hni] at hr0
      injection hr0 with hr0
      rw [← hr0, Int.ofNat_eq_natCast] at hix0
      have : ni.index = r.index := rfl
      omega
    have hord1 : HeapOrd st1 := by
      intro m hm0 hml
      rw [hlen1] at hml
      have hkeyAt1 : ∀ m2, m2 < st.heap.length → keyAt st1 m2 = keyAt st m2 := by
        intro m2 hm2
        unfold keyAt heapAt
        rw [hst1h, hkey_other _ (honly m2 hm2)]
      rw [hkeyAt1 m hml, hkeyAt1 ((m - 1) / 2) (by omega)]
      exact hord m hm0 hml
    exact addNodeInfo_heapOrd hw1 hnew1 hord1

/-! ### Valid-path algebra and record-field transfer lemmas (claim C1) -/

theorem PathTo.snoc {g : Graph} {s a : Node} {q : List Node} {c : Rat}
    (h : PathTo g s a q c) : ∀ {b : Node} {w : Rat}, ReportsEdge g a b w →
    PathTo g s b (q ++ [b]) (c + w) := by
  induction h with
  | nil a =>
    intro b w he
    rw [List.singleton_append, zero_add, ← add_zero w]
    exact PathTo.cons a b b w [b] 0 he (PathTo.nil b)
  | cons a0 b1 t w1 p c1 h1 h2 ih =>
    intro b w he
    rw [List.cons_append, add_assoc]
    exact PathTo.cons a0 b1 b w1 (p ++ [b]) (c1 + w) h1 (ih he)

theorem pathTo_nonneg {g : Graph} {s t : Node} {q : List Node} {c : Rat}
    (hnn : ∀ n es, g.neighbors n = .ok es → ∀ ed ∈ es, 0 ≤ ed.cost)
    (h : PathTo g s t q c) : 0 ≤ c := by
  induction h with
  | nil a => exact le_refl 0
  | cons a b t w p c h1 h2 ih =>
    obtain ⟨es, hes, hmem⟩ := h1
    exact add_nonneg (hnn a es hes (Edge.mk b w) hmem) ih

theorem SameCores.some_core {a b : List (Node × NodeInfo)} (h : SameCores a b)
    {n : Node} {r : NodeInfo} (hr : getInfo b n = some r) :
    ∃ r0, getInfo a n = some r0 ∧ r0.node = r.node ∧ r0.parent = r.parent ∧
      r0.cost = r.cost ∧ r0.predictedCost = r.predictedCost ∧ r0.stamp = r.stamp := by
  have hn := h n
  rw [hr] at hn
  cases ha : getInfo a n with
  | none => rw [ha] at hn; simp at hn
  | some r0 =>
    rw [ha] at hn
    injection hn with hn
    exact ⟨r0, rfl, congrArg (fun c => c.1) hn, congrArg (fun c => c.2.1) hn,
      congrArg (fun c => c.2.2.1) hn, congrArg (fun c => c.2.2.2.1) hn,
      congrArg (fun c => c.2.2.2.2) hn⟩

theorem SameCores.pred {H : Node → Rat} {a b : List (Node × NodeInfo)}
    (h : SameCores a b) (hp : ∀ n r, getInfo a n = some r → r.predictedCost = H n) :
    ∀ n r, getInfo b n = some r → r.predictedCost = H n := by
  intro n r hr
  obtain ⟨r0, h0, _, _, _, hpc, _⟩ := h.some_core hr
  rw [← hpc]
  exact hp n r0 h0

theorem SameCores.cpath {g : Graph} {s : Node} {a b : List (Node × NodeInfo)}
    (h : SameCores a b) (hp : ∀ n r, getInfo a n = some r → ∃ q, PathTo g s n q r.cost) :
    ∀ n r, getInfo b n = some r → ∃ q, PathTo g s n q r.cost := by
  intro n r hr
  obtain ⟨r0, h0, _, _, hc, _, _⟩ := h.some_core hr
  rw [← hc]
  exact hp n r0 h0

theorem SameCores.pcost {g : Graph} {a b : List (Node × NodeInfo)} (h : SameCores a b)
    (hp : ∀ n r, getInfo a n = some r → ∀ rp, getInfo a r.parent = some rp →
      ∃ w, ReportsEdge g r.parent n w ∧ rp.cost + w ≤ r.cost) :
    ∀ n r, getInfo b n = some r → ∀ rp, getInfo b r.parent = some rp →
      ∃ w, ReportsEdge g r.parent n w ∧ rp.cost + w ≤ r.cost := by
  intro n r hr rp hrp
  obtain ⟨r0, h0, _, hpar, hc, _, _⟩ := h.some_core hr
  rw [← hpar] at hrp
  obtain ⟨rp0, hp0, _, _, hcp, _, _⟩ := h.some_core hrp
  obtain ⟨w, hw1, hw2⟩ := hp n r0 h0 rp0 hp0
  refine ⟨w, by rw [← hpar]; exact hw1, ?_⟩
  rw [← hc, ← hcp]
  exact hw2

theorem maxrec_transfer {e : Node} {a b : List (Node × NodeInfo)} {m1 m2 : Option Rat}
    (h : SameCores a b) (hm : m2 = m1)
    (hp : ∀ m, m1 = some m → ∃ re, getInfo a e = some re ∧ re.cost ≤ m) :
    ∀ m, m2 = some m → ∃ re, getInfo b e = some re ∧ re.cost ≤ m := by
  intro m hm2
  rw [hm] at hm2
  obtain ⟨re, hre, hle⟩ := hp m hm2
  have hn := h e
  rw [hre] at hn
  cases hb : getInfo b e with
  | none => rw [hb] at hn; simp at hn
  | some re2 =>
    rw [hb] at hn
    injection hn with hn
    have hc : re.cost = re2.cost := congrArg (fun c => c.2.2.1) hn
    exact ⟨re2, rfl, by rw [← hc]; exact hle⟩

theorem geMax_not_ltMax {c : Rat} {m : Option Rat} (h : geMax c m) : ¬ ltMax c m := by
  cases m with
  | none => exact absurd h (by simp [geMax])
  | some v =>
    intro hlt
    exact absurd hlt (not_lt.mpr h)

theorem maxUpd_ltMax {st : AState} {c c2 : Rat} (h : ltMax c2 (maxUpd st c).maxCost) :
    ltMax c2 st.maxCost := by
  unfold maxUpd at h
  by_cases hc : ltMax c st.maxCost
  · rw [if_pos hc] at h
    dsimp only at h
    cases hm : st.maxCost with
    | none => exact trivial
    | some v =>
      rw [hm] at hc
      show c2 < v
      exact lt_trans h hc
  · rw [if_neg hc] at h
    exact h

/-! ### Records of nodes outside the heap are untouched by the sifts -/

theorem heapSwap_getInfo_notMem {st : AState} {i j : Nat} (hi : i < st.heap.length)
    (hj : j < st.heap.length) {m : Node} (hm : m ∉ st.heap) :
    getInfo (heapSwap st i j).info m = getInfo st.info m := by
  unfold heapSwap
  dsimp only
  have hbm : m ≠ heapAt st j := by
    intro he
    exact hm (mem_iff_slot.mpr ⟨j, hj, he.symm⟩)
  have ham : m ≠ heapAt st i := by
    intro he
    exact hm (mem_iff_slot.mpr ⟨i, hi, he.symm⟩)
  rw [getInfo_setIndex_ne _ _ _ ham, getInfo_setIndex_ne _ _ _ hbm]

theorem upFuel_getInfo_notMem : ∀ (fuel : Nat) (st : AState) (j : Nat),
    j < st.heap.length → ∀ {m : Node}, m ∉ st.heap →
    getInfo (upFuel fuel st j).info m = getInfo st.info m := by
  intro fuel
  induction fuel with
  | zero => intro st j _ m _; rfl
  | succ f ih =>
    intro st j hj m hm
    unfold upFuel
    dsimp only
    by_cases hij : (j - 1) / 2 = j
    · rw [if_pos hij]
    · rw [if_neg hij]
      by_cases hl : lessAt st j ((j - 1) / 2)
      · rw [if_pos hl]
        have hi : (j - 1) / 2 < st.heap.length := by omega
        have hm2 : m ∉ (heapSwap st ((j - 1) / 2) j).heap := by
          rw [heapSwap_memEq hi hj]
          exact hm
        rw [ih _ _ (by rw [heapSwap_heap_length]; omega) hm2]
        exact heapSwap_getInfo_notMem hi hj hm
      · rw [if_neg hl]

theorem downFuel_getInfo_notMem : ∀ (fuel : Nat) (st : AState) (i n : Nat),
    n ≤ st.heap.length → ∀ {m : Node}, m ∉ st.heap →
    getInfo (downFuel fuel st i n).info m = getInfo st.info m := by
  intro fuel
  induction fuel with
  | zero => intro st i n _ m _; rfl
  | succ f ih =>
    intro st i n hn m hm
    unfold downFuel
    dsimp only
    by_cases hstop : n ≤ 2 * i + 1
    · rw [if_pos hstop]
    · rw [if_neg hstop]
      by_cases hc : 2 * i + 2 < n ∧ ¬ lessAt st (2 * i + 1) (2 * i + 2)
      · rw [if_pos hc]
        by_cases hl : lessAt st (2 * i + 2) i
        · rw [if_pos hl]
          have hi : i < st.heap.length := by omega
          have hj : 2 * i + 2 < st.heap.length := by omega
          have hm2 : m ∉ (heapSwap st i (2 * i + 2)).heap := by
            rw [heapSwap_memEq hi hj]
            exact hm
          rw [ih _ _ _ (by rw [heapSwap_heap_length]; exact hn) hm2]
          exact heapSwap_getInfo_notMem hi hj hm
        · rw [if_neg hl]
      · rw [if_neg hc]
        by_cases hl : lessAt st (2 * i + 1) i
        · rw [if_pos hl]
          have hi : i < st.heap.length := by omega
          have hj : 2 * i + 1 < st.heap.length := by omega
          have hm2 : m ∉ (heapSwap st i (2 * i + 1)).heap := by
            rw [heapSwap_memEq hi hj]
            exact hm
          rw [ih _ _ _ (by rw [heapSwap_heap_length]; exact hn) hm2]
          exact heapSwap_getInfo_notMem hi hj hm
        · rw [if_neg hl]

theorem up_getInfo_notMem (st : AState) (j : Nat) (hj : j < st.heap.length) {m : Node}
    (hm : m ∉ st.heap) : getInfo (up st j).info m = getInfo st.info m :=
  upFuel_getInfo_notMem _ _ _ hj hm

theorem down_getInfo_notMem (st : AState) (i n : Nat) (hn : n ≤ st.heap.length) {m : Node}
    (hm : m ∉ st.heap) : getInfo (down st i n).info m = getInfo st.info m :=
  downFuel_getInfo_notMem _ _ _ _ hn hm

theorem addNodeInfo_getInfo_notMem {st : AState} {r : NodeInfo} {m : Node}
    (hm : m ∉ st.heap) (hmr : m ≠ r.node) :
    getInfo (addNodeInfo st r).info m = getInfo st.info m := by
  unfold addNodeInfo
  dsimp only
  set st1 : AState :=
    { st with info := setInfo st.info r.node r, heap := st.heap ++ [r.node] } with hst1
  have hm1 : m ∉ (setIndex st1 r.node (Int.ofNat (st1.heap.length - 1))).heap := by
    rw [setIndex_heap, hst1]
    dsimp only
    rw [List.mem_append, List.mem_singleton]
    intro hcon
    rcases hcon with hc1 | hc2
    · exact hm hc1
    · exact hmr hc2
  rw [up_getInfo_notMem _ _ (by rw [setIndex_heap]; rw [hst1]; simp) hm1]
  rw [getInfo_setIndex_ne _ _ _ hmr]
  exact getInfo_setInfo_ne _ _ _ _ hmr

theorem updateNodeInfo_getInfo_notMem {st : AState} {r : NodeInfo} {m : Node}
    (hk : r.index.toNat < st.heap.length) (hm : m ∉ st.heap) :
    getInfo (updateNodeInfo st r).info m = getInfo st.info m := by
  unfold updateNodeInfo
  dsimp only
  have hm2 : m ∉ (down st r.index.toNat st.heap.length).heap := by
    rw [down_memEq _ _ _ (le_refl _)]
    exact hm
  rw [up_getInfo_notMem _ _ (by rw [down_heap_length]; exact hk) hm2]
  exact down_getInfo_notMem _ _ _ (le_refl _) hm

/-- The slots removed by `popBest`: exactly the extracted node leaves the
heap. -/
theorem popBest_memEq {st : AState} {cur : NodeInfo} {st1 : AState}
    (hwf : WfInfo st.info) (hw : WfIdx st) (h : popBest st = some (cur, st1)) :
    ∀ x, (x ∈ st.heap ↔ x ∈ st1.heap ∨ x = cur.node) := by
  obtain ⟨h0, hst1, hcur⟩ := popBest_eq_some h
  set n := st.heap.length - 1 with hn
  set stw := heapSwap st 0 n with hstw
  set st2 := down stw 0 n with hst2
  have hn1 : n < st.heap.length := by omega
  have h01 : 0 < st.heap.length := by omega
  have hlenw : stw.heap.length = st.heap.length := heapSwap_heap_length st 0 n
  have hlen2 : st2.heap.length = st.heap.length := by
    rw [hst2, down_heap_length, hlenw]
  have hww : WfIdx stw := heapSwap_wfIdx h01 hn1 hw
  have hw2 : WfIdx st2 := down_wfIdx _ _ _ (by omega) hww
  have hwf2 : WfInfo st2.info :=
    SameCores.wfInfo (sameCores_trans (heapSwap_cores st 0 n) (down_cores _ 0 n)) hwf
  set v := heapAt st2 n with hv
  obtain ⟨rv, hrv, hixv⟩ := hw2.1 n (by omega)
  have hmem2 : ∀ x, x ∈ st2.heap ↔ x ∈ st.heap := by
    intro x
    rw [hst2]
    unfold down
    rw [downFuel_memEq n stw 0 n (by omega) x, hstw, heapSwap_memEq h01 hn1 x]
  set st3 : AState := { st2 with heap := st2.heap.take n } with hst3
  have hrv3 : getInfo st3.info v = some rv := hrv
  have hv1 : getInfo st1.info v = some { rv with index := -1 } := by
    rw [hst1]
    exact getInfo_setIndex_self hrv3 (-1)
  have hcur2 : cur = { rv with index := -1 } := by
    rw [hcur, hv1]
    rfl
  have hnode : cur.node = v := by
    rw [hcur2]
    exact hwf2 v rv hrv
  have hheap1 : st1.heap = st2.heap.take n := by
    rw [hst1, setIndex_heap]
  intro x
  constructor
  · intro hx
    obtain ⟨k, hk, hkx⟩ := mem_iff_slot.mp ((hmem2 x).mpr hx)
    rw [hlen2] at hk
    by_cases hxv : x = v
    · right
      rw [hnode, hxv]
    · left
      have hkn : k ≠ n := by
        intro he
        rw [he] at hkx
        exact hxv hkx.symm
      rw [hheap1]
      refine mem_iff_slot.mpr ⟨k, ?_, ?_⟩
      · simp only [List.length_take]
        omega
      · rw [getD_take _ _ _ (by omega)]
        exact hkx
  · intro hx
    rcases hx with hx | hx
    · rw [hheap1] at hx
      obtain ⟨k, hk, hkx⟩ := mem_iff_slot.mp hx
      simp only [List.length_take] at hk
      have hkn : k < n := by omega
      rw [getD_take _ _ _ hkn] at hkx
      exact (hmem2 x).mp (mem_iff_slot.mpr ⟨k, by omega, hkx⟩)
    · rw [hx, hnode]
      have : v ∈ st2.heap := mem_iff_slot.mpr ⟨n, by omega, rfl⟩
      exact (hmem2 v).mp this

/-! ### The cost-correctness invariants of claim C1 -/

/-- Every record's `predictedCost` is the heuristic estimate of its node. -/
def PredOk (H : Node → Rat) (info : List (Node × NodeInfo)) : Prop :=
  ∀ n r, getInfo info n = some r → r.predictedCost = H n

/-- Every record's cost is realized by an actual path from the start. -/
def CostIsPath (g : Graph) (s : Node) (info : List (Node × NodeInfo)) : Prop :=
  ∀ n r, getInfo info n = some r → ∃ q, PathTo g s n q r.cost

/-- A recorded parent provides a reported edge whose relaxation bounds the
child's cost. -/
def ParentCostOk (g : Graph) (info : List (Node × NodeInfo)) : Prop :=
  ∀ n r, getInfo info n = some r → ∀ rp, getInfo info r.parent = some rp →
    ∃ w, ReportsEdge g r.parent n w ∧ rp.cost + w ≤ r.cost

/-- A finite `maxCost` is witnessed by a goal record at most that cost. -/
def MaxRec (e : Node) (st : AState) : Prop :=
  ∀ m, st.maxCost = some m → ∃ re, getInfo st.info e = some re ∧ re.cost ≤ m

/-- Every closed unpruned record (other than the exception `u`, the node
being expanded right now) has had all its outgoing edges relaxed. -/
def ClosedRel (cfg : Config) (u : Node) (st : AState) : Prop :=
  ∀ n r, getInfo st.info n = some r → n ∉ st.heap → n ≠ u →
    ltMax r.cost st.maxCost → ∀ es, cfg.g.neighbors n = .ok es → ∀ ed ∈ es,
      ∃ rb, getInfo st.info ed.node = some rb ∧ rb.cost ≤ r.cost + ed.cost

/-- All state invariants of the optimality proof. -/
def C1Inv (cfg : Config) (s : Node) (H : Node → Rat) (st : AState) : Prop :=
  InvAll cfg s st ∧ HeapOrd st ∧ PredOk H st.info ∧ CostIsPath cfg.g s st.info ∧
    ParentCostOk cfg.g st.info ∧ MaxRec cfg.endN st

/-- The graph-side hypotheses of claim C1 that the invariants consume:
non-negative edges, no edge into −1, and a total heuristic `H`. -/
def GraphOk (cfg : Config) (H : Node → Rat) : Prop :=
  (∀ n es, cfg.g.neighbors n = .ok es → ∀ ed ∈ es, 0 ≤ ed.cost ∧ ed.node ≠ -1) ∧
  (∀ n, cfg.g.heuristicCost n cfg.endN = .ok (H n))

theorem maxrec_mono {e : Node} {st st' : AState} (h : InfoMono st.info st'.info)
    (hm : st'.maxCost = st.maxCost) (hp : MaxRec e st) : MaxRec e st' := by
  intro m hm2
  rw [hm] at hm2
  obtain ⟨re, hre, hle⟩ := hp m hm2
  obtain ⟨re2, hre2, hc⟩ := h e re hre
  exact ⟨re2, hre2, le_trans hc hle⟩

theorem maxUpd_maxrec {st : AState} {e : Node} {c : Rat}
    (hrec : ∃ re, getInfo st.info e = some re ∧ re.cost ≤ c)
    (hp : MaxRec e st) : MaxRec e (maxUpd st c) := by
  intro m hm
  unfold maxUpd at hm
  by_cases hc : ltMax c st.maxCost
  · rw [if_pos hc] at hm
    dsimp only at hm
    injection hm with hm
    obtain ⟨re, hre, hle⟩ := hrec
    refine ⟨re, ?_, by rw [← hm]; exact hle⟩
    rw [maxUpd_info]
    exact hre
  · rw [if_neg hc] at hm
    obtain ⟨re, hre, hle⟩ := hp m hm
    refine ⟨re, ?_, hle⟩
    rw [maxUpd_info]
    exact hre

theorem core_eq_some {o1 o2 : Option NodeInfo}
    (h : o1.map NodeInfo.core = o2.map NodeInfo.core) {r : NodeInfo} (hr : o1 = some r) :
    ∃ r0, o2 = some r0 ∧ r0.cost = r.cost ∧ r0.node = r.node ∧ r0.parent = r.parent ∧
      r0.predictedCost = r.predictedCost := by
  rw [hr] at h
  cases h2 : o2 with
  | none => rw [h2] at h; simp at h
  | some r0 =>
    rw [h2] at h
    injection h with h
    exact ⟨r0, rfl, (congrArg (fun c => c.2.2.1) h).symm, (congrArg (fun c => c.1) h).symm,
      (congrArg (fun c => c.2.1) h).symm, (congrArg (fun c => c.2.2.2.1) h).symm⟩

/-! Field preservation through a record creation. -/

theorem createState_pred {H : Node → Rat} {st : AState} {cn : Node} {ed : Edge}
    {p cost : Rat} (hp : PredOk H st.info) (hP : p = H ed.node) :
    PredOk H (createState st cn ed p cost).info := by
  refine SameCores.pred (addNodeInfo_cores { st with clock := st.clock + 1 }
    ⟨ed.node, cn, 0, cost, p, st.clock⟩) ?_
  intro n r hr
  by_cases hn : n = ed.node
  · subst hn
    rw [getInfo_setInfo_self] at hr
    injection hr with hr
    rw [← hr]
    exact hP
  · rw [getInfo_setInfo_ne _ _ _ _ hn] at hr
    exact hp n r hr

theorem createState_cpath {g : Graph} {s : Node} {st : AState} {cn : Node} {ed : Edge}
    {p cost : Rat} {rcn : NodeInfo} (hcp : CostIsPath g s st.info)
    (hcn : getInfo st.info cn = some rcn) (hedge : ReportsEdge g cn ed.node ed.cost)
    (hcost : cost = rcn.cost + ed.cost) :
    CostIsPath g s (createState st cn ed p cost).info := by
  refine SameCores.cpath (addNodeInfo_cores { st with clock := st.clock + 1 }
    ⟨ed.node, cn, 0, cost, p, st.clock⟩) ?_
  intro n r hr
  by_cases hn : n = ed.node
  · subst hn
    rw [getInfo_setInfo_self] at hr
    injection hr with hr
    rw [← hr]
    obtain ⟨q, hq⟩ := hcp cn rcn hcn
    refine ⟨q ++ [ed.node], ?_⟩
    rw [show (⟨ed.node, cn, 0, cost, p, st.clock⟩ : NodeInfo).cost = cost from rfl, hcost]
    exact hq.snoc hedge
  · rw [getInfo_setInfo_ne _ _ _ _ hn] at hr
    exact hcp n r hr

theorem createState_pcost {g : Graph} {s : Node} {st : AState} {cn : Node} {ed : Edge}
    {p cost : Rat} {rcn : NodeInfo} (hpc : ParentCostOk g st.info)
    (hpo : ParentOk g s st.info) (hne : ed.node ≠ -1)
    (hcn : getInfo st.info cn = some rcn) (hnone : getInfo st.info ed.node = none)
    (hedge : ReportsEdge g cn ed.node ed.cost) (hcost : cost = rcn.cost + ed.cost) :
    ParentCostOk g (createState st cn ed p cost).info := by
  refine SameCores.pcost (addNodeInfo_cores { st with clock := st.clock + 1 }
    ⟨ed.node, cn, 0, cost, p, st.clock⟩) ?_
  have hcnne : cn ≠ ed.node := by
    intro he
    rw [he, hnone] at hcn
    cases hcn
  intro n r hr rp hrp
  by_cases hn : n = ed.node
  · subst hn
    rw [getInfo_setInfo_self] at hr
    injection hr with hr
    rw [← hr] at hrp ⊢
    rw [show (⟨ed.node, cn, 0, cost, p, st.clock⟩ : NodeInfo).parent = cn from rfl] at hrp ⊢
    rw [getInfo_setInfo_ne _ _ _ _ hcnne, hcn] at hrp
    injection hrp with hrp
    refine ⟨ed.cost, hedge, ?_⟩
    rw [← hrp, show (⟨ed.node, cn, 0, cost, p, st.clock⟩ : NodeInfo).cost = cost from rfl, hcost]
  · rw [getInfo_setInfo_ne _ _ _ _ hn] at hr
    have hrpne : r.parent ≠ ed.node := by
      intro he
      rcases hpo n r hr with ⟨_, h2⟩ | ⟨h2, _⟩
      · rw [h2] at he
        exact hne he.symm
      · rw [he, hnone] at h2
        cases h2
    rw [getInfo_setInfo_ne _ _ _ _ hrpne] at hrp
    exact hpc n r hr rp hrp

theorem createState_maxCost (st : AState) (cn : Node) (ed : Edge) (p cost : Rat) :
    (createState st cn ed p cost).maxCost = st.maxCost := by
  unfold createState
  rw [addNodeInfo_maxCost]

theorem improveState_maxCost (st : AState) (cn : Node) (ed : Edge) (ni : NodeInfo)
    (cost : Rat) : (improveState st cn ed ni cost).maxCost = st.maxCost := by
  unfold improveState
  dsimp only
  split
  · rw [updateNodeInfo_maxCost]
  · rw [addNodeInfo_maxCost]

/-- The improved node stays on the heap, and the heap only grows. -/
theorem improveState_mem {st : AState} {cn : Node} {ed : Edge} {ni : NodeInfo}
    {cost : Rat} (hwf : WfInfo st.info) (hw : WfIdx st)
    (hni : getInfo st.info ed.node = some ni) :
    ed.node ∈ (improveState st cn ed ni cost).heap ∧
    ∀ x ∈ st.heap, x ∈ (improveState st cn ed ni cost).heap := by
  unfold improveState
  dsimp only
  set r : NodeInfo := { ni with parent := cn, cost := cost, stamp := st.clock } with hrdef
  set st1 : AState :=
    { st with info := setInfo st.info ed.node r, clock := st.clock + 1 } with hst1
  have hh1 : st1.heap = st.heap := rfl
  have hrnode : r.node = ed.node := hwf ed.node ni hni
  by_cases hix : r.index ≥ 0
  · rw [if_pos hix]
    have hix2 : ni.index = r.index := rfl
    rcases hw.2 ed.node ni hni with hneg | ⟨k, hk1, hk2, hk3⟩
    · have h2 : ni.index ≥ 0 := hix
      rw [hneg] at h2
      exact absurd h2 (by decide)
    · have htoNat : r.index.toNat = k := by
        rw [← hix2, hk1]
        rfl
      have hrange : r.index.toNat < st1.heap.length := by
        rw [htoNat, hh1]
        exact hk2
      constructor
      · rw [updateNodeInfo_memEq st1 r hrange]
        exact mem_iff_slot.mpr ⟨k, hk2, hk3⟩
      · intro x hx
        rw [updateNodeInfo_memEq st1 r hrange]
        exact hx
  · rw [if_neg hix]
    constructor
    · rw [addNodeInfo_memEq]
      right
      exact hrnode.symm
    · intro x hx
      rw [addNodeInfo_memEq]
      left
      exact hx

/-! Field preservation through a record improvement. -/

theorem improveState_pred {H : Node → Rat} {st : AState} {cn : Node} {ed : Edge}
    {ni : NodeInfo} {cost : Rat} (hwf : WfInfo st.info)
    (hni : getInfo st.info ed.node = some ni) (hp : PredOk H st.info) :
    PredOk H (improveState st cn ed ni cost).info := by
  unfold improveState
  dsimp only
  set r : NodeInfo := { ni with parent := cn, cost := cost, stamp := st.clock } with hrdef
  have hrnode : r.node = ed.node := hwf ed.node ni hni
  have hbase : PredOk H (setInfo st.info ed.node r) := by
    intro n rr hrr
    by_cases hn : n = ed.node
    · subst hn
      rw [getInfo_setInfo_self] at hrr
      injection hrr with hrr
      rw [← hrr]
      exact hp ed.node ni hni
    · rw [getInfo_setInfo_ne _ _ _ _ hn] at hrr
      exact hp n rr hrr
  by_cases hix : r.index ≥ 0
  · rw [if_pos hix]
    exact SameCores.pred (updateNodeInfo_cores
      { st with info := setInfo st.info ed.node r, clock := st.clock + 1 } r) hbase
  · rw [if_neg hix]
    refine SameCores.pred ?_ hbase
    have hc := addNodeInfo_cores
      { st with info := setInfo st.info ed.node r, clock := st.clock + 1 } r
    rw [hrnode] at hc
    dsimp only at hc
    rw [setInfo_setInfo] at hc
    exact hc

theorem improveState_cpath {g : Graph} {s : Node} {st : AState} {cn : Node} {ed : Edge}
    {ni : NodeInfo} {cost : Rat} {rcn : NodeInfo} (hwf : WfInfo st.info)
    (hcp : CostIsPath g s st.info) (hcn : getInfo st.info cn = some rcn)
    (hni : getInfo st.info ed.node = some ni)
    (hedge : ReportsEdge g cn ed.node ed.cost) (hcost : cost = rcn.cost + ed.cost) :
    CostIsPath g s (improveState st cn ed ni cost).info := by
  unfold improveState
  dsimp only
  set r : NodeInfo := { ni with parent := cn, cost := cost, stamp := st.clock } with hrdef
  have hrnode : r.node = ed.node := hwf ed.node ni hni
  have hbase : CostIsPath g s (setInfo st.info ed.node r) := by
    intro n rr hrr
    by_cases hn : n = ed.node
    · subst hn
      rw [getInfo_setInfo_self] at hrr
      injection hrr with hrr
      rw [← hrr]
      obtain ⟨q, hq⟩ := hcp cn rcn hcn
      refine ⟨q ++ [ed.node], ?_⟩
      rw [show r.cost = cost from rfl, hcost]
      exact hq.snoc hedge
    · rw [getInfo_setInfo_ne _ _ _ _ hn] at hrr
      exact hcp n rr hrr
  by_cases hix : r.index ≥ 0
  · rw [if_pos hix]
    exact SameCores.cpath (updateNodeInfo_cores
      { st with info := setInfo st.info ed.node r, clock := st.clock + 1 } r) hbase
  · rw [if_neg hix]
    refine SameCores.cpath ?_ hbase
    have hc := addNodeInfo_cores
      { st with info := setInfo st.info ed.node r, clock := st.clock + 1 } r
    rw [hrnode] at hc
    dsimp only at hc
    rw [setInfo_setInfo] at hc
    exact hc

theorem improveState_pcost {g : Graph} {st : AState} {cn : Node} {ed : Edge}
    {ni : NodeInfo} {cost : Rat} {rcn : NodeInfo} (hwf : WfInfo st.info)
    (hpc : ParentCostOk g st.info) (hcn : getInfo st.info cn = some rcn)
    (hni : getInfo st.info ed.node = some ni)
    (hedge : ReportsEdge g cn ed.node ed.cost) (hcost : cost = rcn.cost + ed.cost)
    (hlt : cost < ni.cost) (hw0 : 0 ≤ ed.cost) :
    ParentCostOk g (improveState st cn ed ni cost).info := by
  have hcnne : cn ≠ ed.node := by
    intro he
    rw [he, hni] at hcn
    injection hcn with hcn
    rw [← hcn] at hcost
    rw [hcost] at hlt
    exact absurd hlt (not_lt.mpr (le_add_of_nonneg_right hw0))
  unfold improveState
  dsimp only
  set r : NodeInfo := { ni with parent := cn, cost := cost, stamp := st.clock } with hrdef
  have hrnode : r.node = ed.node := hwf ed.node ni hni
  have hbase : ParentCostOk g (setInfo st.info ed.node r) := by
    intro n rr hrr rp hrp
    by_cases hn : n = ed.node
    · subst hn
      rw [getInfo_setInfo_self] at hrr
      injection hrr with hrr
      rw [← hrr] at hrp ⊢
      rw [show r.parent = cn from rfl] at hrp ⊢
      rw [getInfo_setInfo_ne _ _ _ _ hcnne, hcn] at hrp
      injection hrp with hrp
      refine ⟨ed.cost, hedge, ?_⟩
      rw [← hrp, show r.cost = cost from rfl, hcost]
    · rw [getInfo_setInfo_ne _ _ _ _ hn] at hrr
      by_cases hrpe : rr.parent = ed.node
      · rw [hrpe, getInfo_setInfo_self] at hrp
        injection hrp with hrp
        have hold := hpc n rr hrr
        obtain ⟨w, hw1, hw2⟩ := hold ni (by rw [hrpe]; exact hni)
        refine ⟨w, hw1, ?_⟩
        rw [← hrp, show r.cost = cost from rfl]
        calc cost + w ≤ ni.cost + w := add_le_add_right (le_of_lt hlt) w
        _ ≤ rr.cost := hw2
      · rw [getInfo_setInfo_ne _ _ _ _ hrpe] at hrp
        exact hpc n rr hrr rp hrp
  by_cases hix : r.index ≥ 0
  · rw [if_pos hix]
    exact SameCores.pcost (updateNodeInfo_cores
      { st with info := setInfo st.info ed.node r, clock := st.clock + 1 } r) hbase
  · rw [if_neg hix]
    refine SameCores.pcost ?_ hbase
    have hc := addNodeInfo_cores
      { st with info := setInfo st.info ed.node r, clock := st.clock + 1 } r
    rw [hrnode] at hc
    dsimp only at hc
    rw [setInfo_setInfo] at hc
    exact hc

theorem closedRel_create {cfg : Config} {u : Node} {st : AState} {cn : Node} {ed : Edge}
    {p cost : Rat} (hcl : ClosedRel cfg u st) (hnone : getInfo st.info ed.node = none) :
    ClosedRel cfg u (createState st cn ed p cost) := by
  intro n r hr hmem hnu hlt es hes ed2 hed2
  have hmax : (createState st cn ed p cost).maxCost = st.maxCost :=
    createState_maxCost st cn ed p cost
  have hne2 : n ≠ ed.node := by
    intro he
    refine hmem ?_
    rw [he]
    show ed.node ∈ (addNodeInfo { st with clock := st.clock + 1 }
      ⟨ed.node, cn, 0, cost, p, st.clock⟩).heap
    rw [addNodeInfo_memEq]
    right
    rfl
  have hcore := createState_other st cn ed p cost n hne2
  obtain ⟨r0, hr0, hc0, _, _, _⟩ := core_eq_some hcore hr
  have hmem0 : n ∉ st.heap := by
    intro hx
    refine hmem ?_
    show n ∈ (addNodeInfo { st with clock := st.clock + 1 }
      ⟨ed.node, cn, 0, cost, p, st.clock⟩).heap
    rw [addNodeInfo_memEq]
    left
    exact hx
  have hlt0 : ltMax r0.cost st.maxCost := by
    rw [hc0]
    rw [hmax] at hlt
    exact hlt
  obtain ⟨rb, hrb, hble⟩ := hcl n r0 hr0 hmem0 hnu hlt0 es hes ed2 hed2
  obtain ⟨rb2, hrb2, hble2⟩ := createState_mono hnone ed2.node rb hrb
  refine ⟨rb2, hrb2, ?_⟩
  rw [← hc0]
  exact le_trans hble2 hble

theorem closedRel_improve {cfg : Config} {u : Node} {st : AState} {cn : Node}
    {ed : Edge} {ni : NodeInfo} {cost : Rat} (hwf : WfInfo st.info) (hw : WfIdx st)
    (hcl : ClosedRel cfg u st) (hni : getInfo st.info ed.node = some ni)
    (hlt : cost < ni.cost) :
    ClosedRel cfg u (improveState st cn ed ni cost) := by
  intro n r hr hmem hnu hltm es hes ed2 hed2
  have hmax : (improveState st cn ed ni cost).maxCost = st.maxCost :=
    improveState_maxCost st cn ed ni cost
  obtain ⟨hself, hmono⟩ := @improveState_mem st cn ed ni cost hwf hw hni
  have hne2 : n ≠ ed.node := by
    intro he
    rw [he] at hmem
    exact hmem hself
  have hcore := improveState_other st cn ed ni cost hwf hni n hne2
  obtain ⟨r0, hr0, hc0, _, _, _⟩ := core_eq_some hcore hr
  have hmem0 : n ∉ st.heap := fun hx => hmem (hmono n hx)
  have hlt0 : ltMax r0.cost st.maxCost := by
    rw [hc0]
    rw [hmax] at hltm
    exact hltm
  obtain ⟨rb, hrb, hble⟩ := hcl n r0 hr0 hmem0 hnu hlt0 es hes ed2 hed2
  obtain ⟨rb2, hrb2, hble2⟩ := improveState_mono hwf hni hlt ed2.node rb hrb
  refine ⟨rb2, hrb2, ?_⟩
  rw [← hc0]
  exact le_trans hble2 hble

/-! `maxUpd` only lowers `maxCost`; every info- or heap-based property is
untouched. -/

theorem maxUpd_heapOrd {st : AState} {c : Rat} (h : HeapOrd st) :
    HeapOrd (maxUpd st c) := by
  unfold maxUpd
  split
  · exact h
  · exact h

theorem maxUpd_pred {H : Node → Rat} {st : AState} {c : Rat}
    (h : PredOk H st.info) : PredOk H (maxUpd st c).info := by
  rw [maxUpd_info]
  exact h

theorem maxUpd_cpath {g : Graph} {s : Node} {st : AState} {c : Rat}
    (h : CostIsPath g s st.info) : CostIsPath g s (maxUpd st c).info := by
  rw [maxUpd_info]
  exact h

theorem maxUpd_pcost {g : Graph} {st : AState} {c : Rat}
    (h : ParentCostOk g st.info) : ParentCostOk g (maxUpd st c).info := by
  rw [maxUpd_info]
  exact h

theorem maxUpd_closedRel {cfg : Config} {u : Node} {st : AState} {c : Rat}
    (h : ClosedRel cfg u st) : ClosedRel cfg u (maxUpd st c) := by
  intro n r hr hmem hnu hlt es hes ed hed
  rw [maxUpd_info] at hr
  rw [maxUpd_heap] at hmem
  obtain ⟨rb, hrb, hle⟩ := h n r hr hmem hnu (maxUpd_ltMax hlt) es hes ed hed
  refine ⟨rb, ?_, hle⟩
  rw [maxUpd_info]
  exact hrb

/-! Off-heap records other than the target are untouched by a record creation
or improvement, and the heap gains exactly the target. -/

theorem createState_getInfo_notMem {st : AState} {cn : Node} {ed : Edge}
    {p cost : Rat} {m : Node} (hm : m ∉ st.heap) (hmr : m ≠ ed.node) :
    getInfo (createState st cn ed p cost).info m = getInfo st.info m := by
  unfold createState
  exact addNodeInfo_getInfo_notMem hm hmr

theorem createState_memEq (st : AState) (cn : Node) (ed : Edge) (p cost : Rat)
    (x : Node) :
    x ∈ (createState st cn ed p cost).heap ↔ (x ∈ st.heap ∨ x = ed.node) := by
  unfold createState
  exact addNodeInfo_memEq _ _ x

theorem improveState_getInfo_notMem {st : AState} {cn : Node} {ed : Edge}
    {ni : NodeInfo} {cost : Rat} {m : Node} (hwf : WfInfo st.info) (hw : WfIdx st)
    (hni : getInfo st.info ed.node = some ni) (hm : m ∉ st.heap) (hmr : m ≠ ed.node) :
    getInfo (improveState st cn ed ni cost).info m = getInfo st.info m := by
  unfold improveState
  dsimp only
  set r : NodeInfo := { ni with parent := cn, cost := cost, stamp := st.clock } with hrdef
  set st1 : AState :=
    { st with info := setInfo st.info ed.node r, clock := st.clock + 1 } with hst1
  have hrnode : r.node = ed.node := hwf ed.node ni hni
  have hbase : getInfo st1.info m = getInfo st.info m := by
    show getInfo (setInfo st.info ed.node r) m = getInfo st.info m
    exact getInfo_setInfo_ne _ _ _ _ hmr
  have hm1 : m ∉ st1.heap := hm
  by_cases hix : r.index ≥ 0
  · rw [if_pos hix]
    have hix2 : ni.index = r.index := rfl
    rcases hw.2 ed.node ni hni with hneg | ⟨k, hk1, hk2, hk3⟩
    · have h2 : ni.index ≥ 0 := hix
      rw [hneg] at h2
      exact absurd h2 (by decide)
    · have hrange : r.index.toNat < st1.heap.length := by
        rw [show st1.heap = st.heap from rfl, ← hix2, hk1]
        exact hk2
      rw [updateNodeInfo_getInfo_notMem hrange hm1]
      exact hbase
  · rw [if_neg hix]
    rw [addNodeInfo_getInfo_notMem hm1 (by rw [hrnode]; exact hmr)]
    exact hbase

theorem improveState_memEq {st : AState} {cn : Node} {ed : Edge} {ni : NodeInfo}
    {cost : Rat} (hwf : WfInfo st.info) (hw : WfIdx st)
    (hni : getInfo st.info ed.node = some ni) (x : Node) :
    x ∈ (improveState st cn ed ni cost).heap ↔ (x ∈ st.heap ∨ x = ed.node) := by
  unfold improveState
  dsimp only
  set r : NodeInfo := { ni with parent := cn, cost := cost, stamp := st.clock } with hrdef
  set st1 : AState :=
    { st with info := setInfo st.info ed.node r, clock := st.clock + 1 } with hst1
  have hrnode : r.node = ed.node := hwf ed.node ni hni
  by_cases hix : r.index ≥ 0
  · rw [if_pos hix]
    have hix2 : ni.index = r.index := rfl
    rcases hw.2 ed.node ni hni with hneg | ⟨k, hk1, hk2, hk3⟩
    · have h2 : ni.index ≥ 0 := hix
      rw [hneg] at h2
      exact absurd h2 (by decide)
    · have hrange : r.index.toNat < st1.heap.length := by
        rw [show st1.heap = st.heap from rfl, ← hix2, hk1]
        exact hk2
      rw [updateNodeInfo_memEq st1 r hrange]
      show x ∈ st.heap ↔ _
      constructor
      · exact Or.inl
      · intro hc
        rcases hc with hc | hc
        · exact hc
        · rw [hc]
          exact mem_iff_slot.mpr ⟨k, hk2, hk3⟩
  · rw [if_neg hix]
    rw [addNodeInfo_memEq]
    rw [hrnode]

/-- Per-edge preservation of the optimality invariants during the expansion
of `u` (popped, so off-heap, with a frozen record `ru`), plus the relaxation
effect on the processed edge: afterwards the target carries a record of cost
at most `ru.cost + ed.cost`. -/
theorem relaxEdge_c1 {cfg : Config} {s : Node} {H : Node → Rat} {u : Node}
    {ru : NodeInfo} {st : AState} {ed : Edge} {st2 : AState} {pp : List PPEv}
    {cs : List GCall} {es : List Edge} (hg : GraphOk cfg H)
    (hc1 : C1Inv cfg s H st) (hclosed : ClosedRel cfg u st)
    (hu : getInfo st.info u = some ru) (huh : u ∉ st.heap)
    (hes : cfg.g.neighbors u = .ok es) (hed : ed ∈ es)
    (h : relaxEdge cfg u st ed = (.ok st2, pp, cs)) :
    C1Inv cfg s H st2 ∧ ClosedRel cfg u st2 ∧ getInfo st2.info u = some ru ∧
      u ∉ st2.heap ∧
      ∃ rb, getInfo st2.info ed.node = some rb ∧ rb.cost ≤ ru.cost + ed.cost := by
  obtain ⟨⟨hinv2, hinv3⟩, hord, hpred, hcpath, hpcost, hmax⟩ := hc1
  have hwf : WfInfo st.info := hinv2.1
  have hw2 : WfIdx st := hinv2.2.1
  have hpo : ParentOk cfg.g s st.info := hinv2.2.2
  have hedge : ReportsEdge cfg.g u ed.node ed.cost := ⟨es, hes, hed⟩
  obtain ⟨h0ed, hne⟩ := hg.1 u es hes ed hed
  have hcnB : (getInfo st.info u).isSome = true := by rw [hu]; rfl
  have hinv2s : Inv2 cfg s st2 := relaxEdge_ok_inv2 ⟨hwf, hw2, hpo⟩ hcnB hedge h
  have hinv3s : Inv3 st2 := (relaxEdge_inv3 hinv3 hcnB h0ed hne).2 st2 (by rw [h])
  rcases @relaxEdge_ok_cases cfg u st ed st2 pp cs ru (ru.cost + ed.cost)
      (by rw [hu]; rfl) rfl h with
    ⟨hskip, hst, _, _⟩ | ⟨hskip, hnone, p, hheur, hafter⟩ |
    ⟨hskip, ni, hni, hlt, hafter⟩ | ⟨hskip, ni, hni, hnlt, hend, hst, _, _⟩ |
    ⟨hskip, ni, hni, hnlt, hnend, hst, _, _⟩
  · subst hst
    refine ⟨⟨⟨hinv2s, hinv3s⟩, hord, hpred, hcpath, hpcost, hmax⟩, hclosed, hu, huh, ?_⟩
    rcases hpo u ru hu with ⟨_, hpneg⟩ | ⟨hps, _⟩
    · rw [hpneg] at hskip
      exact absurd hskip hne
    · obtain ⟨rp, hrp⟩ := Option.isSome_iff_exists.mp hps
      obtain ⟨w, hwrep, hwle⟩ := hpcost u ru hu rp hrp
      obtain ⟨es2, hes2, hmem2⟩ := hwrep
      have h0w : 0 ≤ w := (hg.1 ru.parent es2 hes2 _ hmem2).1
      refine ⟨rp, by rw [hskip]; exact hrp, ?_⟩
      calc rp.cost ≤ rp.cost + w := le_add_of_nonneg_right h0w
        _ ≤ ru.cost := hwle
        _ ≤ ru.cost + ed.cost := le_add_of_nonneg_right h0ed
  · set cost := ru.cost + ed.cost with hcostdef
    set stc := createState st u ed p cost with hstc
    have hp : p = H ed.node := by
      have h2 := hg.2 ed.node
      rw [hheur] at h2
      injection h2 with h2
    have hneu : u ≠ ed.node := by
      intro he
      rw [he, hnone] at hu
      cases hu
    have hordc : HeapOrd stc := createState_heapOrd hw2 hnone hord
    have hpredc : PredOk H stc.info := createState_pred hpred hp
    have hcpathc : CostIsPath cfg.g s stc.info :=
      createState_cpath hcpath hu hedge hcostdef
    have hpcostc : ParentCostOk cfg.g stc.info :=
      createState_pcost hpcost hpo hne hu hnone hedge hcostdef
    have hmaxc : MaxRec cfg.endN stc :=
      maxrec_mono (createState_mono hnone) (createState_maxCost st u ed p cost) hmax
    have hclosedc : ClosedRel cfg u stc := closedRel_create hclosed hnone
    have hfrozc : getInfo stc.info u = some ru := by
      rw [hstc, createState_getInfo_notMem huh hneu]
      exact hu
    have hmemc : u ∉ stc.heap := by
      rw [hstc]
      intro hc
      rcases (createState_memEq st u ed p cost u).mp hc with hc | hc
      · exact huh hc
      · exact hneu hc
    obtain ⟨r2, hr2, _, _, hr2c, _, _⟩ := createState_endRec st u ed p _
    have hrbc : getInfo stc.info ed.node = some r2 := by rw [hstc]; exact hr2
    have hr2le : r2.cost ≤ ru.cost + ed.cost := by
      rw [hr2c, hcostdef]
    obtain ⟨hcs, hcases⟩ := afterChange_ok_cases hafter
    rcases hcases with ⟨hnotend, hsteq, _⟩ | ⟨hisend, hsteq, _⟩
    · subst hsteq
      exact ⟨⟨⟨hinv2s, hinv3s⟩, hordc, hpredc, hcpathc, hpcostc, hmaxc⟩, hclosedc,
        hfrozc, hmemc, r2, hrbc, hr2le⟩
    · subst hsteq
      exact ⟨⟨⟨hinv2s, hinv3s⟩, maxUpd_heapOrd hordc, maxUpd_pred hpredc,
        maxUpd_cpath hcpathc, maxUpd_pcost hpcostc,
        maxUpd_maxrec ⟨r2, by rw [← hisend]; exact hrbc, le_of_eq hr2c⟩ hmaxc⟩,
        maxUpd_closedRel hclosedc,
        by rw [maxUpd_info]; exact hfrozc, by rw [maxUpd_heap]; exact hmemc,
        r2, by rw [maxUpd_info]; exact hrbc, hr2le⟩
  · set cost := ru.cost + ed.cost with hcostdef
    have hneu : u ≠ ed.node := by
      intro he
      rw [← he] at hni
      rw [hu] at hni
      injection hni with hni
      rw [← hni] at hlt
      rw [hcostdef] at hlt
      exact absurd hlt (not_lt.mpr (le_add_of_nonneg_right h0ed))
    set sti := improveState st u ed ni cost with hsti
    have hordi : HeapOrd sti := improveState_heapOrd hwf hw2 hni hlt hord
    have hpredi : PredOk H sti.info := improveState_pred hwf hni hpred
    have hcpathi : CostIsPath cfg.g s sti.info :=
      improveState_cpath hwf hcpath hu hni hedge hcostdef
    have hpcosti : ParentCostOk cfg.g sti.info :=
      improveState_pcost hwf hpcost hu hni hedge hcostdef hlt h0ed
    have hmaxi : MaxRec cfg.endN sti :=
      maxrec_mono (improveState_mono hwf hni hlt)
        (improveState_maxCost st u ed ni cost) hmax
    have hclosedi : ClosedRel cfg u sti := closedRel_improve hwf hw2 hclosed hni hlt
    have hfrozi : getInfo sti.info u = some ru := by
      rw [hsti, improveState_getInfo_notMem hwf hw2 hni huh hneu]
      exact hu
    have hmemi : u ∉ sti.heap := by
      rw [hsti]
      intro hc
      rcases (improveState_memEq hwf hw2 hni u).mp hc with hc | hc
      · exact huh hc
      · exact hneu hc
    obtain ⟨r2, hr2, _, _, hr2c, _, _⟩ := improveState_endRec st u ed ni _ hwf hni
    have hrbi : getInfo sti.info ed.node = some r2 := by rw [hsti]; exact hr2
    have hr2le : r2.cost ≤ ru.cost + ed.cost := by
      rw [hr2c, hcostdef]
    obtain ⟨hcs, hcases⟩ := afterChange_ok_cases hafter
    rcases hcases with ⟨hnotend, hsteq, _⟩ | ⟨hisend, hsteq, _⟩
    · subst hsteq
      exact ⟨⟨⟨hinv2s, hinv3s⟩, hordi, hpredi, hcpathi, hpcosti, hmaxi⟩, hclosedi,
        hfrozi, hmemi, r2, hrbi, hr2le⟩
    · subst hsteq
      exact ⟨⟨⟨hinv2s, hinv3s⟩, maxUpd_heapOrd hordi, maxUpd_pred hpredi,
        maxUpd_cpath hcpathi, maxUpd_pcost hpcosti,
        maxUpd_maxrec ⟨r2, by rw [← hisend]; exact hrbi, le_of_eq hr2c⟩ hmaxi⟩,
        maxUpd_closedRel hclosedi,
        by rw [maxUpd_info]; exact hfrozi, by rw [maxUpd_heap]; exact hmemi,
        r2, by rw [maxUpd_info]; exact hrbi, hr2le⟩
  · subst hst
    have hnied : ni.cost ≤ ru.cost + ed.cost := not_lt.mp hnlt
    exact ⟨⟨⟨hinv2s, hinv3s⟩, maxUpd_heapOrd hord, maxUpd_pred hpred,
      maxUpd_cpath hcpath, maxUpd_pcost hpcost,
      maxUpd_maxrec ⟨ni, by rw [← hend]; exact hni, hnied⟩ hmax⟩,
      maxUpd_closedRel hclosed,
      by rw [maxUpd_info]; exact hu, by rw [maxUpd_heap]; exact huh,
      ni, by rw [maxUpd_info]; exact hni, hnied⟩
  · subst hst
    exact ⟨⟨⟨hinv2s, hinv3s⟩, hord, hpred, hcpath, hpcost, hmax⟩, hclosed, hu, huh,
      ni, hni, not_lt.mp hnlt⟩

/-- Invariant preservation and accumulated relaxation effects over a whole
neighbor-list prefix. -/
theorem relaxEdges_c1 {cfg : Config} {s : Node} {H : Node → Rat} {u : Node}
    {ru : NodeInfo} {es : List Edge} (hg : GraphOk cfg H)
    (hes : cfg.g.neighbors u = .ok es) :
    ∀ {l : List Edge} {st st2 : AState} {pp : List PPEv} {cs : List GCall},
    C1Inv cfg s H st → ClosedRel cfg u st → getInfo st.info u = some ru →
    u ∉ st.heap → (∀ e ∈ l, e ∈ es) →
    relaxEdges cfg u st l = (.ok st2, pp, cs) →
    C1Inv cfg s H st2 ∧ ClosedRel cfg u st2 ∧ getInfo st2.info u = some ru ∧
      u ∉ st2.heap ∧ InfoMono st.info st2.info ∧
      ∀ e ∈ l, ∃ rb, getInfo st2.info e.node = some rb ∧
        rb.cost ≤ ru.cost + e.cost := by
  intro l
  induction l with
  | nil =>
    intro st st2 pp cs hc1 hcl hu huh hsub h
    unfold relaxEdges at h
    injection h with h1 h23
    injection h1 with h1
    rw [← h1]
    exact ⟨hc1, hcl, hu, huh, infoMono_refl _,
      fun e he => absurd he (List.not_mem_nil e)⟩
  | cons e rest ih =>
    intro st st2 pp cs hc1 hcl hu huh hsub h
    unfold relaxEdges at h
    cases hra : relaxEdge cfg u st e with
    | mk out1 ppcs1 =>
      obtain ⟨pp1, cs1⟩ := ppcs1
      rw [hra] at h
      cases out1 with
      | ok st1 =>
        dsimp only at h
        cases hrr : relaxEdges cfg u st1 rest with
        | mk out2 ppcs2 =>
          obtain ⟨pp2, cs2⟩ := ppcs2
          rw [hrr] at h
          dsimp only at h
          injection h with h1 h23
          obtain ⟨hc1a, hcla, hua, huha, rb, hrb, hrble⟩ :=
            relaxEdge_c1 hg hc1 hcl hu huh hes (hsub e (by simp)) hra
          obtain ⟨hc1b, hclb, hub, huhb, hmono, heff⟩ :=
            ih hc1a hcla hua huha (fun x hx => hsub x (by simp [hx]))
              (show relaxEdges cfg u st1 rest = (.ok st2, pp2, cs2) by rw [hrr, h1])
          refine ⟨hc1b, hclb, hub, huhb,
            infoMono_trans (relaxEdge_ok_mono hc1.1.1.1 hra) hmono, ?_⟩
          intro x hx
          rcases List.mem_cons.mp hx with hx | hx
          · subst hx
            obtain ⟨rb2, hrb2, hle2⟩ := hmono x.node rb hrb
            exact ⟨rb2, hrb2, le_trans hle2 hrble⟩
          · exact heff x hx
      | fail er =>
        dsimp only at h
        injection h with h1 h23
        cases h1
      | hang =>
        dsimp only at h
        injection h with h1 h23
        cases h1

/-- Extraction transfers all optimality invariants and yields the min-key
property of the popped record. -/
theorem popBest_c1 {cfg : Config} {s : Node} {H : Node → Rat} {st : AState}
    {cur : NodeInfo} {stp : AState} (hc1 : C1Inv cfg s H st)
    (hpop : popBest st = some (cur, stp)) :
    C1Inv cfg s H stp ∧ getInfo stp.info cur.node = some cur ∧
      cur.node ∉ stp.heap ∧
      ∀ m ∈ st.heap, cur.cost + cur.predictedCost ≤ heapKey st m := by
  obtain ⟨⟨hinv2, hinv3⟩, hord, hpred, hcpath, hpcost, hmax⟩ := hc1
  have hwf := hinv2.1
  have hw := hinv2.2.1
  obtain ⟨hinv2p, hcur, hixm⟩ := popBest_inv2 hinv2 hpop
  have hinv3p := popBest_inv3 hinv3 hpop
  obtain ⟨hordp, hmin, hnm⟩ := popBest_ord hwf hw hord hpop
  have hcores := popBest_cores hpop
  exact ⟨⟨⟨hinv2p, hinv3p⟩, hordp, SameCores.pred hcores hpred,
    SameCores.cpath hcores hcpath, SameCores.pcost hcores hpcost,
    maxrec_mono (SameCores.infoMono hcores) (popBest_maxCost hpop) hmax⟩,
    hcur, hnm, hmin⟩

/-- After a pop, the popped node becomes the admissible exception of the
closed-relaxation invariant. -/
theorem popBest_closedRel {cfg : Config} {st : AState} {cur : NodeInfo}
    {stp : AState} (hwf : WfInfo st.info) (hw : WfIdx st) (h3 : Inv3 st)
    (hcl : ClosedRel cfg (-1) st) (hpop : popBest st = some (cur, stp)) :
    ClosedRel cfg cur.node stp := by
  intro n r hr hmem hnu hlt es hes ed hed
  have hcores := popBest_cores hpop
  obtain ⟨r0, hr0, hc0, _, _, _⟩ := core_eq_some ((hcores n).symm) hr
  have hn1 : n ≠ -1 := by
    intro he
    rw [he, h3.2.2.2] at hr0
    cases hr0
  have hmem0 : n ∉ st.heap := by
    intro hx
    rcases (popBest_memEq hwf hw hpop n).mp hx with hx | hx
    · exact hmem hx
    · exact hnu hx
  have hlt0 : ltMax r0.cost st.maxCost := by
    rw [hc0, ← popBest_maxCost hpop]
    exact hlt
  obtain ⟨rb, hrb, hble⟩ := hcl n r0 hr0 hmem0 hn1 hlt0 es hes ed hed
  obtain ⟨rb2, hrb2, hcb, _, _, _⟩ := core_eq_some (hcores ed.node) hrb
  refine ⟨rb2, hrb2, ?_⟩
  rw [hcb, ← hc0]
  exact hble

/-- One continuing iteration preserves the full optimality invariant with
the boundary exception `-1` (never a recorded node). -/
theorem step_cont_c1 {cfg : Config} {s : Node} {H : Node → Rat} {st st1 : AState}
    {tr : Trace} (hg : GraphOk cfg H) (hc1 : C1Inv cfg s H st)
    (hcl : ClosedRel cfg (-1) st) (h : step cfg st = (.cont st1, tr)) :
    C1Inv cfg s H st1 ∧ ClosedRel cfg (-1) st1 := by
  obtain ⟨cur, stp, hpop, hend, hcase⟩ := step_cont_cases h
  have hwf : WfInfo st.info := hc1.1.1.1
  have hw : WfIdx st := hc1.1.1.2.1
  have h3 : Inv3 st := hc1.1.2
  obtain ⟨hc1p, hcur, hnotmem, hmin⟩ := popBest_c1 hc1 hpop
  have hclp : ClosedRel cfg cur.node stp := popBest_closedRel hwf hw h3 hcl hpop
  rcases hcase with ⟨hge, hst1, _⟩ | ⟨hnge, es, pp, cs, hes, hrelax, _⟩
  · subst hst1
    refine ⟨hc1p, ?_⟩
    intro n r hr hmem hn1 hlt es hes ed hed
    by_cases hncur : n = cur.node
    · subst hncur
      rw [hcur] at hr
      injection hr with hr
      rw [← hr] at hlt
      exact absurd hlt (geMax_not_ltMax hge)
    · exact hclp n r hr hmem hncur hlt es hes ed hed
  · obtain ⟨hc1b, hclb, hub, huhb, hmono, heff⟩ :=
      relaxEdges_c1 hg hes hc1p hclp hcur hnotmem (fun e he => he) hrelax
    refine ⟨hc1b, ?_⟩
    intro n r hr hmem hn1 hlt es2 hes2 ed hed
    by_cases hncur : n = cur.node
    · subst hncur
      rw [hub] at hr
      injection hr with hr
      rw [hes] at hes2
      injection hes2 with hes2
      subst hes2
      obtain ⟨rb, hrb, hble⟩ := heff ed hed
      exact ⟨rb, hrb, by rw [← hr]; exact hble⟩
    · exact hclb n r hr hmem hncur hlt es2 hes2 ed hed

/-- Telescoped consistency: the heuristic under-estimates every valid path's
cost. -/
theorem pathTo_heur_le {g : Graph} {H : Node → Rat}
    (hcons : ∀ a es, g.neighbors a = .ok es → ∀ ed ∈ es, H a ≤ ed.cost + H ed.node) :
    ∀ {a t : Node} {q : List Node} {c : Rat}, PathTo g a t q c → H a ≤ c + H t := by
  intro a t q c h
  induction h with
  | nil a => exact le_of_eq (zero_add (H a)).symm
  | cons a b t w p c h1 h2 ih =>
    obtain ⟨es, hes, hmem⟩ := h1
    have h1b := hcons a es hes ⟨b, w⟩ hmem
    calc H a ≤ w + H b := h1b
      _ ≤ w + (c + H t) := add_le_add_left ih w
      _ = (w + c) + H t := (add_assoc w c (H t)).symm

/-- All optimality invariants hold at the initial state, with the boundary
exception `-1` and the zero-cost start record. -/
theorem c1_initState (cfg : Config) (H : Node → Rat) (s : Node) (hs : s ≠ -1) :
    C1Inv cfg s H (initState (H s) s) ∧ ClosedRel cfg (-1) (initState (H s) s) ∧
      ∃ rs, getInfo (initState (H s) s).info s = some rs ∧ rs.cost ≤ 0 := by
  have hinv2 : Inv2 cfg s (initState (H s) s) :=
    inv2_initState cfg.g cfg.endN cfg.hasDebug cfg.hasPossible (H s) s
  have hinv3 : Inv3 (initState (H s) s) := inv3_initState (H s) s hs
  have hord : HeapOrd (initState (H s) s) := by
    rw [initState_eq]
    intro k hk0 hk
    simp only [List.length_cons, List.length_nil] at hk
    omega
  have hpred : PredOk H (initState (H s) s).info := by
    rw [initState_eq]
    intro n r hr
    unfold getInfo at hr
    by_cases hsn : s = n
    · subst hsn
      rw [if_pos rfl] at hr
      injection hr with hr
      rw [← hr]
    · rw [if_neg hsn] at hr
      exact absurd hr (by simp [getInfo])
  have hcpath : CostIsPath cfg.g s (initState (H s) s).info := by
    rw [initState_eq]
    intro n r hr
    unfold getInfo at hr
    by_cases hsn : s = n
    · subst hsn
      rw [if_pos rfl] at hr
      injection hr with hr
      refine ⟨[s], ?_⟩
      rw [← hr]
      exact PathTo.nil s
    · rw [if_neg hsn] at hr
      exact absurd hr (by simp [getInfo])
  have hpcost : ParentCostOk cfg.g (initState (H s) s).info := by
    rw [initState_eq]
    intro n r hr rp hrp
    unfold getInfo at hr
    by_cases hsn : s = n
    · subst hsn
      rw [if_pos rfl] at hr
      injection hr with hr
      rw [← hr] at hrp
      unfold getInfo at hrp
      rw [if_neg hs] at hrp
      exact absurd hrp (by simp [getInfo])
    · rw [if_neg hsn] at hr
      exact absurd hr (by simp [getInfo])
  have hmaxr : MaxRec cfg.endN (initState (H s) s) := by
    rw [initState_eq]
    intro m hm
    cases hm
  have hcl : ClosedRel cfg (-1) (initState (H s) s) := by
    intro n r hr hmem hn1 hlt es hes ed hed
    rw [initState_eq] at hr
    unfold getInfo at hr
    by_cases hsn : s = n
    · subst hsn
      refine absurd ?_ hmem
      rw [initState_eq]
      exact List.mem_singleton.mpr rfl
    · rw [if_neg hsn] at hr
      exact absurd hr (by simp [getInfo])
  refine ⟨⟨⟨hinv2, hinv3⟩, hord, hpred, hcpath, hpcost, hmaxr⟩, hcl,
    ⟨s, -1, 0, 0, H s, 0⟩, ?_, le_refl 0⟩
  rw [initState_eq]
  unfold getInfo
  rw [if_pos rfl]

/-- The heart of the optimality argument: at the moment the goal's record
has minimal key among the open nodes, every suffix of a valid start-to-goal
path whose head carries a record of cost at most `D` bounds the goal
record's cost by `D` plus the suffix cost. -/
theorem found_cost_le {cfg : Config} {s : Node} {H : Node → Rat} {st : AState}
    {re : NodeInfo} (hg : GraphOk cfg H)
    (hcons : ∀ a es, cfg.g.neighbors a = .ok es → ∀ ed ∈ es,
      H a ≤ ed.cost + H ed.node)
    (hHe : H cfg.endN = 0) (hc1 : C1Inv cfg s H st) (hcl : ClosedRel cfg (-1) st)
    (hre : getInfo st.info cfg.endN = some re)
    (hmin : ∀ m ∈ st.heap, re.cost + re.predictedCost ≤ heapKey st m) :
    ∀ {a t : Node} {q : List Node} {c : Rat}, PathTo cfg.g a t q c →
      t = cfg.endN → ∀ D ra, getInfo st.info a = some ra → ra.cost ≤ D →
      re.cost ≤ D + c := by
  obtain ⟨⟨hinv2, hinv3⟩, hord, hpred, hcpath, hpcost, hmax⟩ := hc1
  have hre0 : re.predictedCost = 0 := by rw [hpred cfg.endN re hre, hHe]
  intro a t q c hpath
  induction hpath with
  | nil a =>
    intro ht D ra hra hD
    rw [ht, hre] at hra
    injection hra with hra
    rw [add_zero, hra]
    exact hD
  | cons a b t w qq c h1 h2 ih =>
    intro ht D ra hra hD
    by_cases hmem : a ∈ st.heap
    · have hkey : heapKey st a = ra.cost + ra.predictedCost := by
        unfold heapKey
        rw [hra]
      have hpa : ra.predictedCost = H a := hpred a ra hra
      have hha : H a ≤ (w + c) + H t :=
        pathTo_heur_le hcons (PathTo.cons a b t w qq c h1 h2)
      rw [ht, hHe, add_zero] at hha
      have hm2 := hmin a hmem
      rw [hkey, hre0, add_zero, hpa] at hm2
      calc re.cost ≤ ra.cost + H a := hm2
        _ ≤ D + (w + c) := add_le_add hD hha
    · by_cases hltm : ltMax ra.cost st.maxCost
      · have han1 : a ≠ -1 := by
          intro he
          rw [he, hinv3.2.2.2] at hra
          cases hra
        obtain ⟨es, hes, hmemb⟩ := h1
        obtain ⟨rb, hrb, hble⟩ := hcl a ra hra hmem han1 hltm es hes ⟨b, w⟩ hmemb
        have hrec := ih ht (D + w) rb hrb
          (le_trans hble (add_le_add_right hD w))
        rw [add_assoc] at hrec
        exact hrec
      · cases hmc : st.maxCost with
        | none =>
          rw [hmc] at hltm
          exact absurd True.intro hltm
        | some m =>
          rw [hmc] at hltm
          have hmle : m ≤ ra.cost := not_lt.mp (fun hc => hltm hc)
          obtain ⟨re2, hre2, hrle⟩ := hmax m hmc
          rw [hre] at hre2
          injection hre2 with hre2
          have h0c : 0 ≤ w + c := pathTo_nonneg
            (fun n es hes ed hed => (hg.1 n es hes ed hed).1)
            (PathTo.cons a b t w qq c h1 h2)
          calc re.cost = re2.cost := by rw [hre2]
            _ ≤ m := hrle
            _ ≤ ra.cost := hmle
            _ ≤ D := hD
            _ ≤ D + (w + c) := le_add_of_nonneg_right h0c

/-- The backward walk reconstructs a valid path from the start whose total
cost is at most the walked record's stored cost. -/
theorem pathToNodeAux_cost {g : Graph} {s : Node} {info : List (Node × NodeInfo)}
    (hwf : WfInfo info) (hpo : ParentOk g s info) (hpc : ParentCostOk g info)
    (hcp : CostIsPath g s info)
    (hnn : ∀ n es, g.neighbors n = .ok es → ∀ ed ∈ es, 0 ≤ ed.cost) :
    ∀ (fuel : Nat) (r : NodeInfo) (acc p : List Node),
      getInfo info r.node = some r →
      pathToNodeAux info fuel r acc = some p →
      ∃ q c, p = q ++ acc ∧ PathTo g s r.node q c ∧ c ≤ r.cost := by
  intro fuel
  induction fuel with
  | zero =>
    intro r acc p hr h
    unfold pathToNodeAux at h
    cases h
  | succ n ih =>
    intro r acc p hr h
    unfold pathToNodeAux at h
    cases hp : getInfo info r.parent with
    | none =>
      rw [hp] at h
      injection h with h
      rcases hpo r.node r hr with ⟨hns, _⟩ | ⟨hps, _⟩
      · refine ⟨[r.node], 0, by rw [← h]; rfl, ?_, ?_⟩
        · rw [hns]
          exact PathTo.nil s
        · obtain ⟨q0, hq0⟩ := hcp r.node r hr
          exact pathTo_nonneg hnn hq0
      · rw [hp] at hps
        cases hps
    | some r2 =>
      rw [hp] at h
      have hr2n : r2.node = r.parent := hwf r.parent r2 hp
      have hr2 : getInfo info r2.node = some r2 := by rw [hr2n]; exact hp
      obtain ⟨q, c, hpe, hpt, hcle⟩ := ih r2 (r.node :: acc) p hr2 h
      obtain ⟨w, hrep, hwle⟩ := hpc r.node r hr r2 hp
      rw [← hr2n] at hrep
      refine ⟨q ++ [r.node], c + w, ?_, hpt.snoc hrep, ?_⟩
      · rw [hpe, List.append_assoc, List.singleton_append]
      · calc c + w ≤ r2.cost + w := add_le_add_right hcle w
          _ ≤ r.cost := hwle

theorem expand_not_found {cfg : Config} {cur : NodeInfo} {st1 : AState}
    {p : List Node} {pp : List PPEv} {cs : List GCall}
    (h : expand cfg cur st1 = (.stop (.found p), pp, cs)) : False := by
  unfold expand at h
  cases hnb : cfg.g.neighbors cur.node with
  | error e =>
    simp only [hnb] at h
    injection h with h1 h2
    injection h1 with h1
    cases h1
  | ok es =>
    simp only [hnb] at h
    cases hrel : relaxEdges cfg cur.node st1 es with
    | mk out ppcs =>
      obtain ⟨pp2, cs2⟩ := ppcs
      simp only [hrel] at h
      cases out with
      | ok st2 =>
        injection h with h1 h2
        cases h1
      | fail e =>
        injection h with h1 h2
        injection h1 with h1
        cases h1
      | hang =>
        injection h with h1 h2
        injection h1 with h1
        cases h1

/-- A `found` verdict comes from popping the goal node and reconstructing
its path. -/
theorem step_found_cases {cfg : Config} {st : AState} {p : List Node} {tr : Trace}
    (h : step cfg st = (.stop (.found p), tr)) :
    ∃ cur stp, popBest st = some (cur, stp) ∧ cur.node = cfg.endN ∧
      pathToNode stp cur = some p := by
  unfold step at h
  cases hpop : popBest st with
  | none =>
    simp only [hpop] at h
    injection h with h1 h2
    injection h1 with h1
    cases h1
  | some pr =>
    obtain ⟨cur, stp⟩ := pr
    simp only [hpop] at h
    by_cases hend : cur.node = cfg.endN
    · rw [if_pos hend] at h
      cases hpath : pathToNode stp cur with
      | none =>
        simp only [hpath] at h
        injection h with h1 h2
        injection h1 with h1
        cases h1
      | some p2 =>
        simp only [hpath] at h
        injection h with h1 h2
        injection h1 with h1
        injection h1 with h1
        exact ⟨cur, stp, rfl, hend, by rw [hpath, h1]⟩
    · rw [if_neg hend] at h
      by_cases hge : geMax cur.cost stp.maxCost
      · rw [if_pos hge] at h
        injection h with h1 h2
        cases h1
      · rw [if_neg hge] at h
        cases hex : expand cfg cur stp with
        | mk res ppcs =>
          obtain ⟨pp, cs⟩ := ppcs
          simp only [hex] at h
          cases res with
          | cont st2 =>
            injection h with h1 h2
            cases h1
          | stop r =>
            injection h with h1 h2
            injection h1 with h1
            exact absurd (h1 ▸ hex) (fun hc => expand_not_found hc)

/-- Running the loop from an invariant state to a `found` verdict reaches a
state that still satisfies all optimality invariants and pops the goal. -/
theorem loop_found_c1 {cfg : Config} {s : Node} {H : Node → Rat}
    (hg : GraphOk cfg H) :
    ∀ {fuel : Nat} {st : AState} {p : List Node} {tr : Trace},
    C1Inv cfg s H st → ClosedRel cfg (-1) st →
    (∃ rs, getInfo st.info s = some rs ∧ rs.cost ≤ 0) →
    loop cfg fuel st = (.found p, tr) →
    ∃ st2 cur stp, C1Inv cfg s H st2 ∧ ClosedRel cfg (-1) st2 ∧
      (∃ rs, getInfo st2.info s = some rs ∧ rs.cost ≤ 0) ∧
      popBest st2 = some (cur, stp) ∧ cur.node = cfg.endN ∧
      pathToNode stp cur = some p := by
  intro fuel
  induction fuel with
  | zero =>
    intro st p tr _ _ _ h
    unfold loop at h
    injection h with h1 h2
    cases h1
  | succ n ih =>
    intro st p tr hc1 hcl hrs h
    unfold loop at h
    cases hs : step cfg st with
    | mk res tr1 =>
      rw [hs] at h
      cases res with
      | stop r =>
        dsimp only at h
        injection h with h1 h2
        subst h1
        obtain ⟨cur, stp, hpop, hend, hpath⟩ := step_found_cases hs
        exact ⟨st, cur, stp, hc1, hcl, hrs, hpop, hend, hpath⟩
      | cont st1 =>
        dsimp only at h
        cases hl : loop cfg n st1 with
        | mk r2 tr2 =>
          rw [hl] at h
          dsimp only at h
          injection h with h1 h2
          obtain ⟨hc1b, hclb⟩ := step_cont_c1 hg hc1 hcl hs
          obtain ⟨rs, hrs1, hrs2⟩ := hrs
          obtain ⟨hmono, _⟩ := step_cont_mono_wf hc1.1.1.1 hs
          obtain ⟨rs2, hrs1b, hrs2b⟩ := hmono s rs hrs1
          exact ih hc1b hclb ⟨rs2, hrs1b, le_trans hrs2b hrs2⟩
            (by rw [hl, h1])

/-! ### Claim C1: optimality of the returned path -/

/-- The graph of the C1 counterexample: all edge costs are non-negative and
the zero heuristic is admissible and consistent, but the cheap route runs
through the node −1, which collides with the parent sentinel. -/
def gC1 : Graph :=
  ⟨fun n => if n = 0 then .ok [⟨-1, 0⟩, ⟨9, 10⟩]
    else if n = -1 then .ok [⟨9, 1⟩] else .ok [],
    fun _ _ => .ok 0⟩

/-- Claim C1 (amended): on a graph with non-negative edge costs, no edge
into −1, a start node other than −1, a total heuristic `H` that is
consistent and zero at the goal, any path returned by `FindPath` is a valid
start-to-goal path whose total cost is the optimum. -/
theorem claim_C1 (g : Graph) (hd hp : Bool) (fuel : Nat) (s e : Node)
    (H : Node → Rat) (hs : s ≠ -1)
    (hcond : ∀ n es, g.neighbors n = .ok es → ∀ ed ∈ es, 0 ≤ ed.cost ∧ ed.node ≠ -1)
    (hheur : ∀ n, g.heuristicCost n e = .ok (H n)) (hHe : H e = 0)
    (hcons : ∀ a es, g.neighbors a = .ok es → ∀ ed ∈ es, H a ≤ ed.cost + H ed.node)
    (P : List Node) (opt : Rat) (hP : PathTo g s e P opt)
    (hmin : ∀ q c, PathTo g s e q c → opt ≤ c)
    (p : List Node) (hfound : FindPath g hd hp fuel s e = .found p) :
    PathTo g s e p opt := by
  have hgOk : GraphOk ⟨g, e, hd, hp⟩ H := ⟨hcond, hheur⟩
  unfold FindPath findPathT at hfound
  rw [hheur s] at hfound
  dsimp only at hfound
  cases hl : loop ⟨g, e, hd, hp⟩ fuel (initState (H s) s) with
  | mk r tr =>
    rw [hl] at hfound
    dsimp only at hfound
    obtain ⟨hc1, hcl, hrs⟩ := c1_initState ⟨g, e, hd, hp⟩ H s hs
    obtain ⟨st2, cur, stp, hc1b, hclb, hrsb, hpop, hend, hpath⟩ :=
      loop_found_c1 hgOk hc1 hcl hrs (show loop ⟨g, e, hd, hp⟩ fuel
        (initState (H s) s) = (.found p, tr) from by rw [hl, hfound])
    obtain ⟨hc1p, hcurp, hnm, hmin2⟩ := popBest_c1 hc1b hpop
    have hcores := popBest_cores hpop
    obtain ⟨re, hre, hrecost, _, _, hrepred⟩ :=
      core_eq_some ((hcores cur.node).symm) hcurp
    rw [hend] at hre
    have hminre : ∀ m ∈ st2.heap, re.cost + re.predictedCost ≤ heapKey st2 m := by
      intro m hm
      rw [hrecost, hrepred]
      exact hmin2 m hm
    obtain ⟨rs, hrs1, hrs2⟩ := hrsb
    have hbound : re.cost ≤ 0 + opt :=
      found_cost_le hgOk hcons hHe hc1b hclb hre hminre hP rfl 0 rs hrs1 hrs2
    rw [zero_add, hrecost] at hbound
    have hwfp : WfInfo stp.info := hc1p.1.1.1
    have hpop2 : ParentOk g s stp.info := hc1p.1.1.2.2
    have hpcp : ParentCostOk g stp.info := hc1p.2.2.2.2.1
    have hcpp : CostIsPath g s stp.info := hc1p.2.2.2.1
    have hnn : ∀ n es, g.neighbors n = .ok es → ∀ ed ∈ es, 0 ≤ ed.cost :=
      fun n es hes ed hed => (hcond n es hes ed hed).1
    unfold pathToNode at hpath
    obtain ⟨q, c, hpe, hpt, hcle⟩ :=
      pathToNodeAux_cost hwfp hpop2 hpcp hcpp hnn _ cur [] p hcurp hpath
    rw [List.append_nil] at hpe
    subst hpe
    rw [hend] at hpt
    have hcopt : c ≤ opt := le_trans hcle hbound
    have hco : c = opt := le_antisymm hcopt (hmin p c hpt)
    rw [← hco]
    exact hpt

/-- Claim C1 counterexample: `gC1` satisfies every hypothesis of the claim
as stated — non-negative edge costs, a total, admissible and consistent
heuristic (identically zero) — yet `FindPath` returns the path `[0, 9]`,
whose total cost is 10, while the valid path `[0, -1, 9]` costs 1: the
returned cost is not the shortest-path cost.  The cheap route's first hop
targets the node −1, which the relaxation loop skips because it equals the
start record's parent sentinel. -/
theorem claim_C1_counterexample :
    (∀ n es, gC1.neighbors n = .ok es → ∀ ed ∈ es, 0 ≤ ed.cost) ∧
    (∀ n, gC1.heuristicCost n 9 = .ok 0) ∧
    (∀ n es, gC1.neighbors n = .ok es → ∀ ed ∈ es, (0 : Rat) ≤ ed.cost + 0) ∧
    FindPath gC1 false false 6 0 9 = .found [0, 9] ∧
    (∀ c, PathTo gC1 0 9 [0, 9] c → c = 10) ∧
    PathTo gC1 0 9 [0, -1, 9] 1 ∧ (1 : Rat) < 10 := by
  have hA : ∀ n es, gC1.neighbors n = .ok es → ∀ ed ∈ es, 0 ≤ ed.cost := by
    intro n es hes ed hed
    unfold gC1 at hes
    dsimp only at hes
    by_cases h0 : n = 0
    · rw [if_pos h0] at hes
      injection hes with hes
      rw [← hes] at hed
      simp only [List.mem_cons, List.not_mem_nil, or_false] at hed
      rcases hed with hed | hed
      · rw [hed]
      · rw [hed]
        decide
    · rw [if_neg h0] at hes
      by_cases h1 : n = -1
      · rw [if_pos h1] at hes
        injection hes with hes
        rw [← hes] at hed
        simp only [List.mem_cons, List.not_mem_nil, or_false] at hed
        rw [hed]
        decide
      · rw [if_neg h1] at hes
        injection hes with hes
        rw [← hes] at hed
        cases hed
  refine ⟨hA, fun n => rfl, ?_, by decide, ?_, ?_, by decide⟩
  · intro n es hes ed hed
    rw [add_zero]
    exact hA n es hes ed hed
  · intro c h
    cases h with
    | cons a b t w p c2 h1 h2 =>
      cases h2 with
      | nil _ =>
        obtain ⟨es, hes, hmem⟩ := h1
        have hns : gC1.neighbors 0 = Except.ok [(⟨-1, 0⟩ : Edge), ⟨9, 10⟩] := rfl
        rw [hns] at hes
        injection hes with hes
        rw [← hes] at hmem
        simp only [List.mem_cons, List.not_mem_nil, or_false] at hmem
        rcases hmem with hmem | hmem
        · injection hmem with hn hw
          exact absurd hn (by decide)
        · injection hmem with hn hw
          rw [hw]
          decide
      | cons a2 b2 t2 w2 p2 c3 h1b h2b => cases h2b
  · have e1 : ReportsEdge gC1 0 (-1) 0 :=
      ⟨[⟨-1, 0⟩, ⟨9, 10⟩], rfl, List.mem_cons_self _ _⟩
    have e2 : ReportsEdge gC1 (-1) 9 1 :=
      ⟨[⟨9, 1⟩], rfl, List.mem_cons_self _ _⟩
    have h2 : PathTo gC1 (-1) 9 [-1, 9] (1 + 0) :=
      PathTo.cons (-1) 9 9 1 [9] 0 e2 (PathTo.nil 9)
    have h1 : PathTo gC1 0 9 [0, -1, 9] (0 + (1 + 0)) :=
      PathTo.cons 0 (-1) 9 0 [-1, 9] (1 + 0) e1 h2
    have he : (0 : Rat) + (1 + 0) = 1 := by norm_num
    rw [← he]
    exact h1

/-- Witness: on the empty graph with the zero heuristic, `claim_C1` applies
with start = end = 0 and yields the optimal single-node path. -/
theorem claim_C1_witness : PathTo gEmpty 0 0 [0] 0 :=
  claim_C1 gEmpty false false 1 0 0 (fun _ => 0) (by decide)
    (by intro n es hes ed hed; injection hes with h; rw [← h] at hed; cases hed)
    (fun n => rfl) rfl
    (by intro a es hes ed hed; injection hes with h; rw [← h] at hed; cases hed)
    [0] 0 (PathTo.nil 0)
    (fun q c h => pathTo_nonneg
      (by intro n es hes ed hed; injection hes with h2; rw [← h2] at hed; cases hed) h)
    [0] (by decide)

/-! ### Claim C7: termination on finite graphs -/

/-- The costs of the edges reported at `n` (empty on a failing call). -/
def edgeWeights (g : Graph) (n : Node) : List Rat :=
  match g.neighbors n with
  | .ok es => es.map Edge.cost
  | .error _ => []

/-- All edge costs reported from a node list. -/
def weightsOf (g : Graph) : List Node → List Rat
  | [] => []
  | n :: rest => edgeWeights g n ++ weightsOf g rest

/-- All sums of sub-multisets of `ws` taking each position at most once. -/
def subSums : List Rat → Finset Rat
  | [] => {0}
  | w :: ws => subSums ws ∪ (subSums ws).image (fun c => w + c)

theorem zero_mem_subSums : ∀ ws : List Rat, (0 : Rat) ∈ subSums ws := by
  intro ws
  induction ws with
  | nil => simp [subSums]
  | cons w rest ih =>
    unfold subSums
    exact Finset.mem_union_left _ ih

theorem subSums_sublist : ∀ {ws ws' : List Rat}, List.Sublist ws ws' →
    subSums ws ⊆ subSums ws' := by
  intro ws ws' h
  induction h with
  | slnil => exact Finset.Subset.refl _
  | cons w h ih =>
    intro c hc
    exact Finset.mem_union_left _ (ih hc)
  | cons₂ w h ih =>
    intro c hc
    unfold subSums at hc ⊢
    rcases Finset.mem_union.mp hc with hc | hc
    · exact Finset.mem_union_left _ (ih hc)
    · obtain ⟨c2, hc2, he⟩ := Finset.mem_image.mp hc
      exact Finset.mem_union_right _
        (Finset.mem_image.mpr ⟨c2, ih hc2, he⟩)

theorem subSums_insert_mid : ∀ (ws1 : List Rat) {ws2 : List Rat} {w c : Rat},
    c ∈ subSums (ws1 ++ ws2) → w + c ∈ subSums (ws1 ++ w :: ws2) := by
  intro ws1
  induction ws1 with
  | nil =>
    intro ws2 w c hc
    exact Finset.mem_union_right _ (Finset.mem_image.mpr ⟨c, hc, rfl⟩)
  | cons u rest ih =>
    intro ws2 w c hc
    rw [List.cons_append] at hc ⊢
    unfold subSums at hc ⊢
    rcases Finset.mem_union.mp hc with hc | hc
    · exact Finset.mem_union_left _ (ih hc)
    · obtain ⟨c2, hc2, he⟩ := Finset.mem_image.mp hc
      refine Finset.mem_union_right _ (Finset.mem_image.mpr ⟨w + c2, ih hc2, ?_⟩)
      rw [← he]
      ring

/-- Inserting the weights of a fresh source node: a sum over the remaining
sources extended by one of `a`'s edge costs is a sum over all sources. -/
theorem subSums_add_source {g : Graph} : ∀ (V : List Node) (pre : List Rat)
    {a : Node} {w c : Rat}, a ∈ V → w ∈ edgeWeights g a →
    c ∈ subSums (pre ++ weightsOf g (V.erase a)) →
    w + c ∈ subSums (pre ++ weightsOf g V) := by
  intro V
  induction V with
  | nil =>
    intro pre a w c ha _ _
    cases ha
  | cons x rest ih =>
    intro pre a w c ha hw hc
    by_cases hxa : x = a
    · subst hxa
      rw [List.erase_cons_head] at hc
      obtain ⟨s1, s2, hsplit⟩ := List.append_of_mem hw
      show w + c ∈ subSums (pre ++ (edgeWeights g x ++ weightsOf g rest))
      rw [hsplit]
      have hsub : List.Sublist (pre ++ weightsOf g rest)
          ((pre ++ s1) ++ (s2 ++ weightsOf g rest)) := by
        rw [List.append_assoc]
        refine (List.Sublist.refl pre).append ?_
        have h1 : List.Sublist (weightsOf g rest) (s2 ++ weightsOf g rest) :=
          List.sublist_append_right s2 _
        exact h1.trans (List.sublist_append_right s1 _)
      have hc2 : c ∈ subSums ((pre ++ s1) ++ (s2 ++ weightsOf g rest)) :=
        subSums_sublist hsub hc
      have hins := @subSums_insert_mid (pre ++ s1) (s2 ++ weightsOf g rest) w c hc2
      rw [show pre ++ ((s1 ++ w :: s2) ++ weightsOf g rest) =
        (pre ++ s1) ++ w :: (s2 ++ weightsOf g rest) by
          simp [List.append_assoc]]
      exact hins
    · have ha2 : a ∈ rest := by
        rcases List.mem_cons.mp ha with h | h
        · exact absurd h.symm hxa
        · exact h
      have herase : (x :: rest).erase a = x :: rest.erase a :=
        List.erase_cons_tail (by simp [hxa])
      rw [herase] at hc
      have hc3 : c ∈ subSums ((pre ++ edgeWeights g x) ++ weightsOf g (rest.erase a)) := by
        rw [List.append_assoc]
        exact hc
      have hgoal := ih (pre ++ edgeWeights g x) ha2 hw hc3
      show w + c ∈ subSums (pre ++ (edgeWeights g x ++ weightsOf g rest))
      rw [← List.append_assoc]
      exact hgoal

/-- A dominated path: a start-to-`t` walk with pairwise distinct nodes in
which every node before the endpoint carries a record whose cost is at most
the cost of the walk up to it (and hence at most the whole walk's cost, for
non-negative weights).  This is the shape of the paths that witness record
costs during the search. -/
inductive Dom (g : Graph) (info : List (Node × NodeInfo)) (s : Node) :
    Node → List Node → Rat → Prop
  | base : Dom g info s s [s] 0
  | snoc (t : Node) (p : List Node) (c : Rat) (b : Node) (w : Rat)
      (h : Dom g info s t p c) (he : ReportsEdge g t b w) (rt : NodeInfo)
      (hrt : getInfo info t = some rt) (hle : rt.cost ≤ c) (hnb : b ∉ p) :
      Dom g info s b (p ++ [b]) (c + w)

theorem dom_last {g : Graph} {info : List (Node × NodeInfo)} {s : Node} :
    ∀ {t : Node} {p : List Node} {c : Rat}, Dom g info s t p c →
    p.getLast? = some t := by
  intro t p c h
  induction h with
  | base => rfl
  | snoc t p c b w h he rt hrt hle hnb ih => exact List.getLast?_concat p

theorem dom_nodup {g : Graph} {info : List (Node × NodeInfo)} {s : Node} :
    ∀ {t : Node} {p : List Node} {c : Rat}, Dom g info s t p c → p.Nodup := by
  intro t p c h
  induction h with
  | base => exact List.nodup_singleton s
  | snoc t p c b w h he rt hrt hle hnb ih =>
    rw [List.nodup_append]
    exact ⟨ih, List.nodup_singleton b, by simp [List.disjoint_left, hnb]⟩

theorem dom_head {g : Graph} {info : List (Node × NodeInfo)} {s : Node} :
    ∀ {t : Node} {p : List Node} {c : Rat}, Dom g info s t p c →
    p.head? = some s := by
  intro t p c h
  induction h with
  | base => rfl
  | snoc t p c b w h he rt hrt hle hnb ih =>
    cases p with
    | nil => cases ih
    | cons x rest => exact ih

theorem dom_mem_V {g : Graph} {s : Node} {V : List Node} (hsV : s ∈ V)
    (hVc : ∀ n ∈ V, ∀ es, g.neighbors n = .ok es → ∀ ed ∈ es, ed.node ∈ V)
    {info : List (Node × NodeInfo)} :
    ∀ {t : Node} {p : List Node} {c : Rat}, Dom g info s t p c →
    ∀ m ∈ p, m ∈ V := by
  intro t p c h
  induction h with
  | base =>
    intro m hm
    rw [List.mem_singleton] at hm
    rw [hm]
    exact hsV
  | snoc t p c b w h he rt hrt hle hnb ih =>
    intro m hm
    rw [List.mem_append, List.mem_singleton] at hm
    rcases hm with hm | hm
    · exact ih m hm
    · obtain ⟨es, hes, hmem⟩ := he
      have ht : t ∈ V := by
        refine ih t ?_
        have := dom_last h
        exact List.mem_of_getLast?_eq_some this
      rw [hm]
      exact hVc t ht es hes ⟨b, w⟩ hmem

theorem dom_pathTo {g : Graph} {info : List (Node × NodeInfo)} {s : Node} :
    ∀ {t : Node} {p : List Node} {c : Rat}, Dom g info s t p c →
    PathTo g s t p c := by
  intro t p c h
  induction h with
  | base => exact PathTo.nil s
  | snoc t p c b w h he rt hrt hle hnb ih => exact ih.snoc he

theorem dom_cost_nonneg {g : Graph}
    (hnn : ∀ n es, g.neighbors n = .ok es → ∀ ed ∈ es, 0 ≤ ed.cost)
    {info : List (Node × NodeInfo)} {s : Node} {t : Node} {p : List Node}
    {c : Rat} (h : Dom g info s t p c) : 0 ≤ c :=
  pathTo_nonneg hnn (dom_pathTo h)

/-- Every node of a dominated path other than the endpoint carries a record
of cost at most the path's total cost. -/
theorem dom_mem_record {g : Graph}
    (hnn : ∀ n es, g.neighbors n = .ok es → ∀ ed ∈ es, 0 ≤ ed.cost)
    {info : List (Node × NodeInfo)} {s : Node} :
    ∀ {t : Node} {p : List Node} {c : Rat}, Dom g info s t p c →
    ∀ m ∈ p, m ≠ t → ∃ rm, getInfo info m = some rm ∧ rm.cost ≤ c := by
  intro t p c h
  induction h with
  | base =>
    intro m hm hne
    rw [List.mem_singleton] at hm
    exact absurd hm hne
  | snoc t p c b w h he rt hrt hle hnb ih =>
    intro m hm hne
    have hw : 0 ≤ w := by
      obtain ⟨es, hes, hmem⟩ := he
      exact hnn t es hes ⟨b, w⟩ hmem
    rw [List.mem_append, List.mem_singleton] at hm
    rcases hm with hm | hm
    · by_cases hmt : m = t
      · subst hmt
        exact ⟨rt, hrt, le_trans hle (le_add_of_nonneg_right hw)⟩
      · obtain ⟨rm, hrm, hrmle⟩ := ih m hm hmt
        exact ⟨rm, hrm, le_trans hrmle (le_add_of_nonneg_right hw)⟩
    · exact absurd hm hne

/-- Dominated paths survive any table change that only lowers record costs. -/
theorem dom_mono {g : Graph} {info info' : List (Node × NodeInfo)}
    (hm : InfoMono info info') {s : Node} :
    ∀ {t : Node} {p : List Node} {c : Rat}, Dom g info s t p c →
    Dom g info' s t p c := by
  intro t p c h
  induction h with
  | base => exact Dom.base
  | snoc t p c b w h he rt hrt hle hnb ih =>
    obtain ⟨rt2, hrt2, hle2⟩ := hm t rt hrt
    exact Dom.snoc t p c b w ih he rt2 hrt2 (le_trans hle2 hle) hnb

/-- The cost of a dominated path all of whose nodes lie in `V` is a subset
sum of the edge costs reported over `V`. -/
theorem dom_cost_mem {g : Graph} {s : Node} {info : List (Node × NodeInfo)} :
    ∀ {t : Node} {p : List Node} {c : Rat}, Dom g info s t p c →
    ∀ {V : List Node}, (∀ m ∈ p.dropLast, m ∈ V) →
    c ∈ subSums (weightsOf g V) := by
  intro t p c h
  induction h with
  | base =>
    intro V _
    exact zero_mem_subSums _
  | snoc t p c b w h he rt hrt hle hnb ih =>
    intro V hV
    rw [List.dropLast_concat] at hV
    have hlast : p.getLast? = some t := dom_last h
    have hpne : p ≠ [] := by
      intro hc
      rw [hc] at hlast
      cases hlast
    have htV : t ∈ V := hV t (List.mem_of_getLast?_eq_some hlast)
    have hnd : p.Nodup := dom_nodup h
    have htdl : t ∉ p.dropLast := by
      intro hc
      have hsplit : p.dropLast ++ [p.getLast hpne] = p :=
        List.dropLast_append_getLast hpne
      have hteq : p.getLast hpne = t := by
        have := List.getLast?_eq_getLast p hpne
        rw [this] at hlast
        injection hlast with h2
      rw [← hsplit, List.nodup_append] at hnd
      rw [hteq] at hnd
      exact (hnd.2.2 hc) (List.mem_singleton.mpr rfl)
    have hdV : ∀ m ∈ p.dropLast, m ∈ V.erase t := by
      intro m hm
      refine List.mem_erase_of_ne ?_ |>.mpr (hV m (List.dropLast_sublist p |>.mem hm))
      intro hc
      rw [hc] at hm
      exact htdl hm
    have hcm : c ∈ subSums (weightsOf g (V.erase t)) := ih hdV
    have hwmem : w ∈ edgeWeights g t := by
      obtain ⟨es, hes, hmem⟩ := he
      unfold edgeWeights
      rw [hes]
      exact List.mem_map.mpr ⟨⟨b, w⟩, hmem, rfl⟩
    have := subSums_add_source V [] htV hwmem (by rw [List.nil_append]; exact hcm)
    rw [List.nil_append] at this
    rw [add_comm c w]
    exact this

/-- Every record's cost is witnessed by a dominated path ending at it. -/
def SimpleCost (g : Graph) (s : Node) (info : List (Node × NodeInfo)) : Prop :=
  ∀ n r, getInfo info n = some r → ∃ p, Dom g info s n p r.cost

/-- Every recorded node lies in the finite universe `V`. -/
def RecIn (V : List Node) (info : List (Node × NodeInfo)) : Prop :=
  ∀ n r, getInfo info n = some r → n ∈ V

/-- The state invariants of the termination proof. -/
def C7Inv (cfg : Config) (s : Node) (V : List Node) (st : AState) : Prop :=
  InvAll cfg s st ∧ SimpleCost cfg.g s st.info ∧ RecIn V st.info

theorem simpleCost_cores {g : Graph} {s : Node} {a b : List (Node × NodeInfo)}
    (h : SameCores a b) (hs : SimpleCost g s a) : SimpleCost g s b := by
  intro n r hr
  obtain ⟨r0, hr0, hc0, _, _, _⟩ := core_eq_some ((h n).symm) hr
  obtain ⟨p, hp⟩ := hs n r0 hr0
  refine ⟨p, ?_⟩
  rw [← hc0]
  exact dom_mono (SameCores.infoMono h) hp

theorem recIn_cores {V : List Node} {a b : List (Node × NodeInfo)}
    (h : SameCores a b) (hs : RecIn V a) : RecIn V b := by
  intro n r hr
  obtain ⟨r0, hr0, _, _, _, _⟩ := core_eq_some ((h n).symm) hr
  exact hs n r0 hr0

theorem recIn_maxUpd {V : List Node} {st : AState} {c : Rat}
    (h : RecIn V st.info) : RecIn V (maxUpd st c).info := by
  rw [maxUpd_info]
  exact h

theorem simpleCost_maxUpd {g : Graph} {s : Node} {st : AState} {c : Rat}
    (h : SimpleCost g s st.info) : SimpleCost g s (maxUpd st c).info := by
  rw [maxUpd_info]
  exact h

/-- Creating a record for a fresh target preserves the dominated-path
witnesses, extending the expanded node's witness by the relaxed edge. -/
theorem createState_simpleCost {g : Graph} {s : Node} {st : AState} {u : Node}
    {ru : NodeInfo} {ed : Edge} {p cost : Rat}
    (hnn : ∀ n es, g.neighbors n = .ok es → ∀ ed2 ∈ es, 0 ≤ ed2.cost)
    (hsc : SimpleCost g s st.info) (hu : getInfo st.info u = some ru)
    (hnone : getInfo st.info ed.node = none)
    (hedge : ReportsEdge g u ed.node ed.cost) (hcost : cost = ru.cost + ed.cost) :
    SimpleCost g s (createState st u ed p cost).info := by
  subst hcost
  have hmono : InfoMono st.info (createState st u ed p (ru.cost + ed.cost)).info :=
    createState_mono hnone
  intro n r hr
  by_cases hn : n = ed.node
  · subst hn
    obtain ⟨r2, hr2, _, _, hr2c, _, _⟩ := createState_endRec st u ed p _
    rw [hr2] at hr
    injection hr with hr
    obtain ⟨P, hP⟩ := hsc u ru hu
    have hnotin : ed.node ∉ P := by
      intro hc
      by_cases hne : ed.node = u
      · rw [hne, hu] at hnone
        cases hnone
      · obtain ⟨rm, hrm, _⟩ := dom_mem_record hnn hP ed.node hc hne
        rw [hrm] at hnone
        cases hnone
    obtain ⟨ru2, hru2, hru2le⟩ := hmono u ru hu
    refine ⟨P ++ [ed.node], ?_⟩
    rw [← hr, hr2c]
    exact Dom.snoc u P ru.cost ed.node ed.cost (dom_mono hmono hP) hedge
      ru2 hru2 hru2le hnotin
  · have hcore := createState_other st u ed p (ru.cost + ed.cost) n hn
    obtain ⟨r0, hr0, hc0, _, _, _⟩ := core_eq_some hcore hr
    obtain ⟨P, hP⟩ := hsc n r0 hr0
    refine ⟨P, ?_⟩
    rw [← hc0]
    exact dom_mono hmono hP

/-- Improving a record preserves the dominated-path witnesses. -/
theorem improveState_simpleCost {g : Graph} {s : Node} {st : AState} {u : Node}
    {ru : NodeInfo} {ed : Edge} {ni : NodeInfo} {cost : Rat}
    (hnn : ∀ n es, g.neighbors n = .ok es → ∀ ed2 ∈ es, 0 ≤ ed2.cost)
    (hwf : WfInfo st.info) (hsc : SimpleCost g s st.info)
    (hu : getInfo st.info u = some ru) (hni : getInfo st.info ed.node = some ni)
    (hedge : ReportsEdge g u ed.node ed.cost) (hcost : cost = ru.cost + ed.cost)
    (hlt : cost < ni.cost) :
    SimpleCost g s (improveState st u ed ni cost).info := by
  subst hcost
  have hmono : InfoMono st.info (improveState st u ed ni (ru.cost + ed.cost)).info :=
    improveState_mono hwf hni hlt
  have h0ed : 0 ≤ ed.cost := by
    obtain ⟨es, hes, hmem⟩ := hedge
    exact hnn u es hes ed hmem
  intro n r hr
  by_cases hn : n = ed.node
  · subst hn
    obtain ⟨r2, hr2, _, _, hr2c, _, _⟩ := improveState_endRec st u ed ni _ hwf hni
    rw [hr2] at hr
    injection hr with hr
    obtain ⟨P, hP⟩ := hsc u ru hu
    have hnotin : ed.node ∉ P := by
      intro hc
      by_cases hne : ed.node = u
      · rw [hne, hu] at hni
        injection hni with hni
        rw [← hni] at hlt
        exact absurd hlt (not_lt.mpr (le_add_of_nonneg_right h0ed))
      · obtain ⟨rm, hrm, hrmle⟩ := dom_mem_record hnn hP ed.node hc hne
        rw [hrm] at hni
        injection hni with hni
        rw [hni] at hrmle
        exact absurd hlt
          (not_lt.mpr (le_trans hrmle (le_add_of_nonneg_right h0ed)))
    obtain ⟨ru2, hru2, hru2le⟩ := hmono u ru hu
    refine ⟨P ++ [ed.node], ?_⟩
    rw [← hr, hr2c]
    exact Dom.snoc u P ru.cost ed.node ed.cost (dom_mono hmono hP) hedge
      ru2 hru2 hru2le hnotin
  · have hcore := improveState_other st u ed ni (ru.cost + ed.cost) hwf hni n hn
    obtain ⟨r0, hr0, hc0, _, _, _⟩ := core_eq_some hcore hr
    obtain ⟨P, hP⟩ := hsc n r0 hr0
    refine ⟨P, ?_⟩
    rw [← hc0]
    exact dom_mono hmono hP

theorem createState_recIn {V : List Node} {st : AState} {u : Node} {ed : Edge}
    {p cost : Rat} (hrec : RecIn V st.info) (hin : ed.node ∈ V) :
    RecIn V (createState st u ed p cost).info := by
  intro n r hr
  by_cases hn : n = ed.node
  · rw [hn]
    exact hin
  · have hcore := createState_other st u ed p cost n hn
    obtain ⟨r0, hr0, _, _, _, _⟩ := core_eq_some hcore hr
    exact hrec n r0 hr0

theorem improveState_recIn {V : List Node} {st : AState} {u : Node} {ed : Edge}
    {ni : NodeInfo} {cost : Rat} (hwf : WfInfo st.info)
    (hni : getInfo st.info ed.node = some ni) (hrec : RecIn V st.info) :
    RecIn V (improveState st u ed ni cost).info := by
  intro n r hr
  by_cases hn : n = ed.node
  · rw [hn]
    exact hrec ed.node ni hni
  · have hcore := improveState_other st u ed ni cost hwf hni n hn
    obtain ⟨r0, hr0, _, _, _, _⟩ := core_eq_some hcore hr
    exact hrec n r0 hr0

/-- Number of cost values in the universe strictly below `c`. -/
def costRank (F : Finset Rat) (c : Rat) : Nat := (F.filter (fun x => x < c)).card

/-- The termination potential of one node: recorded nodes contribute twice
the rank of their cost, unrecorded nodes the maximal contribution plus the
headroom for one heap push. -/
def nodePhi (F : Finset Rat) (info : List (Node × NodeInfo)) (n : Node) : Nat :=
  match getInfo info n with
  | none => 2 * F.card + 2
  | some r => 2 * costRank F r.cost

/-- The termination potential of a search state. -/
def phi (F : Finset Rat) (V : List Node) (st : AState) : Nat :=
  (V.map (nodePhi F st.info)).sum + st.heap.length

theorem costRank_le (F : Finset Rat) (c : Rat) : costRank F c ≤ F.card :=
  Finset.card_filter_le _ _

theorem costRank_lt {F : Finset Rat} {c c' : Rat} (hm : c' ∈ F) (hlt : c' < c) :
    costRank F c' < costRank F c := by
  refine Finset.card_lt_card ⟨?_, ?_⟩
  · intro x hx
    rw [Finset.mem_filter] at hx ⊢
    exact ⟨hx.1, lt_trans hx.2 hlt⟩
  · intro hsub
    have hmem : c' ∈ F.filter (fun x => x < c) := Finset.mem_filter.mpr ⟨hm, hlt⟩
    have := hsub hmem
    rw [Finset.mem_filter] at this
    exact absurd this.2 (lt_irrefl c')

theorem nodePhi_congr {F : Finset Rat} {a b : List (Node × NodeInfo)} {n : Node}
    (h : (getInfo a n).map NodeInfo.core = (getInfo b n).map NodeInfo.core) :
    nodePhi F a n = nodePhi F b n := by
  unfold nodePhi
  cases ha : getInfo a n with
  | none =>
    cases hb : getInfo b n with
    | none => rfl
    | some r => rw [ha, hb] at h; cases h
  | some r =>
    cases hb : getInfo b n with
    | none => rw [ha, hb] at h; cases h
    | some r2 =>
      rw [ha, hb] at h
      injection h with h
      have hc : r.cost = r2.cost := congrArg (fun c => c.2.2.1) h
      dsimp only
      rw [hc]

theorem nodePhi_le_cap (F : Finset Rat) (info : List (Node × NodeInfo)) (n : Node) :
    nodePhi F info n ≤ 2 * F.card + 2 := by
  unfold nodePhi
  cases hg : getInfo info n with
  | none =>
    exact le_refl _
  | some r =>
    dsimp only
    have := costRank_le F r.cost
    omega

theorem map_sum_le_pt {V : List Node} {f f2 : Node → Nat}
    (hle : ∀ n, f2 n ≤ f n) : (V.map f2).sum ≤ (V.map f).sum := by
  induction V with
  | nil => exact le_refl _
  | cons y r2 ih =>
    simp only [List.map_cons, List.sum_cons]
    exact add_le_add (hle y) ih

theorem map_sum_update_le {V : List Node} {f f2 : Node → Nat} {a : Node} {d : Nat}
    (ha : a ∈ V) (hle : ∀ n, f2 n ≤ f n) (hd : f2 a + d ≤ f a) :
    (V.map f2).sum + d ≤ (V.map f).sum := by
  induction V with
  | nil => cases ha
  | cons x rest ih =>
    simp only [List.map_cons, List.sum_cons]
    rcases List.mem_cons.mp ha with hx | hx
    · subst hx
      have hrest : (rest.map f2).sum ≤ (rest.map f).sum := map_sum_le_pt hle
      omega
    · have := ih hx
      have hx2 := hle x
      omega

theorem map_sum_congr {V : List Node} {f f2 : Node → Nat}
    (h : ∀ n ∈ V, f2 n = f n) : (V.map f2).sum = (V.map f).sum := by
  rw [List.map_congr_left h]

theorem popBest_heap_length {st : AState} {cur : NodeInfo} {st1 : AState}
    (h : popBest st = some (cur, st1)) : st1.heap.length + 1 = st.heap.length := by
  obtain ⟨h0, hst1, hcur⟩ := popBest_eq_some h
  subst hst1
  rw [setIndex_heap]
  dsimp only
  rw [List.length_take, down_heap_length, heapSwap_heap_length]
  omega

theorem nodePhi_rec_le {F : Finset Rat} {info : List (Node × NodeInfo)} {n : Node}
    {r : NodeInfo} (hr : getInfo info n = some r) :
    nodePhi F info n ≤ 2 * F.card := by
  unfold nodePhi
  rw [hr]
  dsimp only
  have := costRank_le F r.cost
  omega

theorem nodePhi_none {F : Finset Rat} {info : List (Node × NodeInfo)} {n : Node}
    (hr : getInfo info n = none) : nodePhi F info n = 2 * F.card + 2 := by
  unfold nodePhi
  rw [hr]

theorem nodePhi_rec {F : Finset Rat} {info : List (Node × NodeInfo)} {n : Node}
    {r : NodeInfo} (hr : getInfo info n = some r) :
    nodePhi F info n = 2 * costRank F r.cost := by
  unfold nodePhi
  rw [hr]

theorem improveState_heap_length_le {st : AState} (cn : Node) (ed : Edge)
    (ni : NodeInfo) (cost : Rat) :
    (improveState st cn ed ni cost).heap.length ≤ st.heap.length + 1 := by
  unfold improveState
  dsimp only
  set r : NodeInfo := { ni with parent := cn, cost := cost, stamp := st.clock }
  by_cases hix : r.index ≥ 0
  · rw [if_pos hix]
    unfold updateNodeInfo
    dsimp only
    rw [up_heap_length, down_heap_length]
    show st.heap.length ≤ st.heap.length + 1
    omega
  · rw [if_neg hix]
    rw [addNodeInfo_heap_length]

theorem phi_maxUpd (F : Finset Rat) (V : List Node) (st : AState) (c : Rat) :
    phi F V (maxUpd st c) = phi F V st := by
  unfold phi
  rw [maxUpd_heap]
  have : ∀ n ∈ V, nodePhi F (maxUpd st c).info n = nodePhi F st.info n := by
    intro n _
    rw [maxUpd_info]
  rw [map_sum_congr this]

theorem phi_pop {F : Finset Rat} {V : List Node} {st : AState} {cur : NodeInfo}
    {stp : AState} (hpop : popBest st = some (cur, stp)) :
    phi F V stp + 1 = phi F V st := by
  unfold phi
  have hcores := popBest_cores hpop
  have hsum : ∀ n ∈ V, nodePhi F stp.info n = nodePhi F st.info n := by
    intro n _
    exact nodePhi_congr ((hcores n).symm)
  rw [map_sum_congr hsum]
  have := popBest_heap_length hpop
  omega

/-- A record creation pays for its own heap push and leaves one unit of
slack. -/
theorem phi_create {F : Finset Rat} {V : List Node} {st : AState} {u : Node}
    {ed : Edge} {p cost : Rat} (hnone : getInfo st.info ed.node = none)
    (hin : ed.node ∈ V) :
    phi F V (createState st u ed p cost) + 1 ≤ phi F V st := by
  unfold phi
  have hlen : (createState st u ed p cost).heap.length = st.heap.length + 1 := by
    unfold createState
    rw [addNodeInfo_heap_length]
  obtain ⟨r2, hr2, _, _, _, _, _⟩ := createState_endRec st u ed p cost
  have hle : ∀ n, nodePhi F (createState st u ed p cost).info n ≤
      nodePhi F st.info n := by
    intro n
    by_cases hn : n = ed.node
    · subst hn
      rw [nodePhi_none hnone]
      exact nodePhi_le_cap _ _ _
    · rw [nodePhi_congr (createState_other st u ed p cost n hn)]
  have hd : nodePhi F (createState st u ed p cost).info ed.node + 2 ≤
      nodePhi F st.info ed.node := by
    rw [nodePhi_none hnone]
    have := @nodePhi_rec_le F _ _ _ hr2
    omega
  have hsum := map_sum_update_le hin hle hd
  omega

/-- A record improvement strictly lowers the improved node's rank, paying
for a possible heap push. -/
theorem phi_improve {F : Finset Rat} {V : List Node} {st : AState} {u : Node}
    {ed : Edge} {ni : NodeInfo} {cost : Rat} (hwf : WfInfo st.info)
    (hni : getInfo st.info ed.node = some ni) (hlt : cost < ni.cost)
    (hF : cost ∈ F) (hin : ed.node ∈ V) :
    phi F V (improveState st u ed ni cost) ≤ phi F V st := by
  unfold phi
  have hlen := @improveState_heap_length_le st u ed ni cost
  obtain ⟨r2, hr2, _, _, hr2c, _, _⟩ := improveState_endRec st u ed ni cost hwf hni
  have hrank : costRank F cost < costRank F ni.cost := costRank_lt hF hlt
  have hle : ∀ n, nodePhi F (improveState st u ed ni cost).info n ≤
      nodePhi F st.info n := by
    intro n
    by_cases hn : n = ed.node
    · subst hn
      rw [nodePhi_rec hr2, nodePhi_rec hni, hr2c]
      omega
    · rw [nodePhi_congr (improveState_other st u ed ni cost hwf hni n hn)]
  have hd : nodePhi F (improveState st u ed ni cost).info ed.node + 2 ≤
      nodePhi F st.info ed.node := by
    rw [nodePhi_rec hr2, nodePhi_rec hni, hr2c]
    omega
  have hsum := map_sum_update_le hin hle hd
  omega

/-- Per-edge preservation of the termination invariants: the potential never
increases across one edge relaxation. -/
theorem relaxEdge_c7 {cfg : Config} {s : Node} {V : List Node} {F : Finset Rat}
    {u : Node} {ru : NodeInfo} {st : AState} {ed : Edge} {st2 : AState}
    {pp : List PPEv} {cs : List GCall} {es : List Edge}
    (hcond : ∀ n es2, cfg.g.neighbors n = .ok es2 → ∀ e2 ∈ es2,
      0 ≤ e2.cost ∧ e2.node ≠ -1)
    (hsV : s ∈ V)
    (hVc : ∀ n ∈ V, ∀ es2, cfg.g.neighbors n = .ok es2 → ∀ e2 ∈ es2, e2.node ∈ V)
    (hF : F = subSums (weightsOf cfg.g V))
    (hc7 : C7Inv cfg s V st) (hu : getInfo st.info u = some ru) (huh : u ∉ st.heap)
    (hes : cfg.g.neighbors u = .ok es) (hed : ed ∈ es)
    (h : relaxEdge cfg u st ed = (.ok st2, pp, cs)) :
    C7Inv cfg s V st2 ∧ getInfo st2.info u = some ru ∧ u ∉ st2.heap ∧
      phi F V st2 ≤ phi F V st := by
  obtain ⟨⟨hinv2, hinv3⟩, hsc, hrec⟩ := hc7
  have hwf : WfInfo st.info := hinv2.1
  have hw2 : WfIdx st := hinv2.2.1
  have hpo := hinv2.2.2
  have hedge : ReportsEdge cfg.g u ed.node ed.cost := ⟨es, hes, hed⟩
  obtain ⟨h0ed, hne⟩ := hcond u es hes ed hed
  have hnn : ∀ n es2, cfg.g.neighbors n = .ok es2 → ∀ e2 ∈ es2, 0 ≤ e2.cost :=
    fun n es2 h2 e2 he2 => (hcond n es2 h2 e2 he2).1
  have hcnB : (getInfo st.info u).isSome = true := by rw [hu]; rfl
  have hinv2s : Inv2 cfg s st2 := relaxEdge_ok_inv2 ⟨hwf, hw2, hpo⟩ hcnB hedge h
  have hinv3s : Inv3 st2 := (relaxEdge_inv3 hinv3 hcnB h0ed hne).2 st2 (by rw [h])
  have huV : u ∈ V := hrec u ru hu
  have hedV : ed.node ∈ V := hVc u huV es hes ed hed
  rcases @relaxEdge_ok_cases cfg u st ed st2 pp cs ru (ru.cost + ed.cost)
      (by rw [hu]; rfl) rfl h with
    ⟨hskip, hst, _, _⟩ | ⟨hskip, hnone, p, hheur, hafter⟩ |
    ⟨hskip, ni, hni, hlt, hafter⟩ | ⟨hskip, ni, hni, hnlt, hend, hst, _, _⟩ |
    ⟨hskip, ni, hni, hnlt, hnend, hst, _, _⟩
  · subst hst
    exact ⟨⟨⟨hinv2s, hinv3s⟩, hsc, hrec⟩, hu, huh, le_refl _⟩
  · set stc := createState st u ed p (ru.cost + ed.cost) with hstc
    have hneu : u ≠ ed.node := by
      intro he
      rw [he, hnone] at hu
      cases hu
    have hscc : SimpleCost cfg.g s stc.info :=
      createState_simpleCost hnn hsc hu hnone hedge rfl
    have hrecc : RecIn V stc.info := createState_recIn hrec hedV
    have hfroz : getInfo stc.info u = some ru := by
      rw [hstc, createState_getInfo_notMem huh hneu]
      exact hu
    have hmemc : u ∉ stc.heap := by
      rw [hstc]
      intro hcx
      rcases (createState_memEq st u ed p _ u).mp hcx with hcx | hcx
      · exact huh hcx
      · exact hneu hcx
    have hphic : phi F V stc + 1 ≤ phi F V st := phi_create hnone hedV
    obtain ⟨hcs, hcases⟩ := afterChange_ok_cases hafter
    rcases hcases with ⟨hnotend, hsteq, _⟩ | ⟨hisend, hsteq, _⟩
    · subst hsteq
      exact ⟨⟨⟨hinv2s, hinv3s⟩, hscc, hrecc⟩, hfroz, hmemc, by omega⟩
    · subst hsteq
      refine ⟨⟨⟨hinv2s, hinv3s⟩, simpleCost_maxUpd hscc, recIn_maxUpd hrecc⟩,
        by rw [maxUpd_info]; exact hfroz, by rw [maxUpd_heap]; exact hmemc, ?_⟩
      rw [phi_maxUpd]
      omega
  · set sti := improveState st u ed ni (ru.cost + ed.cost) with hsti
    have hneu : u ≠ ed.node := by
      intro he
      rw [← he] at hni
      rw [hu] at hni
      injection hni with hni
      rw [← hni] at hlt
      exact absurd hlt (not_lt.mpr (le_add_of_nonneg_right h0ed))
    have hsci : SimpleCost cfg.g s sti.info :=
      improveState_simpleCost hnn hwf hsc hu hni hedge rfl hlt
    have hreci : RecIn V sti.info := improveState_recIn hwf hni hrec
    obtain ⟨r2, hr2, _, _, hr2c, _, _⟩ := improveState_endRec st u ed ni _ hwf hni
    obtain ⟨P, hP⟩ := hsci ed.node r2 (by rw [hsti]; exact hr2)
    have hPV : ∀ m ∈ P.dropLast, m ∈ V := by
      intro m hm
      exact dom_mem_V hsV hVc hP m (List.dropLast_sublist P |>.mem hm)
    have hFm : ru.cost + ed.cost ∈ F := by
      rw [hF]
      have hmem := dom_cost_mem hP hPV
      rw [hr2c] at hmem
      exact hmem
    have hphii : phi F V sti ≤ phi F V st := phi_improve hwf hni hlt hFm hedV
    have hfroz : getInfo sti.info u = some ru := by
      rw [hsti, improveState_getInfo_notMem hwf hw2 hni huh hneu]
      exact hu
    have hmemi : u ∉ sti.heap := by
      rw [hsti]
      intro hcx
      rcases (improveState_memEq hwf hw2 hni u).mp hcx with hcx | hcx
      · exact huh hcx
      · exact hneu hcx
    obtain ⟨hcs, hcases⟩ := afterChange_ok_cases hafter
    rcases hcases with ⟨hnotend, hsteq, _⟩ | ⟨hisend, hsteq, _⟩
    · subst hsteq
      exact ⟨⟨⟨hinv2s, hinv3s⟩, hsci, hreci⟩, hfroz, hmemi, hphii⟩
    · subst hsteq
      refine ⟨⟨⟨hinv2s, hinv3s⟩, simpleCost_maxUpd hsci, recIn_maxUpd hreci⟩,
        by rw [maxUpd_info]; exact hfroz, by rw [maxUpd_heap]; exact hmemi, ?_⟩
      rw [phi_maxUpd]
      exact hphii
  · subst hst
    refine ⟨⟨⟨hinv2s, hinv3s⟩, simpleCost_maxUpd hsc, recIn_maxUpd hrec⟩,
      by rw [maxUpd_info]; exact hu, by rw [maxUpd_heap]; exact huh, ?_⟩
    rw [phi_maxUpd]
  · subst hst
    exact ⟨⟨⟨hinv2s, hinv3s⟩, hsc, hrec⟩, hu, huh, le_refl _⟩

/-- Invariants and potential across a whole neighbor list. -/
theorem relaxEdges_c7 {cfg : Config} {s : Node} {V : List Node} {F : Finset Rat}
    {u : Node} {ru : NodeInfo} {es : List Edge}
    (hcond : ∀ n es2, cfg.g.neighbors n = .ok es2 → ∀ e2 ∈ es2,
      0 ≤ e2.cost ∧ e2.node ≠ -1)
    (hsV : s ∈ V)
    (hVc : ∀ n ∈ V, ∀ es2, cfg.g.neighbors n = .ok es2 → ∀ e2 ∈ es2, e2.node ∈ V)
    (hF : F = subSums (weightsOf cfg.g V))
    (hes : cfg.g.neighbors u = .ok es) :
    ∀ {l : List Edge} {st st2 : AState} {pp : List PPEv} {cs : List GCall},
    C7Inv cfg s V st → getInfo st.info u = some ru → u ∉ st.heap →
    (∀ e ∈ l, e ∈ es) → relaxEdges cfg u st l = (.ok st2, pp, cs) →
    C7Inv cfg s V st2 ∧ phi F V st2 ≤ phi F V st := by
  intro l
  induction l with
  | nil =>
    intro st st2 pp cs hc7 hu huh hsub h
    unfold relaxEdges at h
    injection h with h1 h23
    injection h1 with h1
    rw [← h1]
    exact ⟨hc7, le_refl _⟩
  | cons e rest ih =>
    intro st st2 pp cs hc7 hu huh hsub h
    unfold relaxEdges at h
    cases hra : relaxEdge cfg u st e with
    | mk out1 ppcs1 =>
      obtain ⟨pp1, cs1⟩ := ppcs1
      rw [hra] at h
      cases out1 with
      | ok st1 =>
        dsimp only at h
        cases hrr : relaxEdges cfg u st1 rest with
        | mk out2 ppcs2 =>
          obtain ⟨pp2, cs2⟩ := ppcs2
          rw [hrr] at h
          dsimp only at h
          injection h with h1 h23
          obtain ⟨hc7a, hua, huha, hpa⟩ :=
            relaxEdge_c7 hcond hsV hVc hF hc7 hu huh hes (hsub e (by simp)) hra
          obtain ⟨hc7b, hpb⟩ :=
            ih hc7a hua huha (fun x hx => hsub x (by simp [hx]))
              (show relaxEdges cfg u st1 rest = (.ok st2, pp2, cs2) by rw [hrr, h1])
          exact ⟨hc7b, le_trans hpb hpa⟩
      | fail er =>
        dsimp only at h
        injection h with h1 h23
        cases h1
      | hang =>
        dsimp only at h
        injection h with h1 h23
        cases h1

/-- The popped node's record and heap slot transfer, and extraction itself
strictly lowers the potential. -/
theorem popBest_c7 {cfg : Config} {s : Node} {V : List Node} {F : Finset Rat}
    {st : AState} {cur : NodeInfo} {stp : AState} (hc7 : C7Inv cfg s V st)
    (hpop : popBest st = some (cur, stp)) :
    C7Inv cfg s V stp ∧ getInfo stp.info cur.node = some cur ∧
      cur.node ∉ stp.heap ∧ phi F V stp + 1 = phi F V st := by
  obtain ⟨⟨hinv2, hinv3⟩, hsc, hrec⟩ := hc7
  obtain ⟨hinv2p, hcur, hixm⟩ := popBest_inv2 hinv2 hpop
  have hinv3p := popBest_inv3 hinv3 hpop
  have hcores := popBest_cores hpop
  have hnm : cur.node ∉ stp.heap := by
    intro hmem
    obtain ⟨k, hk, hslot⟩ := mem_iff_slot.mp hmem
    obtain ⟨r, hr, hix⟩ := hinv2p.2.1.1 k hk
    rw [hslot, hcur] at hr
    injection hr with hr
    rw [← hr, hixm] at hix
    rw [Int.ofNat_eq_natCast] at hix
    omega
  exact ⟨⟨⟨hinv2p, hinv3p⟩, simpleCost_cores hcores hsc, recIn_cores hcores hrec⟩,
    hcur, hnm, phi_pop hpop⟩

/-- One continuing iteration strictly lowers the potential. -/
theorem step_cont_c7 {cfg : Config} {s : Node} {V : List Node} {F : Finset Rat}
    {st st1 : AState} {tr : Trace}
    (hcond : ∀ n es2, cfg.g.neighbors n = .ok es2 → ∀ e2 ∈ es2,
      0 ≤ e2.cost ∧ e2.node ≠ -1)
    (hsV : s ∈ V)
    (hVc : ∀ n ∈ V, ∀ es2, cfg.g.neighbors n = .ok es2 → ∀ e2 ∈ es2, e2.node ∈ V)
    (hF : F = subSums (weightsOf cfg.g V))
    (hc7 : C7Inv cfg s V st) (h : step cfg st = (.cont st1, tr)) :
    C7Inv cfg s V st1 ∧ phi F V st1 < phi F V st := by
  obtain ⟨cur, stp, hpop, hend, hcase⟩ := step_cont_cases h
  obtain ⟨hc7p, hcur, hnm, hphip⟩ := @popBest_c7 cfg s V F st cur stp hc7 hpop
  rcases hcase with ⟨hge, hst1, _⟩ | ⟨hnge, es, pp, cs, hes, hrelax, _⟩
  · subst hst1
    exact ⟨hc7p, by omega⟩
  · obtain ⟨hc7b, hpb⟩ := relaxEdges_c7 hcond hsV hVc hF hes hc7p hcur hnm
      (fun e he => he) hrelax
    exact ⟨hc7b, by omega⟩

theorem expand_not_timeout {cfg : Config} {cur : NodeInfo} {st1 : AState}
    {pp : List PPEv} {cs : List GCall}
    (h : expand cfg cur st1 = (.stop .timeout, pp, cs)) : False := by
  unfold expand at h
  cases hnb : cfg.g.neighbors cur.node with
  | error e =>
    simp only [hnb] at h
    injection h with h1 h2
    injection h1 with h1
    cases h1
  | ok es =>
    simp only [hnb] at h
    cases hrel : relaxEdges cfg cur.node st1 es with
    | mk out ppcs =>
      obtain ⟨pp2, cs2⟩ := ppcs
      simp only [hrel] at h
      cases out with
      | ok st2 =>
        injection h with h1 h2
        cases h1
      | fail e =>
        injection h with h1 h2
        injection h1 with h1
        cases h1
      | hang =>
        injection h with h1 h2
        injection h1 with h1
        cases h1

/-- A stopping iteration never reports fuel exhaustion. -/
theorem step_not_timeout {cfg : Config} {st : AState} {tr : Trace}
    (h : step cfg st = (.stop .timeout, tr)) : False := by
  unfold step at h
  cases hpop : popBest st with
  | none =>
    simp only [hpop] at h
    injection h with h1 h2
    injection h1 with h1
    cases h1
  | some pr =>
    obtain ⟨cur, stp⟩ := pr
    simp only [hpop] at h
    by_cases hend : cur.node = cfg.endN
    · rw [if_pos hend] at h
      cases hpath : pathToNode stp cur with
      | none =>
        simp only [hpath] at h
        injection h with h1 h2
        injection h1 with h1
        cases h1
      | some p =>
        simp only [hpath] at h
        injection h with h1 h2
        injection h1 with h1
        cases h1
    · rw [if_neg hend] at h
      by_cases hge : geMax cur.cost stp.maxCost
      · rw [if_pos hge] at h
        injection h with h1 h2
        cases h1
      · rw [if_neg hge] at h
        cases hex : expand cfg cur stp with
        | mk res ppcs =>
          obtain ⟨pp, cs⟩ := ppcs
          simp only [hex] at h
          cases res with
          | cont st2 =>
            injection h with h1 h2
            cases h1
          | stop r =>
            injection h with h1 h2
            injection h1 with h1
            exact expand_not_timeout (h1 ▸ hex)

/-- With more fuel than the state's potential, the loop reaches a verdict. -/
theorem loop_c7 {cfg : Config} {s : Node} {V : List Node} {F : Finset Rat}
    (hcond : ∀ n es2, cfg.g.neighbors n = .ok es2 → ∀ e2 ∈ es2,
      0 ≤ e2.cost ∧ e2.node ≠ -1)
    (hsV : s ∈ V)
    (hVc : ∀ n ∈ V, ∀ es2, cfg.g.neighbors n = .ok es2 → ∀ e2 ∈ es2, e2.node ∈ V)
    (hF : F = subSums (weightsOf cfg.g V)) :
    ∀ {fuel : Nat} {st : AState}, C7Inv cfg s V st → phi F V st < fuel →
    (loop cfg fuel st).1 ≠ .timeout := by
  intro fuel
  induction fuel with
  | zero =>
    intro st _ hphi
    exact absurd hphi (Nat.not_lt_zero _)
  | succ n ih =>
    intro st hc7 hphi
    unfold loop
    cases hs : step cfg st with
    | mk res tr =>
      cases res with
      | stop r =>
        dsimp only
        intro hc
        rw [hc] at hs
        exact step_not_timeout hs
      | cont st1 =>
        dsimp only
        obtain ⟨hc7b, hphib⟩ := step_cont_c7 hcond hsV hVc hF hc7 hs
        cases hl : loop cfg n st1 with
        | mk r2 tr2 =>
          dsimp only
          have hres := ih hc7b (by omega)
          rw [hl] at hres
          exact hres

/-- The termination invariants hold initially. -/
theorem c7_initState (cfg : Config) (s : Node) (V : List Node) (p : Rat)
    (hs : s ≠ -1) (hsV : s ∈ V) : C7Inv cfg s V (initState p s) := by
  refine ⟨⟨inv2_initState cfg.g cfg.endN cfg.hasDebug cfg.hasPossible p s,
    inv3_initState p s hs⟩, ?_, ?_⟩
  · rw [initState_eq]
    intro n r hr
    unfold getInfo at hr
    by_cases hsn : s = n
    · subst hsn
      rw [if_pos rfl] at hr
      injection hr with hr
      refine ⟨[s], ?_⟩
      rw [← hr]
      exact Dom.base
    · rw [if_neg hsn] at hr
      exact absurd hr (by simp [getInfo])
  · rw [initState_eq]
    intro n r hr
    unfold getInfo at hr
    by_cases hsn : s = n
    · subst hsn
      exact hsV
    · rw [if_neg hsn] at hr
      exact absurd hr (by simp [getInfo])

/-- Claim C7 counterexample: on `gC10hang` every hypothesis of the claim as
stated holds — the reachable universe `[0, 1, -1, 3]` is finite and closed,
all edge costs are non-negative, and both graph callbacks always succeed —
yet the run reaches the `hang` outcome: the Go `FindPath` never terminates,
diverging inside `pathToNode` because the discovered node −1 collides with
the parent sentinel. -/
theorem claim_C7_counterexample :
    (∀ n es, gC10hang.neighbors n = .ok es → ∀ ed ∈ es,
      0 ≤ ed.cost ∧ ed.node ∈ ([0, 1, -1, 3] : List Node)) ∧
    (∀ n e, gC10hang.heuristicCost n e = .ok 0) ∧
    (0 : Node) ∈ ([0, 1, -1, 3] : List Node) ∧
    FindPath gC10hang false false 5 0 3 = .hang := by
  refine ⟨?_, fun n e => rfl, by decide, by decide⟩
  intro n es hes ed hed
  unfold gC10hang at hes
  dsimp only at hes
  by_cases h0 : n = 0
  · rw [if_pos h0] at hes
    injection hes with hes
    rw [← hes] at hed
    simp only [List.mem_cons, List.not_mem_nil, or_false] at hed
    rw [hed]
    exact ⟨by decide, by decide⟩
  · rw [if_neg h0] at hes
    by_cases h1 : n = 1
    · rw [if_pos h1] at hes
      injection hes with hes
      rw [← hes] at hed
      simp only [List.mem_cons, List.not_mem_nil, or_false] at hed
      rw [hed]
      exact ⟨by decide, by decide⟩
    · rw [if_neg h1] at hes
      by_cases h2 : n = -1
      · rw [if_pos h2] at hes
        injection hes with hes
        rw [← hes] at hed
        simp only [List.mem_cons, List.not_mem_nil, or_false] at hed
        rw [hed]
        exact ⟨by decide, by decide⟩
      · rw [if_neg h2] at hes
        injection hes with hes
        rw [← hes] at hed
        cases hed

/-- Claim C7 (amended): on a graph with a finite node universe `V` that
contains the start and is closed under reported edges, non-negative edge
costs, no edge into −1 and a start other than −1, the search terminates:
some fuel yields a verdict other than `timeout`, and no fuel ever yields
`hang`.  The potential argument: every record cost is the cost of a
dominated (node-distinct) path, so it lies in the finite set of subset sums
of `V`'s edge costs; each improvement strictly lowers the cost's rank, and
each iteration pops one heap entry, so the loop makes at most
`phi`-many iterations. -/
theorem claim_C7 (g : Graph) (hd hp : Bool) (s e : Node) (V : List Node)
    (hs : s ≠ -1) (hsV : s ∈ V)
    (hcond : ∀ n es, g.neighbors n = .ok es → ∀ ed ∈ es, 0 ≤ ed.cost ∧ ed.node ≠ -1)
    (hVc : ∀ n ∈ V, ∀ es, g.neighbors n = .ok es → ∀ ed ∈ es, ed.node ∈ V) :
    (∃ fuel, FindPath g hd hp fuel s e ≠ .timeout) ∧
    ∀ fuel, FindPath g hd hp fuel s e ≠ .hang := by
  constructor
  · cases hh : g.heuristicCost s e with
    | error er =>
      refine ⟨1, ?_⟩
      unfold FindPath findPathT
      rw [hh]
      dsimp only
      intro hc
      cases hc
    | ok p =>
      refine ⟨phi (subSums (weightsOf g V)) V (initState p s) + 1, ?_⟩
      unfold FindPath findPathT
      rw [hh]
      dsimp only
      cases hl : loop ⟨g, e, hd, hp⟩
          (phi (subSums (weightsOf g V)) V (initState p s) + 1) (initState p s) with
      | mk r tr =>
        dsimp only
        intro hc
        have hres := loop_c7 hcond hsV hVc rfl
          (c7_initState ⟨g, e, hd, hp⟩ s V p hs hsV)
          (show phi (subSums (weightsOf g V)) V (initState p s) <
            phi (subSums (weightsOf g V)) V (initState p s) + 1 by omega)
        rw [hl] at hres
        exact hres hc
  · intro fuel hcontra
    unfold FindPath findPathT at hcontra
    cases hq : g.heuristicCost s e with
    | error er =>
      rw [hq] at hcontra
      dsimp only at hcontra
      cases hcontra
    | ok q =>
      rw [hq] at hcontra
      dsimp only at hcontra
      cases hl : loop ⟨g, e, hd, hp⟩ fuel (initState q s) with
      | mk r tr =>
        rw [hl] at hcontra
        dsimp only at hcontra
        subst hcontra
        exact loop_no_hang hcond (invAll_initState g e hd hp q s hs) hl

/-- Witness: on the empty graph the amended termination theorem applies with
universe `[0]`. -/
theorem claim_C7_witness :
    (∃ fuel, FindPath gEmpty false false fuel 0 5 ≠ .timeout) ∧
    ∀ fuel, FindPath gEmpty false false fuel 0 5 ≠ .hang :=
  claim_C7 gEmpty false false 0 5 [0] (by decide) (by decide)
    (by intro n es hes ed hed; injection hes with h; rw [← h] at hed; cases hed)
    (by intro n hn es hes ed hed; injection hes with h; rw [← h] at hed; cases hed)

/-! ### Claim C3: the Unreachable verdict -/

theorem isSome_of_core_eq {o1 o2 : Option NodeInfo}
    (h : o1.map NodeInfo.core = o2.map NodeInfo.core) : o1.isSome = o2.isSome := by
  cases o1 with
  | none =>
    cases o2 with
    | none => rfl
    | some r => simp at h
  | some r =>
    cases o2 with
    | none => simp at h
    | some r2 => rfl

/-- The goal-tracking invariant: while the loop is still running, a recorded
goal node is always on the open heap (it was pushed when recorded, and
popping it ends the loop). -/
def EInHeap (e : Node) (st : AState) : Prop :=
  (getInfo st.info e).isSome = true → e ∈ st.heap

theorem relaxEdge_einheap {cfg : Config} {cn : Node} {st : AState} {ed : Edge}
    {st2 : AState} {pp : List PPEv} {cs : List GCall} {e : Node}
    (hwf : WfInfo st.info) (hw : WfIdx st) (hinv : EInHeap e st)
    (h : relaxEdge cfg cn st ed = (.ok st2, pp, cs)) : EInHeap e st2 := by
  set cur := (getInfo st.info cn).getD default with hcur
  set cost := cur.cost + ed.cost with hcost
  rcases @relaxEdge_ok_cases cfg cn st ed st2 pp cs cur cost hcur hcost h with
    ⟨_, hst, _, _⟩ | ⟨_, hnone, p, hheur, hafter⟩ |
    ⟨_, ni, hni, hlt, hafter⟩ | ⟨_, ni, hni, _, _, hst, _, _⟩ |
    ⟨_, ni, hni, _, _, hst, _, _⟩
  · subst hst
    exact hinv
  · have hstc : EInHeap e (createState st cn ed p cost) := by
      intro hsome
      by_cases he : e = ed.node
      · subst he
        exact (createState_memEq st cn ed p cost ed.node).mpr (Or.inr rfl)
      · have hcore := createState_other st cn ed p cost e he
        rw [isSome_of_core_eq hcore] at hsome
        exact (createState_memEq st cn ed p cost e).mpr (Or.inl (hinv hsome))
    obtain ⟨_, hcases⟩ := afterChange_ok_cases hafter
    rcases hcases with ⟨_, hsteq, _⟩ | ⟨_, hsteq, _⟩
    · subst hsteq
      exact hstc
    · subst hsteq
      intro hsome
      rw [maxUpd_info] at hsome
      rw [maxUpd_heap]
      exact hstc hsome
  · have hsti : EInHeap e (improveState st cn ed ni cost) := by
      intro hsome
      by_cases he : e = ed.node
      · subst he
        exact (@improveState_mem st cn ed ni cost hwf hw hni).1
      · have hcore := improveState_other st cn ed ni cost hwf hni e he
        rw [isSome_of_core_eq hcore] at hsome
        exact (improveState_memEq hwf hw hni e).mpr (Or.inl (hinv hsome))
    obtain ⟨_, hcases⟩ := afterChange_ok_cases hafter
    rcases hcases with ⟨_, hsteq, _⟩ | ⟨_, hsteq, _⟩
    · subst hsteq
      exact hsti
    · subst hsteq
      intro hsome
      rw [maxUpd_info] at hsome
      rw [maxUpd_heap]
      exact hsti hsome
  · subst hst
    intro hsome
    rw [maxUpd_info] at hsome
    rw [maxUpd_heap]
    exact hinv hsome
  · subst hst
    exact hinv

theorem relaxEdges_einheap {cfg : Config} {cn : Node} {s : Node} {e : Node} :
    ∀ {l : List Edge} {st st2 : AState} {pp : List PPEv} {cs : List GCall},
    Inv2 cfg s st → (getInfo st.info cn).isSome = true →
    (∀ ed ∈ l, ReportsEdge cfg.g cn ed.node ed.cost) → EInHeap e st →
    relaxEdges cfg cn st l = (.ok st2, pp, cs) → EInHeap e st2 := by
  intro l
  induction l with
  | nil =>
    intro st st2 pp cs _ _ _ hinv h
    unfold relaxEdges at h
    injection h with h1 h23
    injection h1 with h1
    rw [← h1]
    exact hinv
  | cons a rest ih =>
    intro st st2 pp cs hinv2 hcn hedges hinv h
    unfold relaxEdges at h
    cases hra : relaxEdge cfg cn st a with
    | mk out1 ppcs1 =>
      obtain ⟨pp1, cs1⟩ := ppcs1
      rw [hra] at h
      cases out1 with
      | ok st1 =>
        dsimp only at h
        cases hrr : relaxEdges cfg cn st1 rest with
        | mk out2 ppcs2 =>
          obtain ⟨pp2, cs2⟩ := ppcs2
          rw [hrr] at h
          dsimp only at h
          injection h with h1 h23
          have hinv2b : Inv2 cfg s st1 :=
            relaxEdge_ok_inv2 hinv2 hcn (hedges a (by simp)) hra
          have hcn1 : (getInfo st1.info cn).isSome = true :=
            relaxEdge_ok_isSome hinv2.1 hra cn hcn
          exact ih hinv2b hcn1 (fun ed hed => hedges ed (by simp [hed]))
            (relaxEdge_einheap hinv2.1 hinv2.2.1 hinv hra)
            (show relaxEdges cfg cn st1 rest = (.ok st2, pp2, cs2) by rw [hrr, h1])
      | fail er =>
        dsimp only at h
        injection h with h1 h23
        cases h1
      | hang =>
        dsimp only at h
        injection h with h1 h23
        cases h1

theorem step_cont_einheap {cfg : Config} {s : Node} {st st1 : AState} {tr : Trace}
    (hinv2 : Inv2 cfg s st) (hinv : EInHeap cfg.endN st)
    (h : step cfg st = (.cont st1, tr)) : EInHeap cfg.endN st1 := by
  obtain ⟨cur, stp, hpop, hend, hcase⟩ := step_cont_cases h
  obtain ⟨hinv2p, hcur, _⟩ := popBest_inv2 hinv2 hpop
  have hcores := popBest_cores hpop
  have hinvp : EInHeap cfg.endN stp := by
    intro hsome
    rw [← SameCores.isSome_eq hcores cfg.endN] at hsome
    have hmem := hinv hsome
    rcases (popBest_memEq hinv2.1 hinv2.2.1 hpop cfg.endN).mp hmem with hm | hm
    · exact hm
    · exact absurd hm.symm hend
  rcases hcase with ⟨hge, hst1, _⟩ | ⟨hnge, es, pp, cs, hes, hrelax, _⟩
  · subst hst1
    exact hinvp
  · exact relaxEdges_einheap hinv2p (by rw [hcur]; rfl)
      (fun ed hed => ⟨es, hes, hed⟩) hinvp hrelax

theorem einheap_initState (e2 : Node) (p : Rat) (s : Node) :
    EInHeap e2 (initState p s) := by
  rw [initState_eq]
  intro hsome
  unfold getInfo at hsome
  by_cases hse : s = e2
  · subst hse
    exact List.mem_singleton.mpr rfl
  · rw [if_neg hse] at hsome
    exact absurd hsome (by simp [getInfo])

theorem expand_not_impossible {cfg : Config} {cur : NodeInfo} {st1 : AState}
    {pp : List PPEv} {cs : List GCall}
    (h : expand cfg cur st1 = (.stop .impossible, pp, cs)) : False := by
  unfold expand at h
  cases hnb : cfg.g.neighbors cur.node with
  | error e =>
    simp only [hnb] at h
    injection h with h1 h2
    injection h1 with h1
    cases h1
  | ok es =>
    simp only [hnb] at h
    cases hrel : relaxEdges cfg cur.node st1 es with
    | mk out ppcs =>
      obtain ⟨pp2, cs2⟩ := ppcs
      simp only [hrel] at h
      cases out with
      | ok st2 =>
        injection h with h1 h2
        cases h1
      | fail e =>
        injection h with h1 h2
        injection h1 with h1
        cases h1
      | hang =>
        injection h with h1 h2
        injection h1 with h1
        cases h1

/-- The Unreachable verdict comes only from an exhausted heap. -/
theorem step_impossible_pop {cfg : Config} {st : AState} {tr : Trace}
    (h : step cfg st = (.stop .impossible, tr)) : popBest st = none := by
  unfold step at h
  cases hpop : popBest st with
  | none => rfl
  | some pr =>
    obtain ⟨cur, stp⟩ := pr
    simp only [hpop] at h
    by_cases hend : cur.node = cfg.endN
    · rw [if_pos hend] at h
      cases hpath : pathToNode stp cur with
      | none =>
        simp only [hpath] at h
        injection h with h1 h2
        injection h1 with h1
        cases h1
      | some p =>
        simp only [hpath] at h
        injection h with h1 h2
        injection h1 with h1
        cases h1
    · rw [if_neg hend] at h
      by_cases hge : geMax cur.cost stp.maxCost
      · rw [if_pos hge] at h
        injection h with h1 h2
        cases h1
      · rw [if_neg hge] at h
        cases hex : expand cfg cur stp with
        | mk res ppcs =>
          obtain ⟨pp, cs⟩ := ppcs
          simp only [hex] at h
          cases res with
          | cont st2 =>
            injection h with h1 h2
            cases h1
          | stop r =>
            injection h with h1 h2
            injection h1 with h1
            exact absurd (h1 ▸ hex) (fun hc => expand_not_impossible hc)

theorem popBest_none_heap {st : AState} (h : popBest st = none) : st.heap = [] := by
  unfold popBest at h
  by_cases h0 : st.heap.length = 0
  · exact List.length_eq_zero.mp h0
  · rw [if_neg h0] at h
    cases h

/-- At an exhausted-heap state satisfying the search invariants, the goal is
unrecorded and no valid start-to-goal path can exist. -/
theorem impossible_no_path {cfg : Config} {s : Node} {H : Node → Rat}
    {st : AState} (hc1 : C1Inv cfg s H st) (hcl : ClosedRel cfg (-1) st)
    (hein : EInHeap cfg.endN st) (hrs : (getInfo st.info s).isSome = true)
    (hheap : st.heap = []) : ∀ q c, ¬ PathTo cfg.g s cfg.endN q c := by
  intro q c hpath
  have hnrec : getInfo st.info cfg.endN = none := by
    cases hge : getInfo st.info cfg.endN with
    | none => rfl
    | some r =>
      have hm := hein (by rw [hge]; rfl)
      rw [hheap] at hm
      cases hm
  have hmaxn : st.maxCost = none := by
    cases hmc : st.maxCost with
    | none => rfl
    | some m =>
      obtain ⟨re, hre, _⟩ := hc1.2.2.2.2.2 m hmc
      rw [hnrec] at hre
      cases hre
  have hrec : ∀ {a t : Node} {q2 : List Node} {c2 : Rat}, PathTo cfg.g a t q2 c2 →
      (getInfo st.info a).isSome = true → (getInfo st.info t).isSome = true := by
    intro a t q2 c2 hp
    induction hp with
    | nil a => exact id
    | cons a b t w p2 c2 h1 h2 ih =>
      intro hsa
      obtain ⟨ra, hra⟩ := Option.isSome_iff_exists.mp hsa
      have hmem : a ∉ st.heap := by
        rw [hheap]
        exact List.not_mem_nil a
      have han1 : a ≠ -1 := by
        intro he
        rw [he] at hra
        rw [hc1.1.2.2.2.2] at hra
        cases hra
      obtain ⟨es, hes, hmemb⟩ := h1
      have hltm : ltMax ra.cost st.maxCost := by
        rw [hmaxn]
        exact True.intro
      obtain ⟨rb, hrb, _⟩ := hcl a ra hra hmem han1 hltm es hes ⟨b, w⟩ hmemb
      exact ih (by rw [hrb]; rfl)
  have hfin := hrec hpath hrs
  rw [hnrec] at hfin
  cases hfin

/-- Running to the Unreachable verdict reaches an invariant state with an
empty heap. -/
theorem loop_impossible_c1 {cfg : Config} {s : Node} {H : Node → Rat}
    (hg : GraphOk cfg H) :
    ∀ {fuel : Nat} {st : AState} {tr : Trace},
    C1Inv cfg s H st → ClosedRel cfg (-1) st → EInHeap cfg.endN st →
    (getInfo st.info s).isSome = true →
    loop cfg fuel st = (.impossible, tr) →
    ∃ st2, C1Inv cfg s H st2 ∧ ClosedRel cfg (-1) st2 ∧ EInHeap cfg.endN st2 ∧
      (getInfo st2.info s).isSome = true ∧ st2.heap = [] := by
  intro fuel
  induction fuel with
  | zero =>
    intro st tr _ _ _ _ h
    unfold loop at h
    injection h with h1 h2
    cases h1
  | succ n ih =>
    intro st tr hc1 hcl hein hrs h
    unfold loop at h
    cases hs : step cfg st with
    | mk res tr1 =>
      rw [hs] at h
      cases res with
      | stop r =>
        dsimp only at h
        injection h with h1 h2
        subst h1
        have hpopn := step_impossible_pop hs
        exact ⟨st, hc1, hcl, hein, hrs, popBest_none_heap hpopn⟩
      | cont st1 =>
        dsimp only at h
        cases hl : loop cfg n st1 with
        | mk r2 tr2 =>
          rw [hl] at h
          dsimp only at h
          injection h with h1 h2
          obtain ⟨hc1b, hclb⟩ := step_cont_c1 hg hc1 hcl hs
          have heinb := step_cont_einheap hc1.1.1 hein hs
          obtain ⟨hmono, _⟩ := step_cont_mono_wf hc1.1.1.1 hs
          obtain ⟨rs, hrs1⟩ := Option.isSome_iff_exists.mp hrs
          obtain ⟨rs2, hrs2, _⟩ := hmono s rs hrs1
          exact ih hc1b hclb heinb (by rw [hrs2]; rfl) (by rw [hl, h1])

theorem relaxEdges_fail_src {cfg : Config} {cn : Node} :
    ∀ {l : List Edge} {st : AState} {err : Nat} {pp : List PPEv} {cs : List GCall},
    relaxEdges cfg cn st l = (.fail err, pp, cs) →
    ∃ n, cfg.g.heuristicCost n cfg.endN = .error err := by
  intro l
  induction l with
  | nil =>
    intro st err pp cs h
    unfold relaxEdges at h
    injection h with h1 h23
    cases h1
  | cons a rest ih =>
    intro st err pp cs h
    unfold relaxEdges at h
    cases hra : relaxEdge cfg cn st a with
    | mk out1 ppcs1 =>
      obtain ⟨pp1, cs1⟩ := ppcs1
      rw [hra] at h
      cases out1 with
      | ok st1 =>
        dsimp only at h
        cases hrr : relaxEdges cfg cn st1 rest with
        | mk out2 ppcs2 =>
          obtain ⟨pp2, cs2⟩ := ppcs2
          rw [hrr] at h
          dsimp only at h
          injection h with h1 h23
          exact ih (show relaxEdges cfg cn st1 rest = (.fail err, pp2, cs2) by
            rw [hrr, h1])
      | fail er =>
        dsimp only at h
        injection h with h1 h23
        injection h1 with h1
        obtain ⟨hq, _, _⟩ := relaxEdge_fail_cases hra
        exact ⟨a.node, by rw [← h1]; exact hq⟩
      | hang =>
        dsimp only at h
        injection h with h1 h23
        cases h1

theorem expand_gerr_src {cfg : Config} {cur : NodeInfo} {st1 : AState} {err : Nat}
    {pp : List PPEv} {cs : List GCall}
    (h : expand cfg cur st1 = (.stop (.gerr err), pp, cs)) :
    (∃ n, cfg.g.neighbors n = .error err) ∨
    (∃ n, cfg.g.heuristicCost n cfg.endN = .error err) := by
  unfold expand at h
  cases hnb : cfg.g.neighbors cur.node with
  | error e =>
    simp only [hnb] at h
    injection h with h1 h2
    injection h1 with h1
    injection h1 with h1
    exact Or.inl ⟨cur.node, by rw [← h1]; exact hnb⟩
  | ok es =>
    simp only [hnb] at h
    cases hrel : relaxEdges cfg cur.node st1 es with
    | mk out ppcs =>
      obtain ⟨pp2, cs2⟩ := ppcs
      simp only [hrel] at h
      cases out with
      | ok st2 =>
        injection h with h1 h2
        cases h1
      | fail e =>
        injection h with h1 h2
        injection h1 with h1
        injection h1 with h1
        exact Or.inr (relaxEdges_fail_src (show relaxEdges cfg cur.node st1 es =
          (.fail err, pp2, cs2) by rw [hrel, h1]))
      | hang =>
        injection h with h1 h2
        injection h1 with h1
        cases h1

theorem step_gerr_src {cfg : Config} {st : AState} {err : Nat} {tr : Trace}
    (h : step cfg st = (.stop (.gerr err), tr)) :
    (∃ n, cfg.g.neighbors n = .error err) ∨
    (∃ n, cfg.g.heuristicCost n cfg.endN = .error err) := by
  unfold step at h
  cases hpop : popBest st with
  | none =>
    simp only [hpop] at h
    injection h with h1 h2
    injection h1 with h1
    cases h1
  | some pr =>
    obtain ⟨cur, stp⟩ := pr
    simp only [hpop] at h
    by_cases hend : cur.node = cfg.endN
    · rw [if_pos hend] at h
      cases hpath : pathToNode stp cur with
      | none =>
        simp only [hpath] at h
        injection h with h1 h2
        injection h1 with h1
        cases h1
      | some p =>
        simp only [hpath] at h
        injection h with h1 h2
        injection h1 with h1
        cases h1
    · rw [if_neg hend] at h
      by_cases hge : geMax cur.cost stp.maxCost
      · rw [if_pos hge] at h
        injection h with h1 h2
        cases h1
      · rw [if_neg hge] at h
        cases hex : expand cfg cur stp with
        | mk res ppcs =>
          obtain ⟨pp, cs⟩ := ppcs
          simp only [hex] at h
          cases res with
          | cont st2 =>
            injection h with h1 h2
            cases h1
          | stop r =>
            injection h with h1 h2
            injection h1 with h1
            exact expand_gerr_src (h1 ▸ hex)

theorem loop_gerr_src {cfg : Config} :
    ∀ {fuel : Nat} {st : AState} {err : Nat} {tr : Trace},
    loop cfg fuel st = (.gerr err, tr) →
    (∃ n, cfg.g.neighbors n = .error err) ∨
    (∃ n, cfg.g.heuristicCost n cfg.endN = .error err) := by
  intro fuel
  induction fuel with
  | zero =>
    intro st err tr h
    unfold loop at h
    injection h with h1 h2
    cases h1
  | succ n ih =>
    intro st err tr h
    unfold loop at h
    cases hs : step cfg st with
    | mk res tr1 =>
      rw [hs] at h
      cases res with
      | stop r =>
        dsimp only at h
        injection h with h1 h2
        subst h1
        exact step_gerr_src hs
      | cont st1 =>
        dsimp only at h
        cases hl : loop cfg n st1 with
        | mk r2 tr2 =>
          rw [hl] at h
          dsimp only at h
          injection h with h1 h2
          exact ih (by rw [hl, h1])

/-- The graph of the C3 counterexample: the only route from 0 to 5 passes
through the node −1. -/
def gC3 : Graph :=
  ⟨fun n => if n = 0 then .ok [⟨-1, 1⟩] else if n = -1 then .ok [⟨5, 1⟩]
    else .ok [],
    fun _ _ => .ok 0⟩

/-- Claim C3 counterexample: on `gC3` (non-negative costs, non-failing
callbacks) `FindPath` returns the Unreachable verdict although the valid
path `[0, -1, 5]` of cost 2 exists: the edge 0 → −1 is silently skipped
because −1 equals the start record's parent sentinel. -/
theorem claim_C3_counterexample :
    (∀ n es, gC3.neighbors n = .ok es → ∀ ed ∈ es, 0 ≤ ed.cost) ∧
    (∀ n e, gC3.heuristicCost n e = .ok 0) ∧
    FindPath gC3 false false 2 0 5 = .impossible ∧
    PathTo gC3 0 5 [0, -1, 5] 2 := by
  refine ⟨?_, fun n e => rfl, by decide, ?_⟩
  · intro n es hes ed hed
    unfold gC3 at hes
    dsimp only at hes
    by_cases h0 : n = 0
    · rw [if_pos h0] at hes
      injection hes with hes
      rw [← hes] at hed
      simp only [List.mem_cons, List.not_mem_nil, or_false] at hed
      rw [hed]
      decide
    · rw [if_neg h0] at hes
      by_cases h1 : n = -1
      · rw [if_pos h1] at hes
        injection hes with hes
        rw [← hes] at hed
        simp only [List.mem_cons, List.not_mem_nil, or_false] at hed
        rw [hed]
        decide
      · rw [if_neg h1] at hes
        injection hes with hes
        rw [← hes] at hed
        cases hed
  · have e1 : ReportsEdge gC3 0 (-1) 1 := ⟨[⟨-1, 1⟩], rfl, List.mem_cons_self _ _⟩
    have e2 : ReportsEdge gC3 (-1) 5 1 := ⟨[⟨5, 1⟩], rfl, List.mem_cons_self _ _⟩
    have h2 : PathTo gC3 (-1) 5 [-1, 5] (1 + 0) :=
      PathTo.cons (-1) 5 5 1 [5] 0 e2 (PathTo.nil 5)
    have h1 : PathTo gC3 0 5 [0, -1, 5] (1 + (1 + 0)) :=
      PathTo.cons 0 (-1) 5 1 [-1, 5] (1 + 0) e1 h2
    have he : (1 : Rat) + (1 + 0) = 2 := by norm_num
    rw [← he]
    exact h1

/-- Claim C3 (amended): on a graph with a finite closed node universe,
non-negative edge costs, no edge into −1, a start other than −1 and total
callbacks, the Unreachable verdict is sound and complete: any run returning
it proves no valid start-to-goal path exists, and when no path exists some
fuel bound reaches that verdict. -/
theorem claim_C3 (g : Graph) (hd hp : Bool) (s e : Node) (V : List Node)
    (H : Node → Rat) (hs : s ≠ -1) (hsV : s ∈ V)
    (hcond : ∀ n es, g.neighbors n = .ok es → ∀ ed ∈ es, 0 ≤ ed.cost ∧ ed.node ≠ -1)
    (hVc : ∀ n ∈ V, ∀ es, g.neighbors n = .ok es → ∀ ed ∈ es, ed.node ∈ V)
    (hheur : ∀ n, g.heuristicCost n e = .ok (H n))
    (hnb : ∀ n, ∃ es, g.neighbors n = .ok es) :
    (∀ fuel, FindPath g hd hp fuel s e = .impossible → ∀ q c, ¬ PathTo g s e q c) ∧
    ((∀ q c, ¬ PathTo g s e q c) →
      ∃ fuel, FindPath g hd hp fuel s e = .impossible) := by
  have hgOk : GraphOk ⟨g, e, hd, hp⟩ H := ⟨hcond, hheur⟩
  constructor
  · intro fuel himp q c hpath
    unfold FindPath findPathT at himp
    rw [hheur s] at himp
    dsimp only at himp
    cases hl : loop ⟨g, e, hd, hp⟩ fuel (initState (H s) s) with
    | mk r tr =>
      rw [hl] at himp
      dsimp only at himp
      subst himp
      obtain ⟨hc1, hcl, hrs0⟩ := c1_initState ⟨g, e, hd, hp⟩ H s hs
      obtain ⟨rs, hrs1, _⟩ := hrs0
      obtain ⟨st2, hc1b, hclb, heinb, hrsb, hheapb⟩ :=
        loop_impossible_c1 hgOk hc1 hcl (einheap_initState e (H s) s)
          (by rw [hrs1]; rfl) hl
      exact impossible_no_path hc1b hclb heinb hrsb hheapb q c hpath
  · intro hnopath
    refine ⟨phi (subSums (weightsOf g V)) V (initState (H s) s) + 1, ?_⟩
    unfold FindPath findPathT
    rw [hheur s]
    dsimp only
    cases hl : loop ⟨g, e, hd, hp⟩
        (phi (subSums (weightsOf g V)) V (initState (H s) s) + 1)
        (initState (H s) s) with
    | mk r tr =>
      dsimp only
      cases r with
      | impossible => rfl
      | found p =>
        exfalso
        obtain ⟨hc1, hcl, hrs0⟩ := c1_initState ⟨g, e, hd, hp⟩ H s hs
        obtain ⟨st2, cur, stp, hc1b, hclb, hrsb, hpop, hend, hpath⟩ :=
          loop_found_c1 hgOk hc1 hcl hrs0 hl
        obtain ⟨hc1p, hcurp, _, _⟩ := popBest_c1 hc1b hpop
        obtain ⟨q2, hq2⟩ := hc1p.2.2.2.1 cur.node cur hcurp
        rw [hend] at hq2
        exact hnopath q2 cur.cost hq2
      | gerr err =>
        exfalso
        rcases loop_gerr_src hl with ⟨n, hn⟩ | ⟨n, hn⟩
        · obtain ⟨es, hes⟩ := hnb n
          rw [hes] at hn
          cases hn
        · rw [hheur n] at hn
          cases hn
      | hang =>
        exfalso
        exact loop_no_hang hcond (invAll_initState g e hd hp (H s) s hs) hl
      | timeout =>
        exfalso
        have hres := loop_c7 hcond hsV hVc rfl
          (c7_initState ⟨g, e, hd, hp⟩ s V (H s) hs hsV)
          (show phi (subSums (weightsOf g V)) V (initState (H s) s) <
            phi (subSums (weightsOf g V)) V (initState (H s) s) + 1 by omega)
        rw [hl] at hres
        exact hres rfl

/-- Witness: on the empty graph with unreachable goal 5 the amended
equivalence applies. -/
theorem claim_C3_witness :
    (∀ fuel, FindPath gEmpty false false fuel 0 5 = .impossible →
      ∀ q c, ¬ PathTo gEmpty 0 5 q c) ∧
    ((∀ q c, ¬ PathTo gEmpty 0 5 q c) →
      ∃ fuel, FindPath gEmpty false false fuel 0 5 = .impossible) :=
  claim_C3 gEmpty false false 0 5 [0] (fun _ => 0) (by decide) (by decide)
    (by intro n es hes ed hed; injection hes with h; rw [← h] at hed; cases hed)
    (by intro n hn es hes ed hed; injection hes with h; rw [← h] at hed; cases hed)
    (fun n => rfl) (fun n => ⟨[], rfl⟩)

end AStarVer